import Mathlib

/-!
Verification of the pelican inference-engine library.

The development shallowly embeds the library's three components
(src/map.rs, src/unification.rs, src/substitution.rs together with
src/substitution/graph.rs and src/substitution/graph/tarjan.rs) as
executable Lean definitions, and proves the specified properties about
them.  Rust HashMap/HashSet values are represented as association lists
resp. deduplicated lists; iteration orders that Rust leaves unspecified
(HashMap iteration) are fixed to the list order of the embedding.
-/

namespace Pelican

/-! ## Association-list helpers (model of HashMap lookup) -/

instance {ε α : Type} [DecidableEq ε] [DecidableEq α] : DecidableEq (Except ε α)
  | Except.ok a, Except.ok b =>
    if h : a = b then isTrue (by rw [h]) else isFalse (by intro hc; cases hc; exact h rfl)
  | Except.ok _, Except.error _ => isFalse (by intro hc; cases hc)
  | Except.error _, Except.ok _ => isFalse (by intro hc; cases hc)
  | Except.error e, Except.error f =>
    if h : e = f then isTrue (by rw [h]) else isFalse (by intro hc; cases hc; exact h rfl)

/-- First-match lookup, the observable behaviour of HashMap::get when
entries are consed with shadowing. -/
def alookup {K V : Type} [DecidableEq K] (l : List (K × V)) (k : K) : Option V :=
  (l.find? (fun p => p.1 = k)).map (fun p => p.2)

/-! ## Layered map (src/map.rs)

`Map<K, V>` is a `ClaimArc` (reference-counted pointer) to a `MapInner`
cell holding an optional parent map and a `HashMap` layer.  We model the
run-time object graph explicitly: a heap of cells addressed by `Nat`,
plus the multiset of live user handles.  The reference count of a cell
as seen by `Arc::get_mut` is the number of live user handles pointing at
it plus the number of cells whose `parent` field points at it. -/

structure Cell (K V : Type) where
  parent : Option Nat
  current : List (K × V)
deriving DecidableEq

/-- The heap: all allocated cells (addressed by list position) and the
multiset of live user handles (cell addresses). -/
structure MState (K V : Type) where
  cells : List (Cell K V)
  handles : List Nat
deriving DecidableEq

/-- Number of cells whose parent pointer references cell `h`. -/
def parentRefs {K V : Type} (cells : List (Cell K V)) (h : Nat) : Nat :=
  (cells.filter (fun c => c.parent = some h)).length

/-- The cell stored at address `h` (out-of-range reads give a vacuous
empty cell; reachable states never perform them). -/
def cellAt {K V : Type} (cells : List (Cell K V)) (h : Nat) : Cell K V :=
  (cells.get? h).getD ⟨none, []⟩

/-- `Map::new()`: allocate a fresh root cell and hand out a handle to it. -/
def mnew {K V : Type} (s : MState K V) : Nat × MState K V :=
  (s.cells.length, ⟨s.cells ++ [⟨none, []⟩], s.cells.length :: s.handles⟩)

/-- `Claim for Map`: a new handle to the same cell, no data copy. -/
def mclaim {K V : Type} (s : MState K V) (h : Nat) : Nat × MState K V :=
  (h, ⟨s.cells, h :: s.handles⟩)

/-- `Map::update`: consumes the handle `h`.  If `h` is the unique
reference to its cell (no other live handle, no parent pointer), insert
in place; otherwise allocate a new cell with a one-entry layer whose
parent is the old cell. -/
def mupdate {K V : Type} [DecidableEq K] [DecidableEq V]
    (s : MState K V) (h : Nat) (k : K) (v : V) : Nat × MState K V :=
  let others := s.handles.erase h
  if others.count h = 0 ∧ parentRefs s.cells h = 0 then
    let c := cellAt s.cells h
    (h, ⟨s.cells.set h ⟨c.parent, (k, v) :: c.current⟩, h :: others⟩)
  else
    (s.cells.length, ⟨s.cells ++ [⟨some h, [(k, v)]⟩], s.cells.length :: others⟩)

/-- `Map::get`: walk from the cell's own layer through the parent chain,
returning the first hit.  The fuel `h+1` suffices because in well-formed
heaps every parent pointer strictly decreases the address. -/
def mgetAux {K V : Type} [DecidableEq K]
    (cells : List (Cell K V)) : Nat → Nat → K → Option V
  | 0, _, _ => none
  | fuel+1, h, k =>
    let c := cellAt cells h
    match alookup c.current k with
    | some v => some v
    | none =>
      match c.parent with
      | some p => mgetAux cells fuel p k
      | none => none

def mget {K V : Type} [DecidableEq K] (s : MState K V) (h : Nat) (k : K) :
    Option V :=
  mgetAux s.cells (h + 1) h k

/-- Heap well-formedness: parent pointers go strictly downwards (cells
are allocated after their parents). -/
def MWF {K V : Type} (cells : List (Cell K V)) : Prop :=
  ∀ i c p, cells.get? i = some c → c.parent = some p → p < i

/-- Thread a sequence of `update` calls through a handle. -/
def mupdates {K V : Type} [DecidableEq K] [DecidableEq V]
    (us : List (K × V)) (hs : Nat × MState K V) : Nat × MState K V :=
  us.foldl (fun hs kv => mupdate hs.2 hs.1 kv.1 kv.2) hs

/-! ### Frame property of claimed handles -/

theorem take_set_of_le {α : Type} :
    ∀ (l : List α) (n m : Nat) (a : α), m ≤ n → (l.set n a).take m = l.take m := by
  intro l
  induction l with
  | nil => intro n m a _; simp
  | cons x xs ih =>
    intro n m a hmn
    cases n with
    | zero =>
      have : m = 0 := Nat.le_zero.mp hmn
      subst this; simp
    | succ n =>
      cases m with
      | zero => simp
      | succ m =>
        simp only [List.set, List.take]
        rw [ih n m a (Nat.succ_le_succ_iff.mp hmn)]

theorem cellAt_of_prefix {K V : Type} {cs0 cs : List (Cell K V)} (hpre : cs0 <+: cs)
    {h : Nat} (hlen : h < cs0.length) : cellAt cs h = cellAt cs0 h := by
  obtain ⟨t, rfl⟩ := hpre
  unfold cellAt
  rw [List.get?_append hlen]

theorem mgetAux_of_prefix {K V : Type} [DecidableEq K] {cs0 cs : List (Cell K V)}
    (hWF : MWF cs0) (hpre : cs0 <+: cs) :
    ∀ (fuel h : Nat), h < cs0.length → ∀ k, mgetAux cs fuel h k = mgetAux cs0 fuel h k := by
  intro fuel
  induction fuel with
  | zero => intro h _ k; rfl
  | succ fuel ih =>
    intro h hlen k
    simp only [mgetAux, cellAt_of_prefix hpre hlen]
    cases hl : alookup (cellAt cs0 h).current k with
    | some v => rfl
    | none =>
      cases hp : (cellAt cs0 h).parent with
      | none => rfl
      | some p =>
        have hget : cs0.get? h = some (cellAt cs0 h) := by
          unfold cellAt
          cases hg : cs0.get? h with
          | none => exact absurd (List.get?_eq_none.mp hg) (Nat.not_le.mpr hlen)
          | some c => rfl
        have hp_lt : p < h := hWF h _ p hget hp
        exact ih p (Nat.lt_trans hp_lt hlen) k

/-- Invariant threaded through a sequence of updates performed on a handle
claimed from `h` while the original handle to `h` stays live: the original
cells are a stable prefix of the heap, and the working handle is either
still `h` with another live handle to it, or a cell allocated later. -/
def updInv {K V : Type} (cs0 : List (Cell K V)) (h : Nat)
    (ws : Nat × MState K V) : Prop :=
  cs0 <+: ws.2.cells ∧
    ((ws.1 = h ∧ 1 ≤ (ws.2.handles.erase ws.1).count h) ∨ cs0.length ≤ ws.1)

theorem updInv_step {K V : Type} [DecidableEq K] [DecidableEq V]
    {cs0 : List (Cell K V)} {h : Nat} {ws : Nat × MState K V}
    (hinv : updInv cs0 h ws) (k : K) (v : V) :
    updInv cs0 h (mupdate ws.2 ws.1 k v) := by
  obtain ⟨hpre, hcase⟩ := hinv
  have hlen0 : cs0.length ≤ ws.2.cells.length := hpre.length_le
  rcases hcase with ⟨hw, hcount⟩ | hge
  · -- the original handle to the same cell is still live: copy-on-write
    have hne : ¬((ws.2.handles.erase ws.1).count ws.1 = 0 ∧
        parentRefs ws.2.cells ws.1 = 0) := by
      rw [hw] at hcount ⊢
      intro hcontra
      omega
    unfold mupdate
    rw [if_neg hne]
    refine ⟨hpre.trans (List.prefix_append _ _), Or.inr hlen0⟩
  · -- the working handle addresses a cell allocated after the snapshot
    unfold mupdate
    by_cases hc : (ws.2.handles.erase ws.1).count ws.1 = 0 ∧
        parentRefs ws.2.cells ws.1 = 0
    · rw [if_pos hc]
      refine ⟨?_, Or.inr hge⟩
      rw [List.prefix_iff_eq_take] at hpre ⊢
      rw [take_set_of_le _ _ _ _ hge, ← hpre]
    · rw [if_neg hc]
      exact ⟨hpre.trans (List.prefix_append _ _), Or.inr hlen0⟩

theorem updInv_fold {K V : Type} [DecidableEq K] [DecidableEq V]
    {cs0 : List (Cell K V)} {h : Nat} (us : List (K × V)) :
    ∀ (ws : Nat × MState K V), updInv cs0 h ws → updInv cs0 h (mupdates us ws) := by
  induction us with
  | nil => intro ws hws; exact hws
  | cons u us ih =>
    intro ws hws
    exact ih _ (updInv_step hws u.1 u.2)

/-- C9: for every layered map handle `h` and key `k`, if a second handle is
produced by `claim()` and then updated by any sequence of `update` calls,
`get` through the original handle returns the same result as before the
updates: updates through a handle claimed after `h` are never visible
through `h`. -/
theorem mget_after_claimed_updates {K V : Type} [DecidableEq K] [DecidableEq V]
    (s : MState K V) (h : Nat) (hWF : MWF s.cells) (hlen : h < s.cells.length)
    (hlive : h ∈ s.handles) (us : List (K × V)) (k : K) :
    mget (mupdates us (mclaim s h)).2 h k = mget s h k := by
  have hinv0 : updInv s.cells h (mclaim s h) := by
    refine ⟨List.prefix_refl _, Or.inl ⟨rfl, ?_⟩⟩
    show 1 ≤ ((h :: s.handles).erase h).count h
    rw [List.erase_cons_head]
    exact List.one_le_count_iff.mpr hlive
  have hinv := updInv_fold us _ hinv0
  obtain ⟨hpre, _⟩ := hinv
  exact mgetAux_of_prefix hWF hpre (h + 1) h hlen k

/-- Witness for C9 at a concrete heap: a fresh map holding one binding,
claimed and updated twice through the claimed handle. -/
theorem mget_after_claimed_updates_witness :
    (let s : MState Nat Nat := ⟨[⟨none, [(1, 10)]⟩], [0]⟩
     MWF s.cells ∧ 0 < s.cells.length ∧ 0 ∈ s.handles ∧
      mget (mupdates [(1, 99), (2, 7)] (mclaim s 0)).2 0 1 = mget s 0 1) := by
  refine ⟨?_, by decide, by decide, ?_⟩
  · intro i c p hg hp
    match i, hg with
    | 0, hg =>
      simp only [List.get?] at hg
      cases hg
      simp at hp
  · exact mget_after_claimed_updates _ 0
      (by intro i c p hg hp
          match i, hg with
          | 0, hg =>
            simp only [List.get?] at hg
            cases hg
            simp at hp)
      (by decide) (by decide) [(1, 99), (2, 7)] 1

/-! ## Substitution table surface (src/substitution.rs: Table, fact, dependency)

`Var` is a monotonic counter value; we use bare `Nat`.  `known` is the
facts HashMap, `unknown` the dependency HashMap (sets of targets as
deduplicated lists). -/

structure STable (T : Type) where
  nextVar : Nat
  known : List (Nat × T)
  unknown : List (Nat × List Nat)
deriving DecidableEq

def STable.empty {T : Type} : STable T := ⟨0, [], []⟩

/-- `Table::var` -/
def STable.var {T : Type} (t : STable T) : Nat × STable T :=
  (t.nextVar, { t with nextVar := t.nextVar + 1 })

/-- `HashMap::remove` on an association list. -/
def eraseKey {α : Type} (l : List (Nat × α)) (k : Nat) : List (Nat × α) :=
  l.filter (fun p => p.1 ≠ k)

/-- `unknown.entry(var).or_default().insert(depends_on)`: update the
entry in place if present (HashSet insert, idempotent), otherwise append
a fresh singleton entry. -/
def addDep : List (Nat × List Nat) → Nat → Nat → List (Nat × List Nat)
  | [], v, w => [(v, [w])]
  | (u, l) :: rest, v, w =>
    if u = v then (u, if w ∈ l then l else w :: l) :: rest
    else (u, l) :: addDep rest v w

/-- `Table::fact`: returns the table after the call together with
`some var` when the call failed with `DuplicateFactError(var)`.  The
source returns `Err` before touching either map, so a failing call
leaves the table as it was. -/
def STable.fact {T : Type} (t : STable T) (v : Nat) (x : T) :
    STable T × Option Nat :=
  if (alookup t.known v).isSome then (t, some v)
  else
    ({ t with known := (v, x) :: t.known, unknown := eraseKey t.unknown v },
      none)

/-- `Table::dependency`: no-op when a fact exists for `var`. -/
def STable.dependency {T : Type} (t : STable T) (v w : Nat) : STable T :=
  if (alookup t.known v).isSome then t
  else { t with unknown := addDep t.unknown v w }

theorem eraseKey_addDep (l : List (Nat × List Nat)) (v w : Nat) :
    eraseKey (addDep l v w) v = eraseKey l v := by
  induction l with
  | nil => simp [addDep, eraseKey]
  | cons p rest ih =>
    obtain ⟨u, dl⟩ := p
    by_cases huv : u = v
    · subst huv
      simp [addDep, eraseKey, List.filter_cons]
    · unfold eraseKey at ih ⊢
      simp only [ne_eq, decide_not] at ih
      simp [addDep, huv, List.filter_cons, ih]

/-- C7: with no prior fact for `v`, the sequences (fact; dependency),
(dependency; fact) and (fact alone) produce identical tables, in which
`v` has value `x` and retains no dependency edges. -/
theorem fact_supersedes_dependency {T : Type} (t : STable T) (v w : Nat) (x : T)
    (hv : alookup t.known v = none) :
    (((t.fact v x).1.dependency v w) = (t.fact v x).1 ∧
      ((t.dependency v w).fact v x).1 = (t.fact v x).1) ∧
    alookup (t.fact v x).1.known v = some x ∧
    alookup (t.fact v x).1.unknown v = none := by
  have hvn : (alookup t.known v).isSome = false := by rw [hv]; rfl
  have hfact : (t.fact v x).1 =
      { t with known := (v, x) :: t.known, unknown := eraseKey t.unknown v } := by
    unfold STable.fact
    rw [if_neg (by simp [hvn])]
  constructor
  · constructor
    · rw [hfact]
      unfold STable.dependency
      rw [if_pos (by simp [alookup, List.find?])]
    · have hdep : t.dependency v w = { t with unknown := addDep t.unknown v w } := by
        unfold STable.dependency
        rw [if_neg (by simp [hvn])]
      have h2 : ((t.dependency v w).fact v x).1 =
          { t with known := (v, x) :: t.known,
                   unknown := eraseKey (addDep t.unknown v w) v } := by
        rw [hdep]
        unfold STable.fact
        rw [if_neg (by simp [hvn])]
      rw [h2, hfact, eraseKey_addDep]
  · rw [hfact]
    refine ⟨by simp [alookup, List.find?], ?_⟩
    show alookup (eraseKey t.unknown v) v = none
    unfold alookup
    cases hfind : (eraseKey t.unknown v).find? (fun p => p.1 = v) with
    | none => rfl
    | some p =>
      have hmem := List.find?_some hfind
      have hpmem := List.mem_of_find?_eq_some hfind
      unfold eraseKey at hpmem
      have := List.of_mem_filter hpmem
      simp at this hmem
      exact absurd hmem this

/-- Witness for C7 at a concrete table. -/
theorem fact_supersedes_dependency_witness :
    (let t : STable Bool := ⟨2, [], [(0, [3])]⟩
     alookup t.known 0 = none ∧
      ((((t.fact 0 true).1.dependency 0 1) = (t.fact 0 true).1 ∧
        ((t.dependency 0 1).fact 0 true).1 = (t.fact 0 true).1) ∧
      alookup (t.fact 0 true).1.known 0 = some true ∧
      alookup (t.fact 0 true).1.unknown 0 = none)) :=
  ⟨by decide, fact_supersedes_dependency _ 0 1 true (by decide)⟩

/-- C8: a second `fact(v, _)` returns `DuplicateFactError(v)` and leaves
the table (both maps, and the first value of `v`) unchanged. -/
theorem duplicate_fact_unchanged {T : Type} (t : STable T) (v : Nat) (x0 y : T)
    (hv : alookup t.known v = some x0) :
    t.fact v y = (t, some v) ∧ alookup (t.fact v y).1.known v = some x0 ∧
      (t.fact v y).1.unknown = t.unknown := by
  have : (alookup t.known v).isSome = true := by rw [hv]; rfl
  have hfact : t.fact v y = (t, some v) := by
    unfold STable.fact
    rw [if_pos this]
  exact ⟨hfact, by rw [hfact]; exact hv, by rw [hfact]⟩

/-- Witness for C8 at a concrete table. -/
theorem duplicate_fact_unchanged_witness :
    (let t : STable Bool := ⟨1, [(0, true)], []⟩
     alookup t.known 0 = some true ∧
      (t.fact 0 false = (t, some 0) ∧
        alookup (t.fact 0 false).1.known 0 = some true ∧
        (t.fact 0 false).1.unknown = t.unknown)) :=
  ⟨by decide, duplicate_fact_unchanged _ 0 true false (by decide)⟩

/-! ## Unification table (src/unification.rs)

The table wraps ena's `InPlaceUnificationTable`; the union-find is an
external crate, modelled here by redirection links (`parent`) and root
values (`value`).  ena's rank-based tie-breaking between two value-free
roots is implementation-defined but deterministic; the model fixes the
surviving root to be the second argument's root.  The claims proved
below (C5, C6) do not depend on that choice. -/

inductive ValueOrVar (T : Type) where
  | value : T → ValueOrVar T
  | var : Nat → ValueOrVar T
deriving DecidableEq

structure UFState (T : Type) where
  next : Nat
  parent : List (Nat × Nat)
  value : List (Nat × T)
deriving DecidableEq

/-- `find`: follow redirection links to the representative.  The fuel
bounds the walk by the number of keys; in reachable states links are
acyclic so the fuel is never exhausted. -/
def ufFind {T : Type} (u : UFState T) : Nat → Nat → Nat
  | 0, v => v
  | fuel+1, v =>
    match alookup u.parent v with
    | none => v
    | some p => ufFind u fuel p

def findRoot {T : Type} (u : UFState T) (v : Nat) : Nat :=
  ufFind u u.next v

/-- `Unifier::probe`: the concrete value of the class if it has one,
otherwise the canonical representative variable. -/
def probe {T : Type} (u : UFState T) (v : Nat) : ValueOrVar T :=
  let r := findRoot u v
  match alookup u.value r with
  | some x => ValueOrVar.value x
  | none => ValueOrVar.var r

/-- `Unifier::unify_var_var` (ena `unify_var_var` with
`Option<Value<T>>` values: both-some invokes the client merge). -/
def unifyVarVar {T E : Type} (merge : T → T → Except E T) (u : UFState T)
    (a b : Nat) : Except E (UFState T) :=
  let ra := findRoot u a
  let rb := findRoot u b
  if ra = rb then Except.ok u
  else
    match alookup u.value ra, alookup u.value rb with
    | none, none => Except.ok { u with parent := (ra, rb) :: u.parent }
    | some x, none =>
      Except.ok { u with parent := (ra, rb) :: u.parent, value := (rb, x) :: u.value }
    | none, some _ =>
      Except.ok { u with parent := (ra, rb) :: u.parent }
    | some x, some y =>
      (merge x y).map fun z =>
        { u with parent := (ra, rb) :: u.parent, value := (rb, z) :: u.value }

/-- `Unifier::unify_var_value`. -/
def unifyVarValue {T E : Type} (merge : T → T → Except E T) (u : UFState T)
    (v : Nat) (x : T) : Except E (UFState T) :=
  let r := findRoot u v
  match alookup u.value r with
  | none => Except.ok { u with value := (r, x) :: u.value }
  | some y => (merge y x).map fun z => { u with value := (r, z) :: u.value }

/-- `Table<T>`: union-find state, the clean snapshot (the `next` counter
at construction time) and the deferred constraint queue. -/
structure UTable (T : Type) where
  uf : UFState T
  snap : Nat
  constraints : List (ValueOrVar T × ValueOrVar T)
deriving DecidableEq

def UTable.new {T : Type} : UTable T := ⟨⟨0, [], []⟩, 0, []⟩

/-- `Table::var` -/
def UTable.var {T : Type} (t : UTable T) : Nat × UTable T :=
  (t.uf.next, { t with uf := { t.uf with next := t.uf.next + 1 } })

/-- `Table::constraint`: pushed at the end, processed in insertion order. -/
def UTable.constraint {T : Type} (t : UTable T)
    (l r : ValueOrVar T) : UTable T :=
  { t with constraints := t.constraints ++ [(l, r)] }

/-- `Table::get_vars`: the contiguous range `[snap, next)`. -/
def getVars {T : Type} (t : UTable T) : List Nat :=
  (List.range (t.uf.next - t.snap)).map (· + t.snap)

/-- The drain loop of `Table::unify`: each constraint is handed to the
client `Unify::unify` callback (an arbitrary state transformer over the
`Unifier`), stopping at the first error. -/
def processCs {T E : Type}
    (step : ValueOrVar T → ValueOrVar T → UFState T → Except E (UFState T)) :
    List (ValueOrVar T × ValueOrVar T) → UFState T → Except E (UFState T)
  | [], u => Except.ok u
  | c :: cs, u =>
    match step c.1 c.2 u with
    | Except.error e => Except.error e
    | Except.ok u2 => processCs step cs u2

/-- `Table::unify`. -/
def utUnify {T E : Type}
    (step : ValueOrVar T → ValueOrVar T → UFState T → Except E (UFState T))
    (t : UTable T) : Except E (List (Nat × ValueOrVar T)) :=
  match processCs step t.constraints t.uf with
  | Except.error e => Except.error e
  | Except.ok u => Except.ok ((getVars t).map fun v => (v, probe u v))

/-- The drain loop instrumented with the list of callback invocations
actually performed (the operands passed to `Unify::unify`, in order).
Its first component is `processCs`; the second observes the calls. -/
def processTrace {T E : Type}
    (step : ValueOrVar T → ValueOrVar T → UFState T → Except E (UFState T)) :
    List (ValueOrVar T × ValueOrVar T) → UFState T →
      Except E (UFState T) × List (ValueOrVar T × ValueOrVar T)
  | [], u => (Except.ok u, [])
  | c :: cs, u =>
    match step c.1 c.2 u with
    | Except.error e => (Except.error e, [c])
    | Except.ok u2 =>
      let r := processTrace step cs u2
      (r.1, c :: r.2)

theorem processTrace_fst {T E : Type}
    (step : ValueOrVar T → ValueOrVar T → UFState T → Except E (UFState T)) :
    ∀ (cs : List (ValueOrVar T × ValueOrVar T)) (u : UFState T),
      (processTrace step cs u).1 = processCs step cs u := by
  intro cs
  induction cs with
  | nil => intro u; rfl
  | cons c cs ih =>
    intro u
    simp only [processTrace, processCs]
    cases step c.1 c.2 u with
    | error e => rfl
    | ok u2 => exact ih u2

theorem alookup_map_self {α : Type} [DecidableEq α] {β : Type} (f : α → β) :
    ∀ (l : List α) (v : α), v ∈ l → alookup (l.map fun x => (x, f x)) v = some (f v) := by
  intro l
  induction l with
  | nil => intro v hv; cases hv
  | cons x xs ih =>
    intro v hv
    by_cases hxv : x = v
    · subst hxv
      simp [alookup, List.find?]
    · have : v ∈ xs := by
        cases hv with
        | head => exact absurd rfl hxv
        | tail _ h => exact h
      simp only [List.map, alookup, List.find?]
      rw [show (decide (x = v)) = false from by simp [hxv]]
      exact ih v this

/-- C5: a successful `unify()` returns a map whose domain is exactly the
variables allocated since the clean snapshot, each bound to `probe` of
the final union-find state — the class value if the class carries one,
else the canonical representative. -/
theorem utUnify_domain_probe {T E : Type}
    (step : ValueOrVar T → ValueOrVar T → UFState T → Except E (UFState T))
    (t : UTable T) (m : List (Nat × ValueOrVar T))
    (hok : utUnify step t = Except.ok m) :
    ∃ u, processCs step t.constraints t.uf = Except.ok u ∧
      m.map Prod.fst = getVars t ∧
      ∀ v ∈ getVars t, alookup m v = some (probe u v) := by
  unfold utUnify at hok
  cases hrun : processCs step t.constraints t.uf with
  | error e => rw [hrun] at hok; cases hok
  | ok u =>
    rw [hrun] at hok
    refine ⟨u, rfl, ?_, ?_⟩
    · cases hok
      simp [Function.comp_def]
    · intro v hv
      cases hok
      exact alookup_map_self _ (getVars t) v hv

/-- Witness for C5: a two-variable table with one constraint resolved by
a client that unifies the two variables. -/
theorem utUnify_domain_probe_witness :
    (let step : ValueOrVar Bool → ValueOrVar Bool → UFState Bool →
        Except Unit (UFState Bool) := fun l r u =>
      match l, r with
      | ValueOrVar.var a, ValueOrVar.var b =>
        unifyVarVar (fun x _ => Except.ok x) u a b
      | ValueOrVar.var a, ValueOrVar.value x =>
        unifyVarValue (fun y _ => Except.ok y) u a x
      | _, _ => Except.error ()
     let t : UTable Bool := ⟨⟨2, [], []⟩, 0, [(ValueOrVar.var 0, ValueOrVar.value true)]⟩
     ∃ m, utUnify step t = Except.ok m ∧
      ∃ u, processCs step t.constraints t.uf = Except.ok u ∧
        m.map Prod.fst = getVars t ∧
        ∀ v ∈ getVars t, alookup m v = some (probe u v)) := by
  refine ⟨_, rfl, ?_⟩
  exact utUnify_domain_probe _ _ _ rfl

/-- C6: `unify()` hands constraints to the client callback exactly once
each, in insertion order, with the stored operands; the first callback
error aborts the solve, is returned verbatim, and no later constraint is
processed.  `processTrace` is the drain loop instrumented with the list
of performed invocations, and its first component provably equals the
uninstrumented loop. -/
theorem utUnify_callback_protocol {T E : Type}
    (step : ValueOrVar T → ValueOrVar T → UFState T → Except E (UFState T))
    (t : UTable T) :
    ∃ k, k ≤ t.constraints.length ∧
      (processTrace step t.constraints t.uf).2 = t.constraints.take k ∧
      ((∃ u, (processTrace step t.constraints t.uf).1 = Except.ok u) →
        k = t.constraints.length) ∧
      (∀ e, (processTrace step t.constraints t.uf).1 = Except.error e →
        ∃ c u, t.constraints.get? (k - 1) = some c ∧ 1 ≤ k ∧
          processCs step (t.constraints.take (k - 1)) t.uf = Except.ok u ∧
          step c.1 c.2 u = Except.error e ∧
          utUnify step t = Except.error e) := by
  suffices h : ∀ (cs : List (ValueOrVar T × ValueOrVar T)) (u0 : UFState T),
      ∃ k, k ≤ cs.length ∧ (processTrace step cs u0).2 = cs.take k ∧
        ((∃ u, (processTrace step cs u0).1 = Except.ok u) → k = cs.length) ∧
        (∀ e, (processTrace step cs u0).1 = Except.error e →
          ∃ c u, cs.get? (k - 1) = some c ∧ 1 ≤ k ∧
            processCs step (cs.take (k - 1)) u0 = Except.ok u ∧
            step c.1 c.2 u = Except.error e) by
    obtain ⟨k, hk, htr, hokk, herr⟩ := h t.constraints t.uf
    refine ⟨k, hk, htr, hokk, ?_⟩
    intro e he
    obtain ⟨c, u, hc, hk1, hpre, hstep⟩ := herr e he
    refine ⟨c, u, hc, hk1, hpre, hstep, ?_⟩
    unfold utUnify
    rw [← processTrace_fst, he]
  intro cs
  induction cs with
  | nil =>
    intro u0
    exact ⟨0, Nat.le_refl 0, rfl, fun _ => rfl, fun e he => by cases he⟩
  | cons c cs ih =>
    intro u0
    cases hstep : step c.1 c.2 u0 with
    | error e0 =>
      refine ⟨1, Nat.succ_le_succ (Nat.zero_le _), ?_, ?_, ?_⟩
      · simp [processTrace, hstep]
      · intro ⟨u, hu⟩
        simp [processTrace, hstep] at hu
      · intro e he
        simp only [processTrace, hstep] at he
        cases he
        exact ⟨c, u0, rfl, Nat.le_refl 1, rfl, hstep⟩
    | ok u1 =>
      obtain ⟨k, hk, htr, hokk, herr⟩ := ih u1
      refine ⟨k + 1, Nat.succ_le_succ hk, ?_, ?_, ?_⟩
      · simp only [processTrace, hstep, List.take]
        rw [htr]
      · intro ⟨u, hu⟩
        simp only [processTrace, hstep] at hu
        rw [hokk ⟨u, hu⟩]
        rfl
      · intro e he
        simp only [processTrace, hstep] at he
        obtain ⟨c2, u, hc2, hk1, hpre, hs2⟩ := herr e he
        refine ⟨c2, u, ?_, Nat.le_add_left 1 k, ?_, hs2⟩
        · rw [Nat.add_sub_cancel]
          cases k with
          | zero => exact absurd hk1 (by decide)
          | succ k => simpa using hc2
        · rw [Nat.add_sub_cancel]
          cases k with
          | zero => exact absurd hk1 (by decide)
          | succ k =>
            simp only [List.take, processCs, hstep]
            simpa using hpre

/-! ## Directed graph (src/substitution/graph.rs)

`Graph<Node>` is a `HashMap<Node, HashSet<Node>>`; we use an
association list from node to a deduplicated child list.  `add_edge`
inserts the target into the source's child set and makes sure the
target is itself a key. -/

/-- `HashMap::insert` on an association list: replace in place, or
append a fresh entry. -/
def setEntry {α : Type} : List (Nat × α) → Nat → α → List (Nat × α)
  | [], k, a => [(k, a)]
  | (u, b) :: rest, k, a =>
    if u = k then (k, a) :: rest else (u, b) :: setEntry rest k a

/-- `HashSet::insert`: idempotent. -/
def insDedup (l : List Nat) (e : Nat) : List Nat :=
  if e ∈ l then l else l ++ [e]

def Graph : Type := List (Nat × List Nat)

instance : DecidableEq Graph := by unfold Graph; infer_instance

instance : Membership (Nat × List Nat) Graph := by unfold Graph; infer_instance

def Graph.children (g : Graph) (n : Nat) : Option (List Nat) := alookup g n

def Graph.childrenD (g : Graph) (n : Nat) : List Nat := (alookup g n).getD []

def Graph.nodes (g : Graph) : List Nat := g.map Prod.fst

def Graph.size (g : Graph) : Nat := g.length

/-- `Graph::add_edge`: `entry(start).or_default().insert(end)` then
`entry(end).or_default()`. -/
def Graph.addEdge (g : Graph) (s e : Nat) : Graph :=
  let g1 := setEntry g s (insDedup (g.childrenD s) e)
  if (alookup g1 e).isSome then g1 else g1 ++ [(e, [])]

/-- `Graph::add_edges`. -/
def Graph.addEdges (g : Graph) (s : Nat) (ends : List Nat) : Graph :=
  ends.foldl (fun g e => g.addEdge s e) g

/-- `Graph::delete_outgoing_edges`: `insert(node, HashSet::new())`. -/
def Graph.deleteOutgoing (g : Graph) (n : Nat) : Graph :=
  setEntry g n []

def Graph.fromEdges (es : List (Nat × Nat)) : Graph :=
  es.foldl (fun g p => g.addEdge p.1 p.2) []

/-! ## Tarjan (src/substitution/graph/tarjan.rs)

State of the traversal: the `IndexMap` (`num`, forward map; the backward
map is its inverse, kept in sync in the source), the next index, the
`Stack` of indexes (top first; the `on_stack` bitvector is membership),
the `Lowlink` array (association list, newest entry first) and the
components yielded so far.  The Rust recursion is structural; the
embedding uses fuel and `none` marks fuel exhaustion, which is proved
unreachable for the fuel supplied by `sccs`. -/

structure TS where
  num : List (Nat × Nat)
  nxt : Nat
  stk : List Nat
  low : List (Nat × Nat)
  out : List (List Nat)
deriving DecidableEq

def TS.initial : TS := ⟨[], 0, [], [], []⟩

/-- `IndexMap` backward lookup (node assigned to an index). -/
def TS.nodeOf (s : TS) (i : Nat) : Nat :=
  ((s.num.find? (fun p => p.2 = i)).map Prod.fst).getD 0

/-- `Lowlink::get` (defaults never hit in reachable states). -/
def TS.lowGet (s : TS) (i : Nat) : Nat := (alookup s.low i).getD 0

/-- `Lowlink::update`: store `min(current, new)`. -/
def TS.lowUpd (s : TS) (i v : Nat) : TS :=
  { s with low := (i, Nat.min (s.lowGet i) v) :: s.low }

/-- `Stack::pop_until`: the indexes popped (top first, target included)
and the remaining stack. -/
def popUntil : List Nat → Nat → List Nat × List Nat
  | [], _ => ([], [])
  | x :: rest, i =>
    if x = i then ([x], rest)
    else
      let pr := popUntil rest i
      (x :: pr.1, pr.2)

/-- The child loop of `tarjan_inner`: recurse (through `recur`, the
one-level-less-fuel `tarjanInner`) into unvisited children, and take
lowlink minima from visited on-stack children and from the lowlink of
recursed children. -/
def visitChildren (recur : Nat → TS → Option (Nat × TS)) (i : Nat) :
    List Nat → TS → Option TS
  | [], s => some s
  | c :: cs, s =>
    match alookup s.num c with
    | none =>
      match recur c s with
      | none => none
      | some cis =>
        visitChildren recur i cs (cis.2.lowUpd i (cis.2.lowGet cis.1))
    | some ci =>
      if ci ∈ s.stk then visitChildren recur i cs (s.lowUpd i ci)
      else visitChildren recur i cs s

/-- `Tarjan::tarjan_inner`.  Returns the index assigned to `node`
together with the updated state.  (The Rust recursion nests
`tarjan_inner` inside its own child loop; the embedding passes the
recursive call into `visitChildren` so the recursion is structural in
the fuel.) -/
def tarjanInner (g : Graph) : Nat → Nat → TS → Option (Nat × TS)
  | 0, _, _ => none
  | fuel+1, n, s =>
    let i := s.nxt
    let s1 : TS :=
      ⟨(n, i) :: s.num, i + 1, i :: s.stk, (i, i) :: s.low, s.out⟩
    match g.children n with
    | none => none
    | some cs =>
      match visitChildren (tarjanInner g fuel) i cs s1 with
      | none => none
      | some s2 =>
        if s2.lowGet i = i then
          let pr := popUntil s2.stk i
          some (i, ⟨s2.num, s2.nxt, pr.2, s2.low,
            s2.out ++ [pr.1.map s2.nodeOf]⟩)
        else some (i, s2)

/-- `Tarjan::tarjan`: run `tarjan_inner` from every not-yet-visited
node, in node order. -/
def tarjanAll (g : Graph) : List Nat → TS → Option TS
  | [], s => some s
  | n :: ns, s =>
    if (alookup s.num n).isSome then tarjanAll g ns s
    else
      match tarjanInner g (g.size + 1) n s with
      | none => none
      | some is => tarjanAll g ns is.2

/-- `Graph::strongly_connected_components` (collected eagerly; the
source yields them lazily in the same order). -/
def sccs (g : Graph) : Option (List (List Nat)) :=
  (tarjanAll g g.nodes TS.initial).map TS.out

/-! ## Cycle preparation and iterative resolution (src/substitution.rs) -/

/-- Source: `struct Partial<T>` — per-variable transient state during
the solve. -/
structure Pending (T : Type) where
  recursive : Bool
  result : Option T
  deps : List Nat
deriving DecidableEq

/-- `HashSet` collect with deduplication (first occurrences kept). -/
def dedupL (l : List Nat) : List Nat :=
  l.foldl (fun acc x => if x ∈ acc then acc else acc ++ [x]) []

/-- `all_dependencies` of `Table::prepare_partials`: the union of the
children of the component's nodes that lie outside the component. -/
def outerDeps (g : Graph) (comp : List Nat) : List Nat :=
  dedupL (((comp.filterMap g.children).flatten).filter (fun x => decide (x ∉ comp)))

/-- The body of the per-component loop in `Table::prepare_partials`:
compute the component's outer dependencies from the current graph, then
give every component node exactly those edges plus a self-edge. -/
def rewriteComp (g : Graph) (comp : List Nat) : Graph :=
  let allDeps := outerDeps g comp
  comp.foldl
    (fun g n => ((g.deleteOutgoing n).addEdges n allDeps).addEdge n n) g

def buildGraph (unknown : List (Nat × List Nat)) : Graph :=
  unknown.foldl (fun g p => g.addEdges p.1 p.2) []

/-- `Table::prepare_partials`. -/
def prepareP (T : Type) (unknown : List (Nat × List Nat)) :
    Option (List (Nat × Pending T)) :=
  let g := buildGraph unknown
  match sccs g with
  | none => none
  | some comps =>
    let g2 := comps.foldl rewriteComp g
    some (g2.map fun p => (p.1, ⟨p.1 ∈ p.2, none, p.2.erase p.1⟩))

/-- `enum Error<E>` of the substitution module. -/
inductive SErr (E : Type) where
  | noProgress : SErr E
  | custom : E → SErr E
deriving DecidableEq

/-- The client value contract (`trait Value`). -/
structure SValue (T E : Type) where
  merge : T → T → Except E T
  resolveCycle : Option T → Except E T

/-- `merge_opt`. -/
def mergeOpt {T E : Type} (V : SValue T E) :
    Option T → Option T → Except E (Option T)
  | none, none => Except.ok none
  | some l, none => Except.ok (some l)
  | none, some r => Except.ok (some r)
  | some l, some r => (V.merge l r).map some

/-- `enum TryResolveResult<T>`. -/
inductive TRR (T : Type) where
  | complete : T → TRR T
  | incomplete : Pending T → Bool → TRR T
deriving DecidableEq

/-- The dependency scan inside `Partial::try_resolve`: merge the values
of already-known dependencies, keep the rest pending. -/
def scanDeps {T E : Type} (V : SValue T E) (known : List (Nat × T)) :
    List Nat → Option T → List Nat → Except E (Option T × List Nat)
  | [], acc, pend => Except.ok (acc, pend)
  | d :: ds, acc, pend =>
    match alookup known d with
    | some kv =>
      match mergeOpt V acc (some kv) with
      | Except.error e => Except.error e
      | Except.ok acc2 => scanDeps V known ds acc2 pend
    | none => scanDeps V known ds acc (pend ++ [d])

/-- `Partial::try_resolve`. -/
def tryResolve {T E : Type} (V : SValue T E) (p : Pending T)
    (known : List (Nat × T)) : Except (SErr E) (TRR T) :=
  match scanDeps V known p.deps none [] with
  | Except.error e => Except.error (SErr.custom e)
  | Except.ok (newResult, newDeps) =>
    let progressed := newResult.isSome
    match mergeOpt V p.result newResult with
    | Except.error e => Except.error (SErr.custom e)
    | Except.ok result =>
      if newDeps.isEmpty then
        if p.recursive then
          match V.resolveCycle result with
          | Except.error e => Except.error (SErr.custom e)
          | Except.ok r => Except.ok (TRR.complete r)
        else
          match result with
          | none => Except.error SErr.noProgress
          | some r => Except.ok (TRR.complete r)
      else Except.ok (TRR.incomplete ⟨p.recursive, result, newDeps⟩ progressed)

/-- One pass of the resolution loop of `Table::resolve`: visit each
pending entry, dropping completed variables, finalizing the resolvable
ones into `complete`, and keeping the rest for the next pass. -/
def passPending {T E : Type} (V : SValue T E) :
    List (Nat × Pending T) → List (Nat × T) →
      List (Nat × Pending T) → Bool →
      Except (SErr E) (List (Nat × T) × List (Nat × Pending T) × Bool)
  | [], complete, next, progress =>
    Except.ok (complete, next, progress)
  | (v, p) :: rest, complete, next, progress =>
    if (alookup complete v).isSome then
      passPending V rest complete next progress
    else
      match tryResolve V p complete with
      | Except.error e => Except.error e
      | Except.ok (TRR.complete r) =>
        passPending V rest (complete ++ [(v, r)]) next true
      | Except.ok (TRR.incomplete p2 progressed) =>
        passPending V rest complete (next ++ [(v, p2)]) (progress || progressed)

/-- The `while !partials.is_empty()` loop of `Table::resolve`, with fuel
(`none` marks exhaustion, proved unreachable for the fuel below). -/
def resolveLoop {T E : Type} (V : SValue T E) :
    Nat → List (Nat × Pending T) → List (Nat × T) →
      Option (Except (SErr E) (List (Nat × T)))
  | 0, ps, complete => if ps.isEmpty then some (Except.ok complete) else none
  | fuel+1, ps, complete =>
    if ps.isEmpty then some (Except.ok complete)
    else
      match passPending V ps complete [] false with
      | Except.error e => some (Except.error e)
      | Except.ok (complete2, next, progress) =>
        if progress then resolveLoop V fuel next complete2
        else some (Except.error (SErr.noProgress))

def loopFuel {T : Type} (ps : List (Nat × Pending T)) : Nat :=
  ps.length + (ps.map (fun p => p.2.deps.length)).sum + 1

/-- `Table::resolve`. -/
def STable.resolve {T E : Type} (V : SValue T E) (t : STable T) :
    Option (Except (SErr E) (List (Nat × T))) :=
  match prepareP T t.unknown with
  | none => none
  | some ps => resolveLoop V (loopFuel ps) ps t.known

/-! ### Association-list lemmas -/

theorem alookup_nil {V : Type} (k : Nat) : alookup ([] : List (Nat × V)) k = none := rfl

theorem alookup_cons {V : Type} (p : Nat × V) (l : List (Nat × V)) (k : Nat) :
    alookup (p :: l) k = if p.1 = k then some p.2 else alookup l k := by
  unfold alookup
  by_cases h : p.1 = k
  · simp [List.find?, h]
  · simp [List.find?, h]

theorem alookup_eq_none_iff {V : Type} (l : List (Nat × V)) (k : Nat) :
    alookup l k = none ↔ k ∉ l.map Prod.fst := by
  induction l with
  | nil => simp [alookup]
  | cons p rest ih =>
    rw [alookup_cons]
    by_cases h : p.1 = k
    · simp [h]
    · rw [if_neg h, ih]
      simp only [List.map_cons, List.mem_cons]
      constructor
      · intro hn hk
        rcases hk with hk | hk
        · exact h hk.symm
        · exact hn hk
      · intro hn hk
        exact hn (Or.inr hk)

theorem alookup_isSome_iff {V : Type} (l : List (Nat × V)) (k : Nat) :
    (alookup l k).isSome ↔ k ∈ l.map Prod.fst := by
  constructor
  · intro hs
    by_contra hk
    rw [← alookup_eq_none_iff] at hk
    rw [hk] at hs
    cases hs
  · intro hk
    cases hl : alookup l k with
    | none => exact absurd hk ((alookup_eq_none_iff l k).mp hl)
    | some v => rfl

theorem alookup_mem {V : Type} {l : List (Nat × V)} {k : Nat} {v : V}
    (h : alookup l k = some v) : (k, v) ∈ l := by
  induction l with
  | nil => cases h
  | cons p rest ih =>
    rw [alookup_cons] at h
    by_cases hp : p.1 = k
    · rw [if_pos hp] at h
      cases h
      have hpe : p = (k, p.2) := by
        rw [← hp]
      rw [← hpe]
      exact List.mem_cons_self p rest
    · rw [if_neg hp] at h
      exact List.mem_cons_of_mem _ (ih h)

theorem alookup_of_mem_nodup {V : Type} {l : List (Nat × V)} {k : Nat} {v : V}
    (hmem : (k, v) ∈ l) (hnd : (l.map Prod.fst).Nodup) : alookup l k = some v := by
  induction l with
  | nil => cases hmem
  | cons p rest ih =>
    rw [alookup_cons]
    rw [List.mem_cons] at hmem
    rcases hmem with hmem | hmem
    · rw [← hmem]
      simp
    · have hk : k ∈ rest.map Prod.fst := List.mem_map_of_mem Prod.fst hmem
      have hp1 : ¬p.1 = k := by
        intro he
        rw [List.map_cons] at hnd
        exact (List.nodup_cons.mp hnd).1 (he ▸ hk)
      rw [if_neg hp1]
      exact ih hmem (List.nodup_cons.mp (List.map_cons _ _ _ ▸ hnd)).2

theorem alookup_append {V : Type} (a b : List (Nat × V)) (k : Nat) :
    alookup (a ++ b) k =
      match alookup a k with
      | some v => some v
      | none => alookup b k := by
  induction a with
  | nil => simp [alookup]
  | cons p rest ih =>
    rw [List.cons_append, alookup_cons, alookup_cons]
    by_cases h : p.1 = k
    · simp [h]
    · simp [h, ih]

theorem alookup_append_left {V : Type} {a : List (Nat × V)} (b : List (Nat × V))
    {k : Nat} {v : V} (h : alookup a k = some v) : alookup (a ++ b) k = some v := by
  rw [alookup_append, h]

theorem alookup_append_right {V : Type} {a : List (Nat × V)} (b : List (Nat × V))
    {k : Nat} (h : alookup a k = none) : alookup (a ++ b) k = alookup b k := by
  rw [alookup_append, h]

/-! ### `setEntry` lemmas -/

theorem alookup_setEntry_self {V : Type} (l : List (Nat × V)) (k : Nat) (v : V) :
    alookup (setEntry l k v) k = some v := by
  induction l with
  | nil => simp [setEntry, alookup_cons]
  | cons p rest ih =>
    unfold setEntry
    by_cases h : p.1 = k
    · rw [if_pos h, alookup_cons]
      simp
    · rw [if_neg h, alookup_cons, if_neg h]
      exact ih

theorem alookup_setEntry_ne {V : Type} (l : List (Nat × V)) (k k2 : Nat) (v : V)
    (hne : k ≠ k2) : alookup (setEntry l k v) k2 = alookup l k2 := by
  induction l with
  | nil => simp [setEntry, alookup_cons, alookup_nil, hne]
  | cons p rest ih =>
    unfold setEntry
    by_cases h : p.1 = k
    · rw [if_pos h, alookup_cons, alookup_cons]
      have hk2 : ¬k = k2 := hne
      have hp2 : ¬p.1 = k2 := by rw [h]; exact hk2
      rw [if_neg hk2, if_neg hp2]
    · rw [if_neg h, alookup_cons, alookup_cons]
      by_cases h2 : p.1 = k2
      · rw [if_pos h2, if_pos h2]
      · rw [if_neg h2, if_neg h2]
        exact ih

theorem setEntry_keys {V : Type} (l : List (Nat × V)) (k : Nat) (v : V) :
    (setEntry l k v).map Prod.fst =
      if k ∈ l.map Prod.fst then l.map Prod.fst else l.map Prod.fst ++ [k] := by
  induction l with
  | nil => simp [setEntry]
  | cons p rest ih =>
    unfold setEntry
    by_cases h : p.1 = k
    · rw [if_pos h]
      simp [h]
    · rw [if_neg h]
      by_cases h2 : k ∈ rest.map Prod.fst
      · simp only [List.map_cons, ih, if_pos h2]
        rw [if_pos (by simp [h2])]
      · have : ¬(k = p.1 ∨ k ∈ rest.map Prod.fst) := by
          rintro (he | hm)
          · exact h he.symm
          · exact h2 hm
        simp only [List.map_cons, ih, if_neg h2]
        rw [if_neg (by simpa using this), List.cons_append]

theorem setEntry_keys_nodup {V : Type} (l : List (Nat × V)) (k : Nat) (v : V)
    (hnd : (l.map Prod.fst).Nodup) : ((setEntry l k v).map Prod.fst).Nodup := by
  rw [setEntry_keys]
  by_cases h : k ∈ l.map Prod.fst
  · rwa [if_pos h]
  · rw [if_neg h]
    rw [List.nodup_append]
    refine ⟨hnd, List.nodup_singleton k, ?_⟩
    intro a ha hb
    rw [List.mem_singleton] at hb
    exact h (hb ▸ ha)

/-! ### Graph well-formedness and reachability -/

/-- Edges of the embedded graph. -/
def Edge (g : Graph) (u v : Nat) : Prop := v ∈ g.childrenD u

/-- Reachability (reflexive-transitive closure of the edge relation). -/
def Reach (g : Graph) : Nat → Nat → Prop := Relation.ReflTransGen (Edge g)

/-- Graphs built through `add_edge` have unique keys and child sets
closed under the key set. -/
def GWF (g : Graph) : Prop :=
  (g.map Prod.fst).Nodup ∧
    ∀ n cs, alookup g n = some cs → ∀ c ∈ cs, (alookup g c).isSome

theorem alookup_addEdge_src (g : Graph) (s e : Nat) :
    alookup (g.addEdge s e) s = some (insDedup (g.childrenD s) e) := by
  unfold Graph.addEdge
  by_cases h : (alookup (setEntry g s (insDedup (g.childrenD s) e)) e).isSome
  · rw [if_pos h]
    exact alookup_setEntry_self g s _
  · rw [if_neg h]
    exact alookup_append_left _ (alookup_setEntry_self g s _)

theorem alookup_addEdge_tgt_isSome (g : Graph) (s e : Nat) :
    (alookup (g.addEdge s e) e).isSome := by
  unfold Graph.addEdge
  by_cases h : (alookup (setEntry g s (insDedup (g.childrenD s) e)) e).isSome
  · rwa [if_pos h]
  · rw [if_neg h]
    rw [Option.not_isSome_iff_eq_none] at h
    rw [alookup_append_right _ h]
    simp [alookup_cons]

theorem alookup_addEdge_other (g : Graph) (s e n : Nat) (hs : n ≠ s) (he : n ≠ e) :
    alookup (g.addEdge s e) n = alookup g n := by
  unfold Graph.addEdge
  have hset : alookup (setEntry g s (insDedup (g.childrenD s) e)) n = alookup g n :=
    alookup_setEntry_ne _ _ _ _ (fun hc => hs (hc ▸ rfl))
  by_cases h : (alookup (setEntry g s (insDedup (g.childrenD s) e)) e).isSome
  · rw [if_pos h]
    exact hset
  · rw [if_neg h, alookup_append, hset]
    cases hg : alookup g n with
    | some v => rfl
    | none =>
      rw [alookup_cons, if_neg (fun hc => he hc.symm)]
      rfl

theorem alookup_addEdge_isSome_mono (g : Graph) (s e n : Nat)
    (h : (alookup g n).isSome) : (alookup (g.addEdge s e) n).isSome := by
  by_cases hs : n = s
  · subst hs
    rw [alookup_addEdge_src]
    rfl
  · by_cases he : n = e
    · subst he
      exact alookup_addEdge_tgt_isSome g s n
    · rwa [alookup_addEdge_other g s e n hs he]

theorem addEdge_keys_nodup (g : Graph) (s e : Nat)
    (hnd : (g.map Prod.fst).Nodup) : ((g.addEdge s e).map Prod.fst).Nodup := by
  unfold Graph.addEdge
  have hnd1 := setEntry_keys_nodup g s (insDedup (g.childrenD s) e) hnd
  by_cases h : (alookup (setEntry g s (insDedup (g.childrenD s) e)) e).isSome
  · rwa [if_pos h]
  · rw [if_neg h]
    rw [Option.not_isSome_iff_eq_none, alookup_eq_none_iff] at h
    rw [List.map_append, List.nodup_append]
    refine ⟨hnd1, List.nodup_singleton e, ?_⟩
    intro a ha hb
    rw [show (List.map Prod.fst [(e, ([] : List Nat))]) = [e] from rfl, List.mem_singleton] at hb
    exact h (hb ▸ ha)

theorem mem_insDedup (l : List Nat) (e x : Nat) :
    x ∈ insDedup l e ↔ x ∈ l ∨ x = e := by
  unfold insDedup
  by_cases h : e ∈ l
  · rw [if_pos h]
    constructor
    · exact Or.inl
    · rintro (hx | hx)
      · exact hx
      · exact hx ▸ h
  · rw [if_neg h]
    simp

theorem addEdge_GWF (g : Graph) (s e : Nat) (hg : GWF g) : GWF (g.addEdge s e) := by
  obtain ⟨hnd, hcl⟩ := hg
  refine ⟨addEdge_keys_nodup g s e hnd, ?_⟩
  intro n cs hcs c hc
  by_cases hns : n = s
  · subst hns
    rw [alookup_addEdge_src] at hcs
    cases hcs
    rw [mem_insDedup] at hc
    rcases hc with hc | hc
    · apply alookup_addEdge_isSome_mono
      unfold Graph.childrenD at hc
      cases hn : alookup g n with
      | none => rw [hn] at hc; cases hc
      | some cs0 =>
        rw [hn] at hc
        exact hcl n cs0 hn c hc
    · subst hc
      exact alookup_addEdge_tgt_isSome g n c
  · by_cases hne : n = e
    · subst hne
      have htgt : alookup (g.addEdge s n) n = some ((alookup g n).getD []) := by
        unfold Graph.addEdge
        have hset : alookup (setEntry g s (insDedup (g.childrenD s) n)) n = alookup g n :=
          alookup_setEntry_ne _ _ _ _ (fun hc => hns hc.symm)
        by_cases h : (alookup (setEntry g s (insDedup (g.childrenD s) n)) n).isSome
        · rw [if_pos h, hset]
          rw [hset] at h
          obtain ⟨cs0, hcs0⟩ := Option.isSome_iff_exists.mp h
          rw [hcs0]
          rfl
        · rw [if_neg h]
          rw [Option.not_isSome_iff_eq_none] at h
          have hgn : alookup g n = none := by rw [← hset]; exact h
          rw [alookup_append_right _ h, hgn, alookup_cons, if_pos rfl]
          rfl
      rw [htgt] at hcs
      cases hcs
      cases hgn : alookup g n with
      | none =>
        rw [hgn] at hc
        cases hc
      | some cs0 =>
        rw [hgn] at hc
        exact alookup_addEdge_isSome_mono g s n c (hcl n cs0 hgn c hc)
    · rw [alookup_addEdge_other g s e n hns hne] at hcs
      exact alookup_addEdge_isSome_mono g s e c (hcl n cs hcs c hc)

theorem addEdge_isSome_iff (g : Graph) (s e n : Nat) :
    (alookup (g.addEdge s e) n).isSome ↔
      (alookup g n).isSome ∨ n = s ∨ n = e := by
  by_cases hs : n = s
  · subst hs
    rw [alookup_addEdge_src]
    simp
  · by_cases he : n = e
    · subst he
      rw [alookup_addEdge_tgt_isSome g s n]
      simp
    · rw [alookup_addEdge_other g s e n hs he]
      simp [hs, he]

theorem addEdges_GWF (g : Graph) (s : Nat) (ends : List Nat) (hg : GWF g) :
    GWF (g.addEdges s ends) := by
  induction ends generalizing g with
  | nil => exact hg
  | cons e rest ih => exact ih _ (addEdge_GWF g s e hg)

theorem addEdges_isSome_iff (g : Graph) (s : Nat) (ends : List Nat) (n : Nat) :
    (alookup (g.addEdges s ends) n).isSome ↔
      (alookup g n).isSome ∨ (ends ≠ [] ∧ n = s) ∨ n ∈ ends := by
  induction ends generalizing g with
  | nil => simp [Graph.addEdges]
  | cons e rest ih =>
    show (alookup ((g.addEdge s e).addEdges s rest) n).isSome ↔ _
    rw [ih, addEdge_isSome_iff]
    constructor
    · rintro ((h | h | h) | h | h)
      · exact Or.inl h
      · exact Or.inr (Or.inl ⟨by simp, h⟩)
      · exact Or.inr (Or.inr (by simp [h]))
      · exact Or.inr (Or.inl ⟨by simp, h.2⟩)
      · exact Or.inr (Or.inr (by simp [h]))
    · rintro (h | ⟨_, h⟩ | h)
      · exact Or.inl (Or.inl h)
      · exact Or.inl (Or.inr (Or.inl h))
      · rw [List.mem_cons] at h
        rcases h with h | h
        · exact Or.inl (Or.inr (Or.inr h))
        · exact Or.inr (Or.inr h)

theorem fromEdges_GWF (es : List (Nat × Nat)) : GWF (Graph.fromEdges es) := by
  have h : ∀ (g : Graph), GWF g →
      GWF (es.foldl (fun (g : Graph) p => g.addEdge p.1 p.2) g) := by
    induction es with
    | nil => intro g hg; exact hg
    | cons p rest ih => intro g hg; exact ih _ (addEdge_GWF g p.1 p.2 hg)
  exact h [] ⟨List.nodup_nil, fun n cs hcs => by cases hcs⟩

theorem fromEdges_isSome_iff (es : List (Nat × Nat)) (n : Nat) :
    (alookup (Graph.fromEdges es) n).isSome ↔ ∃ p ∈ es, n = p.1 ∨ n = p.2 := by
  have h : ∀ (g : Graph),
      (alookup (es.foldl (fun (g : Graph) p => g.addEdge p.1 p.2) g) n).isSome ↔
        (alookup g n).isSome ∨ ∃ p ∈ es, n = p.1 ∨ n = p.2 := by
    induction es with
    | nil => intro g; simp
    | cons p rest ih =>
      intro g
      show (alookup (rest.foldl _ (g.addEdge p.1 p.2)) n).isSome ↔ _
      rw [ih, addEdge_isSome_iff]
      simp only [List.mem_cons]
      constructor
      · rintro ((h | h | h) | h)
        · exact Or.inl h
        · exact Or.inr ⟨p, Or.inl rfl, Or.inl h⟩
        · exact Or.inr ⟨p, Or.inl rfl, Or.inr h⟩
        · obtain ⟨q, hq, hn⟩ := h
          exact Or.inr ⟨q, Or.inr hq, hn⟩
      · rintro (h | ⟨q, hq | hq, hn⟩)
        · exact Or.inl (Or.inl h)
        · subst hq
          rcases hn with hn | hn
          · exact Or.inl (Or.inr (Or.inl hn))
          · exact Or.inl (Or.inr (Or.inr hn))
        · exact Or.inr ⟨q, hq, hn⟩
  rw [Graph.fromEdges, h []]
  simp [alookup]

theorem mem_nodes_iff (g : Graph) (n : Nat) :
    n ∈ g.nodes ↔ (alookup g n).isSome :=
  (alookup_isSome_iff g n).symm

/-! ### Tarjan state lemmas -/

theorem find?_snd_of_mem_nodup {l : List (Nat × Nat)} {n i : Nat}
    (hmem : (n, i) ∈ l) (hnd : (l.map Prod.snd).Nodup) :
    l.find? (fun p => p.2 = i) = some (n, i) := by
  induction l with
  | nil => cases hmem
  | cons p rest ih =>
    rw [List.mem_cons] at hmem
    rcases hmem with hmem | hmem
    · rw [← hmem]
      simp [List.find?]
    · have hk : i ∈ rest.map Prod.snd := by
        have := List.mem_map_of_mem Prod.snd hmem
        simpa using this
      have hp2 : ¬p.2 = i := by
        intro he
        rw [List.map_cons] at hnd
        exact (List.nodup_cons.mp hnd).1 (he ▸ hk)
      rw [List.find?_cons_of_neg _ (by simp [hp2])]
      exact ih hmem (List.nodup_cons.mp (List.map_cons _ _ _ ▸ hnd)).2

theorem lowGet_lowUpd_self (s : TS) (i v : Nat) :
    (s.lowUpd i v).lowGet i = min (s.lowGet i) v := by
  unfold TS.lowUpd TS.lowGet
  rw [alookup_cons]
  simp [Nat.min_def, min_def]

theorem lowGet_lowUpd_ne (s : TS) (i v j : Nat) (h : j ≠ i) :
    (s.lowUpd i v).lowGet j = s.lowGet j := by
  unfold TS.lowUpd TS.lowGet
  rw [alookup_cons, if_neg (by intro hc; exact h hc.symm)]

theorem lowUpd_eq_fields (s : TS) (i v : Nat) :
    (s.lowUpd i v).num = s.num ∧ (s.lowUpd i v).nxt = s.nxt ∧
      (s.lowUpd i v).stk = s.stk ∧ (s.lowUpd i v).out = s.out :=
  ⟨rfl, rfl, rfl, rfl⟩

theorem popUntil_append {ΔL : List Nat} {i : Nat} (rest : List Nat)
    (hni : i ∉ ΔL) : popUntil (ΔL ++ i :: rest) i = (ΔL ++ [i], rest) := by
  induction ΔL with
  | nil => simp [popUntil]
  | cons x xs ih =>
    have hxi : ¬x = i := by
      intro he
      exact hni (he ▸ List.mem_cons_self x xs)
    rw [List.cons_append]
    unfold popUntil
    rw [if_neg hxi, ih (fun hm => hni (List.mem_cons_of_mem x hm))]
    simp

/-! ### The Tarjan invariant

`G` is the chain of open (gray) indexes: the indexes of the
`tarjan_inner` frames currently on the call stack, innermost first. -/

structure TInv (g : Graph) (s : TS) (G : List Nat) : Prop where
  numIdx : s.num.map Prod.snd = (List.range s.nxt).reverse
  numNd : (s.num.map Prod.fst).Nodup
  numNodes : ∀ n i, alookup s.num n = some i → (alookup g n).isSome
  stkDesc : List.Chain' (fun a b => b < a) s.stk
  stkLt : ∀ i ∈ s.stk, i < s.nxt
  lowLe : ∀ i, i < s.nxt → s.lowGet i ≤ i
  part : ∀ n i, alookup s.num n = some i → (i ∈ s.stk ↔ n ∉ s.out.flatten)
  outVis : ∀ n ∈ s.out.flatten, ∃ i, alookup s.num n = some i
  outNd : s.out.flatten.Nodup
  lowStk : ∀ i ∈ s.stk, s.lowGet i ∈ s.stk
  grayStk : ∀ j ∈ G, j ∈ s.stk
  grayDesc : List.Chain' (fun a b => b < a) G
  blackLow : ∀ i ∈ s.stk, i ∉ G → s.lowGet i < i
  llReach : ∀ n i, alookup s.num n = some i → Reach g n (s.nodeOf (s.lowGet i))
  edgeInv : ∀ n i, alookup s.num n = some i → i ∉ G → ∀ cs, alookup g n = some cs →
      ∀ c ∈ cs, ∃ j, alookup s.num c = some j ∧ (j ∈ s.stk → s.lowGet i ≤ j)
  outSC : ∀ C ∈ s.out, ∀ u ∈ C, ∀ v ∈ C, Reach g u v
  outEdge : ∀ k C, s.out.get? k = some C → ∀ u ∈ C, ∀ cs, alookup g u = some cs →
      ∀ v ∈ cs, v ∈ C ∨ ∃ k2 C2, k2 < k ∧ s.out.get? k2 = some C2 ∧ v ∈ C2

namespace TInv

theorem nodup_length_le_of_subset {l1 l2 : List Nat} (hnd : l1.Nodup)
    (hsub : l1 ⊆ l2) : l1.length ≤ l2.length := by
  have h1 : l1.toFinset.card = l1.length := List.toFinset_card_of_nodup hnd
  have h2 : l1.toFinset ⊆ l2.toFinset := by
    intro a ha
    rw [List.mem_toFinset] at ha ⊢
    exact hsub ha
  have h3 := Finset.card_le_card h2
  have h4 : l2.toFinset.card ≤ l2.length := l2.toFinset_card_le
  omega

theorem numSndNd {g : Graph} {s : TS} {G : List Nat} (h : TInv g s G) :
    (s.num.map Prod.snd).Nodup := by
  rw [h.numIdx]
  exact List.nodup_reverse.mpr (List.nodup_range s.nxt)

theorem idx_lt {g : Graph} {s : TS} {G : List Nat} (h : TInv g s G)
    {n i : Nat} (hn : alookup s.num n = some i) : i < s.nxt := by
  have hmem := alookup_mem hn
  have : i ∈ s.num.map Prod.snd := by
    have := List.mem_map_of_mem Prod.snd hmem
    simpa using this
  rw [h.numIdx, List.mem_reverse, List.mem_range] at this
  exact this

theorem nodeOf_eq {g : Graph} {s : TS} {G : List Nat} (h : TInv g s G)
    {n i : Nat} (hn : alookup s.num n = some i) : s.nodeOf i = n := by
  have hmem := alookup_mem hn
  unfold TS.nodeOf
  rw [find?_snd_of_mem_nodup hmem h.numSndNd]
  rfl

theorem idx_inj {g : Graph} {s : TS} {G : List Nat} (h : TInv g s G)
    {n1 n2 i : Nat} (h1 : alookup s.num n1 = some i)
    (h2 : alookup s.num n2 = some i) : n1 = n2 := by
  rw [← h.nodeOf_eq h1, ← h.nodeOf_eq h2]

theorem idx_surj {g : Graph} {s : TS} {G : List Nat} (h : TInv g s G)
    {i : Nat} (hi : i < s.nxt) : ∃ n, alookup s.num n = some i := by
  have : i ∈ s.num.map Prod.snd := by
    rw [h.numIdx, List.mem_reverse, List.mem_range]
    exact hi
  rw [List.mem_map] at this
  obtain ⟨p, hp, hpi⟩ := this
  refine ⟨p.1, ?_⟩
  have : p = (p.1, i) := by
    rw [← hpi]
  rw [this] at hp
  exact alookup_of_mem_nodup hp h.numNd

theorem chain_desc_nodup {l : List Nat} (h : List.Chain' (fun a b => b < a) l) :
    l.Nodup :=
  (List.chain'_iff_pairwise.mp h).imp (fun hab => Nat.ne_of_gt hab)

theorem stkNd {g : Graph} {s : TS} {G : List Nat} (h : TInv g s G) :
    s.stk.Nodup :=
  chain_desc_nodup h.stkDesc

theorem nxt_lt_glen {g : Graph} {s : TS} {G : List Nat} (h : TInv g s G)
    (hg : GWF g) {n : Nat} (hnvis : alookup s.num n = none)
    (hnode : (alookup g n).isSome) : s.nxt < g.length := by
  have hlen : s.num.length = s.nxt := by
    have := congrArg List.length h.numIdx
    simpa using this
  have hsub : (n :: s.num.map Prod.fst) ⊆ g.map Prod.fst := by
    intro a ha
    rw [List.mem_cons] at ha
    rcases ha with ha | ha
    · subst ha
      rw [← alookup_isSome_iff]
      exact hnode
    · rw [List.mem_map] at ha
      obtain ⟨p, hp, hpa⟩ := ha
      rw [← alookup_isSome_iff]
      have : p = (p.1, p.2) := rfl
      have hl : alookup s.num p.1 = some p.2 := alookup_of_mem_nodup (by rw [← this]; exact hp) h.numNd
      exact hpa ▸ h.numNodes p.1 p.2 hl
  have hnd : (n :: s.num.map Prod.fst).Nodup := by
    rw [List.nodup_cons]
    refine ⟨?_, h.numNd⟩
    rw [← alookup_eq_none_iff]
    exact hnvis
  have := nodup_length_le_of_subset hnd hsub
  simp only [List.length_cons, List.length_map] at this
  omega

end TInv

/-- Postcondition of `tarjanInner g fuel n s = some (s.nxt, s2)` relative
to the entry state `s` and the gray chain `G` of the caller. -/
structure TPost (g : Graph) (s : TS) (G : List Nat) (n : Nat) (s2 : TS) : Prop where
  inv : TInv g s2 G
  nxtLt : s.nxt < s2.nxt
  numPre : ∃ Δ, s2.num = Δ ++ s.num ∧ ∀ p ∈ Δ, s.nxt ≤ p.2
  visN : alookup s2.num n = some s.nxt
  stkPre : ∃ Δ, s2.stk = Δ ++ s.stk ∧ ∀ x ∈ Δ, s.nxt ≤ x
  lowOld : ∀ j, j < s.nxt → s2.lowGet j = s.lowGet j
  outPre : ∃ Δ, s2.out = s.out ++ Δ ∧ ∀ C ∈ Δ, ∀ m ∈ C, alookup s.num m = none
  newReach : ∀ m j, alookup s2.num m = some j → s.nxt ≤ j → Reach g n m
  lowBnd : ∀ b, (∀ x ∈ s.stk, b ≤ x) → b ≤ s.nxt → b ≤ s2.lowGet s.nxt
  dLow : ∀ x ∈ s2.stk, s.nxt ≤ x → s2.lowGet s.nxt ≤ s2.lowGet x
  rootPop : s2.lowGet s.nxt = s.nxt → s2.stk = s.stk
  notRoot : s2.lowGet s.nxt ≠ s.nxt → s.nxt ∈ s2.stk

/-- Postcondition of the child loop `visitChildren (tarjanInner g fuel) i
cs s = some s3`, relative to the loop entry state `s` (in which the
frame index `i` is already pushed and gray). -/
structure VCPost (g : Graph) (s : TS) (G : List Nat) (i : Nat) (cs : List Nat)
    (s3 : TS) : Prop where
  inv : TInv g s3 (i :: G)
  nxtLe : s.nxt ≤ s3.nxt
  numPre : ∃ Δ, s3.num = Δ ++ s.num ∧ ∀ p ∈ Δ, s.nxt ≤ p.2
  stkPre : ∃ Δ, s3.stk = Δ ++ s.stk ∧ ∀ x ∈ Δ, s.nxt ≤ x
  lowOldNe : ∀ j, j < s.nxt → j ≠ i → s3.lowGet j = s.lowGet j
  lowIDec : s3.lowGet i ≤ s.lowGet i
  lowBnd : ∀ b, (∀ x ∈ s.stk, b ≤ x) → b ≤ s.lowGet i → b ≤ s3.lowGet i
  dLow : ∀ x ∈ s3.stk, i < x → s3.lowGet i ≤ s3.lowGet x
  outPre : ∃ Δ, s3.out = s.out ++ Δ ∧ ∀ C ∈ Δ, ∀ m ∈ C, alookup s.num m = none
  newReach : ∀ m j, alookup s3.num m = some j → s.nxt ≤ j → ∃ c ∈ cs, Reach g c m
  dispo : ∀ c ∈ cs, ∃ j, alookup s3.num c = some j ∧ (j ∈ s3.stk → s3.lowGet i ≤ j)

/-- Entries present before a call keep their index afterwards. -/
theorem numPre_mono {s s2 : TS} (hnd : (s2.num.map Prod.fst).Nodup)
    (hpre : ∃ Δ, s2.num = Δ ++ s.num ∧ ∀ p ∈ Δ, s.nxt ≤ p.2)
    {m j : Nat} (hm : alookup s.num m = some j) : alookup s2.num m = some j := by
  obtain ⟨Δ, heq, _⟩ := hpre
  rw [heq]
  rw [heq, List.map_append, List.nodup_append] at hnd
  cases hΔ : alookup Δ m with
  | none => rw [alookup_append_right _ hΔ]; exact hm
  | some j2 =>
    have hmΔ : m ∈ Δ.map Prod.fst := by
      rw [← alookup_isSome_iff, hΔ]
      rfl
    have hms : m ∈ s.num.map Prod.fst := by
      rw [← alookup_isSome_iff, hm]
      rfl
    exact absurd hms (hnd.2.2 hmΔ)

/-- A node unvisited after a call was unvisited before it. -/
theorem numPre_none {s s2 : TS} (hpre : ∃ Δ, s2.num = Δ ++ s.num ∧ ∀ p ∈ Δ, s.nxt ≤ p.2)
    {m : Nat} (hm : alookup s2.num m = none) : alookup s.num m = none := by
  obtain ⟨Δ, heq, _⟩ := hpre
  rw [heq, alookup_append] at hm
  cases hΔ : alookup Δ m with
  | none => rw [hΔ] at hm; exact hm
  | some j => rw [hΔ] at hm; cases hm

/-- Old indexes keep their backward mapping when `num` grows by fresh
indexes. -/
theorem nodeOf_pre {s s2 : TS} (hpre : ∃ Δ, s2.num = Δ ++ s.num ∧ ∀ p ∈ Δ, s.nxt ≤ p.2)
    {i : Nat} (hi : i < s.nxt) : s2.nodeOf i = s.nodeOf i := by
  obtain ⟨Δ, heq, hΔ⟩ := hpre
  unfold TS.nodeOf
  rw [heq, List.find?_append]
  have : Δ.find? (fun p => p.2 = i) = none := by
    rw [List.find?_eq_none]
    intro p hp
    simp only [decide_eq_true_eq]
    intro hc
    have := hΔ p hp
    omega
  rw [this]
  rfl

/-- An entry whose index is below the freshness bound of the extension
was already present before it. -/
theorem numPre_back {s s2 : TS} (hpre : ∃ Δ, s2.num = Δ ++ s.num ∧ ∀ p ∈ Δ, s.nxt ≤ p.2)
    {m j : Nat} (hm : alookup s2.num m = some j) (hj : j < s.nxt) :
    alookup s.num m = some j := by
  obtain ⟨Δ, heq, hΔ⟩ := hpre
  rw [heq, alookup_append] at hm
  cases hd : alookup Δ m with
  | none => rw [hd] at hm; exact hm
  | some j2 =>
    rw [hd] at hm
    cases hm
    have := hΔ _ (alookup_mem hd)
    omega

/-- `TInv` is preserved by a lowlink update at the gray frame index,
provided the new value keeps the frame's lowlink on the stack and
reachable from the frame node. -/
theorem TInv.lowUpd_gray {g : Graph} {s : TS} {G : List Nat} {i : Nat}
    (h : TInv g s (i :: G)) {nfr : Nat} (hfr : alookup s.num nfr = some i)
    (v : Nat)
    (hstk : min (s.lowGet i) v ∈ s.stk)
    (hreach : Reach g nfr (s.nodeOf (min (s.lowGet i) v))) :
    TInv g (s.lowUpd i v) (i :: G) := by
  refine ⟨h.numIdx, h.numNd, h.numNodes, h.stkDesc, h.stkLt, ?_, h.part,
    h.outVis, h.outNd, ?_, h.grayStk, h.grayDesc, ?_, ?_, ?_, h.outSC, h.outEdge⟩
  · intro j hj
    by_cases hji : j = i
    · subst hji
      rw [lowGet_lowUpd_self]
      exact Nat.le_trans (min_le_left _ _) (h.lowLe j hj)
    · rw [lowGet_lowUpd_ne _ _ _ _ hji]
      exact h.lowLe j hj
  · intro j hj
    by_cases hji : j = i
    · subst hji
      rw [lowGet_lowUpd_self]
      exact hstk
    · rw [lowGet_lowUpd_ne _ _ _ _ hji]
      exact h.lowStk j hj
  · intro j hj hjG
    have hji : j ≠ i := fun he => hjG (he ▸ List.mem_cons_self i G)
    rw [lowGet_lowUpd_ne _ _ _ _ hji]
    exact h.blackLow j hj hjG
  · intro m jm hm
    by_cases hji : jm = i
    · subst hji
      have : m = nfr := h.idx_inj hm hfr
      subst this
      rw [lowGet_lowUpd_self]
      exact hreach
    · rw [lowGet_lowUpd_ne _ _ _ _ hji]
      exact h.llReach m jm hm
  · intro m jm hm hjG cs hcs c hc
    have hji : jm ≠ i := fun he => hjG (he ▸ List.mem_cons_self i G)
    rw [lowGet_lowUpd_ne _ _ _ _ hji]
    exact h.edgeInv m jm hm hjG cs hcs c hc

theorem visitChildren_spec (g : Graph)
    (recur : Nat → TS → Option (Nat × TS)) (fuel : Nat)
    (hrec : ∀ s G n, TInv g s G → alookup s.num n = none → (alookup g n).isSome →
      g.length - s.nxt < fuel →
      ∃ s2, recur n s = some (s.nxt, s2) ∧ TPost g s G n s2) :
    ∀ (cs : List Nat) (s : TS) (G : List Nat) (i nfr : Nat),
      TInv g s (i :: G) → i ∈ s.stk → i < s.nxt →
      alookup s.num nfr = some i →
      (∀ c ∈ cs, Edge g nfr c) →
      (∀ c ∈ cs, (alookup g c).isSome) →
      (∀ x ∈ s.stk, i < x → s.lowGet i ≤ s.lowGet x) →
      g.length - s.nxt < fuel →
      ∃ s3, visitChildren recur i cs s = some s3 ∧ VCPost g s G i cs s3 := by
  intro cs
  induction cs with
  | nil =>
    intro s G i nfr hinv histk hilt hfr _ _ hdLow hfuel
    refine ⟨s, rfl, ?_⟩
    exact ⟨hinv, Nat.le_refl _, ⟨[], rfl, by intro p hp; cases hp⟩,
      ⟨[], rfl, by intro x hx; cases hx⟩,
      fun j _ _ => rfl, Nat.le_refl _, fun b _ hb => hb,
      hdLow, ⟨[], by rw [List.append_nil], by intro C hC; cases hC⟩,
      fun m j hm hj => absurd (hinv.idx_lt hm) (by omega),
      fun c hc => by cases hc⟩
  | cons c cs ih =>
    intro s G i nfr hinv histk hilt hfr hedge hkeys hdLow hfuel
    have hedge_c : Edge g nfr c := hedge c (List.mem_cons_self c cs)
    have hedge_cs : ∀ c2 ∈ cs, Edge g nfr c2 :=
      fun c2 hc2 => hedge c2 (List.mem_cons_of_mem c hc2)
    have hkeys_cs : ∀ c2 ∈ cs, (alookup g c2).isSome :=
      fun c2 hc2 => hkeys c2 (List.mem_cons_of_mem c hc2)
    cases hc : alookup s.num c with
    | some ci =>
      have hcilt : ci < s.nxt := hinv.idx_lt hc
      simp only [visitChildren, hc]
      by_cases hcistk : ci ∈ s.stk
      · -- child already visited and on the stack: take its index
        rw [if_pos hcistk]
        set s1 := s.lowUpd i ci with hs1
        have hmin_cases : min (s.lowGet i) ci = s.lowGet i ∨
            min (s.lowGet i) ci = ci := by
          rcases Nat.le_total (s.lowGet i) ci with hle | hle
          · exact Or.inl (min_eq_left hle)
          · exact Or.inr (min_eq_right hle)
        have hinv1 : TInv g s1 (i :: G) := by
          refine hinv.lowUpd_gray hfr ci ?_ ?_
          · rcases hmin_cases with hmc | hmc
            · rw [hmc]; exact hinv.lowStk i histk
            · rw [hmc]; exact hcistk
          · rcases hmin_cases with hmc | hmc
            · rw [hmc]; exact hinv.llReach nfr i hfr
            · rw [hmc]
              rw [hinv.nodeOf_eq hc]
              exact Relation.ReflTransGen.single hedge_c
        have hdLow1 : ∀ x ∈ s1.stk, i < x → s1.lowGet i ≤ s1.lowGet x := by
          intro x hx hix
          have hxi : x ≠ i := Nat.ne_of_gt hix
          rw [lowGet_lowUpd_self, lowGet_lowUpd_ne _ _ _ _ hxi]
          exact Nat.le_trans (min_le_left _ _) (hdLow x hx hix)
        obtain ⟨s3, hrun, hpost⟩ := ih s1 G i nfr hinv1 histk hilt hfr
          hedge_cs hkeys_cs hdLow1 hfuel
        refine ⟨s3, hrun, ?_⟩
        obtain ⟨Δn, hΔn, hΔnf⟩ := hpost.numPre
        obtain ⟨Δs, hΔs, hΔsf⟩ := hpost.stkPre
        obtain ⟨ΔO, hΔO, hΔOf⟩ := hpost.outPre
        refine ⟨hpost.inv, hpost.nxtLe, ⟨Δn, hΔn, hΔnf⟩, ⟨Δs, hΔs, hΔsf⟩,
          ?_, ?_, ?_, hpost.dLow, ⟨ΔO, hΔO, hΔOf⟩, ?_, ?_⟩
        · intro j hj hji
          rw [hpost.lowOldNe j hj hji, lowGet_lowUpd_ne _ _ _ _ hji]
        · exact Nat.le_trans hpost.lowIDec
            (by rw [lowGet_lowUpd_self]; exact min_le_left _ _)
        · intro b hbstk hbl
          refine hpost.lowBnd b hbstk ?_
          rw [lowGet_lowUpd_self]
          exact Nat.le_min.mpr ⟨hbl, hbstk ci hcistk⟩
        · intro m j hm hj
          obtain ⟨c2, hc2, hr⟩ := hpost.newReach m j hm hj
          exact ⟨c2, List.mem_cons_of_mem c hc2, hr⟩
        · intro c2 hc2
          rw [List.mem_cons] at hc2
          rcases hc2 with hc2 | hc2
          · subst hc2
            refine ⟨ci, numPre_mono hpost.inv.numNd ⟨Δn, hΔn, hΔnf⟩ hc, fun _ => ?_⟩
            exact Nat.le_trans hpost.lowIDec
              (by rw [lowGet_lowUpd_self]; exact min_le_right _ _)
          · exact hpost.dispo c2 hc2
      · -- child already visited, no longer on the stack: ignore it
        rw [if_neg hcistk]
        obtain ⟨s3, hrun, hpost⟩ := ih s G i nfr hinv histk hilt hfr
          hedge_cs hkeys_cs hdLow hfuel
        refine ⟨s3, hrun, ?_⟩
        obtain ⟨Δs, hΔs, hΔsf⟩ := hpost.stkPre
        refine ⟨hpost.inv, hpost.nxtLe, hpost.numPre, hpost.stkPre,
          hpost.lowOldNe, hpost.lowIDec, hpost.lowBnd, hpost.dLow, hpost.outPre,
          ?_, ?_⟩
        · intro m j hm hj
          obtain ⟨c2, hc2, hr⟩ := hpost.newReach m j hm hj
          exact ⟨c2, List.mem_cons_of_mem c hc2, hr⟩
        · intro c2 hc2
          rw [List.mem_cons] at hc2
          rcases hc2 with hc2 | hc2
          · subst hc2
            refine ⟨ci, numPre_mono hpost.inv.numNd hpost.numPre hc, fun hstk3 => ?_⟩
            exfalso
            rw [hΔs] at hstk3
            rw [List.mem_append] at hstk3
            rcases hstk3 with hstk3 | hstk3
            · have := hΔsf ci hstk3
              omega
            · exact hcistk hstk3
          · exact hpost.dispo c2 hc2
    | none =>
      -- child unvisited: recurse into it
      obtain ⟨s2, hrec_run, hpost2⟩ := hrec s (i :: G) c hinv hc
        (hkeys c (List.mem_cons_self c cs)) hfuel
      simp only [visitChildren, hc, hrec_run]
      set v := s2.lowGet s.nxt with hv
      set s1 := s2.lowUpd i v with hs1
      have hilt2 : i < s2.nxt := Nat.lt_trans hilt hpost2.nxtLt
      have histk2 : i ∈ s2.stk := by
        obtain ⟨Δ, hΔ, _⟩ := hpost2.stkPre
        rw [hΔ, List.mem_append]
        exact Or.inr histk
      have hfr2 : alookup s2.num nfr = some i :=
        numPre_mono hpost2.inv.numNd hpost2.numPre hfr
      have hlow2i : s2.lowGet i = s.lowGet i := hpost2.lowOld i hilt
      have hvle : v ≤ s.nxt := hpost2.inv.lowLe s.nxt hpost2.nxtLt
      have hinv1 : TInv g s1 (i :: G) := by
        refine hpost2.inv.lowUpd_gray hfr2 v ?_ ?_
        · by_cases hroot : v = s.nxt
          · have hmin : min (s2.lowGet i) v = s2.lowGet i := by
              refine min_eq_left ?_
              rw [hlow2i, hroot]
              exact Nat.le_trans (hinv.lowLe i hilt) (Nat.le_of_lt hilt)
            rw [hmin]
            exact hpost2.inv.lowStk i histk2
          · have hcistk2 : s.nxt ∈ s2.stk := hpost2.notRoot hroot
            have hvstk : v ∈ s2.stk := hv ▸ hpost2.inv.lowStk s.nxt hcistk2
            rcases Nat.le_total (s2.lowGet i) v with hle | hle
            · rw [min_eq_left hle]
              exact hpost2.inv.lowStk i histk2
            · rw [min_eq_right hle]
              exact hvstk
        · obtain ⟨m, hm⟩ := hpost2.inv.idx_surj hpost2.nxtLt
          rcases Nat.le_total (s2.lowGet i) v with hle | hle
          · rw [min_eq_left hle]
            have := hinv.llReach nfr i hfr
            rw [hlow2i]
            have hnodeOf : s2.nodeOf (s.lowGet i) = s.nodeOf (s.lowGet i) :=
              nodeOf_pre hpost2.numPre
                (Nat.lt_of_le_of_lt (hinv.lowLe i hilt) hilt)
            rw [hnodeOf]
            exact this
          · rw [min_eq_right hle]
            have hcreach : Reach g c (s2.nodeOf (s2.lowGet s.nxt)) :=
              hpost2.inv.llReach c s.nxt hpost2.visN
            exact Relation.ReflTransGen.trans
              (Relation.ReflTransGen.single hedge_c) hcreach
      have hdLow1 : ∀ x ∈ s1.stk, i < x → s1.lowGet i ≤ s1.lowGet x := by
        intro x hx hix
        have hxi : x ≠ i := Nat.ne_of_gt hix
        rw [lowGet_lowUpd_self, lowGet_lowUpd_ne _ _ _ _ hxi]
        obtain ⟨Δ, hΔ, hΔf⟩ := hpost2.stkPre
        have hx2 : x ∈ s2.stk := hx
        rw [hΔ, List.mem_append] at hx2
        rcases hx2 with hx2 | hx2
        · have hxn : s.nxt ≤ x := hΔf x hx2
          have := hpost2.dLow x (by rw [hΔ, List.mem_append]; exact Or.inl hx2) hxn
          exact Nat.le_trans (min_le_right _ _) this
        · have hxlt : x < s.nxt := hinv.stkLt x hx2
          have := hdLow x hx2 hix
          rw [hpost2.lowOld x hxlt]
          rw [hlow2i]
          exact Nat.le_trans (min_le_left _ _) this
      have hfuel1 : g.length - s1.nxt < fuel := by
        have : s.nxt < s2.nxt := hpost2.nxtLt
        have hs1n : s1.nxt = s2.nxt := rfl
        omega
      obtain ⟨s3, hrun, hpost⟩ := ih s1 G i nfr hinv1 histk2 hilt2 hfr2
        hedge_cs hkeys_cs hdLow1 hfuel1
      refine ⟨s3, hrun, ?_⟩
      have hs1num : s1.num = s2.num := rfl
      have hs1stk : s1.stk = s2.stk := rfl
      have hs1out : s1.out = s2.out := rfl
      obtain ⟨Δn2, hΔn2, hΔn2f⟩ := hpost2.numPre
      obtain ⟨Δn3, hΔn3, hΔn3f⟩ := hpost.numPre
      obtain ⟨Δs2, hΔs2, hΔs2f⟩ := hpost2.stkPre
      obtain ⟨Δs3, hΔs3, hΔs3f⟩ := hpost.stkPre
      obtain ⟨ΔO2, hΔO2, hΔO2f⟩ := hpost2.outPre
      obtain ⟨ΔO3, hΔO3, hΔO3f⟩ := hpost.outPre
      have hnum13 : ∃ Δ, s3.num = Δ ++ s.num ∧ ∀ p ∈ Δ, s.nxt ≤ p.2 := by
        refine ⟨Δn3 ++ Δn2, by rw [hΔn3, hs1num, hΔn2, List.append_assoc], ?_⟩
        intro p hp
        rw [List.mem_append] at hp
        rcases hp with hp | hp
        · exact Nat.le_trans (Nat.le_of_lt hpost2.nxtLt) (hΔn3f p hp)
        · exact hΔn2f p hp
      refine ⟨hpost.inv, Nat.le_trans (Nat.le_of_lt hpost2.nxtLt) hpost.nxtLe,
        hnum13, ?_, ?_, ?_, ?_, hpost.dLow, ?_, ?_, ?_⟩
      · refine ⟨Δs3 ++ Δs2, by rw [hΔs3, hs1stk, hΔs2, List.append_assoc], ?_⟩
        intro x hx
        rw [List.mem_append] at hx
        rcases hx with hx | hx
        · exact Nat.le_trans (Nat.le_of_lt hpost2.nxtLt) (hΔs3f x hx)
        · exact hΔs2f x hx
      · intro j hj hji
        rw [hpost.lowOldNe j (Nat.lt_trans hj hpost2.nxtLt) hji,
          lowGet_lowUpd_ne _ _ _ _ hji, hpost2.lowOld j hj]
      · exact Nat.le_trans hpost.lowIDec
          (by rw [lowGet_lowUpd_self, hlow2i]; exact min_le_left _ _)
      · intro b hbstk hbl
        have hblt : b < s.nxt := Nat.lt_of_le_of_lt (Nat.le_trans hbl (hinv.lowLe i hilt)) hilt
        refine hpost.lowBnd b ?_ ?_
        · intro x hx
          have hx2 : x ∈ s2.stk := hx
          rw [hΔs2, List.mem_append] at hx2
          rcases hx2 with hx2 | hx2
          · exact Nat.le_trans (Nat.le_of_lt hblt) (hΔs2f x hx2)
          · exact hbstk x hx2
        · rw [lowGet_lowUpd_self]
          refine Nat.le_min.mpr ⟨by rw [hlow2i]; exact hbl, ?_⟩
          exact hpost2.lowBnd b hbstk (Nat.le_of_lt hblt)
      · refine ⟨ΔO2 ++ ΔO3, by rw [hΔO3, hs1out, hΔO2, List.append_assoc], ?_⟩
        intro C hC m hm
        rw [List.mem_append] at hC
        rcases hC with hC | hC
        · exact hΔO2f C hC m hm
        · exact numPre_none hpost2.numPre (hΔO3f C hC m hm)
      · intro m j hm hj
        by_cases hj2 : s2.nxt ≤ j
        · obtain ⟨c2, hc2, hr⟩ := hpost.newReach m j hm hj2
          exact ⟨c2, List.mem_cons_of_mem c hc2, hr⟩
        · have hm2 : alookup s2.num m = some j := by
            refine numPre_back ⟨Δn3, by rw [hΔn3, hs1num], ?_⟩ hm (by omega)
            intro p hp
            exact hΔn3f p hp
          exact ⟨c, List.mem_cons_self c cs, hpost2.newReach m j hm2 hj⟩
      · intro c2 hc2
        rw [List.mem_cons] at hc2
        rcases hc2 with hc2 | hc2
        · subst hc2
          refine ⟨s.nxt, ?_, fun _ => ?_⟩
          · exact numPre_mono hpost.inv.numNd ⟨Δn3, hΔn3, hΔn3f⟩ hpost2.visN
          · exact Nat.le_trans hpost.lowIDec
              (by rw [lowGet_lowUpd_self]
                  exact Nat.le_trans (min_le_right _ _) hvle)
        · exact hpost.dispo c2 hc2

/-- The state right after `tarjan_inner` assigns an index to `n`, pushes
it and initializes its lowlink. -/
def TS.push (s : TS) (n : Nat) : TS :=
  ⟨(n, s.nxt) :: s.num, s.nxt + 1, s.nxt :: s.stk, (s.nxt, s.nxt) :: s.low, s.out⟩

theorem push_lowGet (s : TS) (n j : Nat) :
    (s.push n).lowGet j = if j = s.nxt then s.nxt else s.lowGet j := by
  unfold TS.push TS.lowGet
  rw [alookup_cons]
  by_cases h : j = s.nxt
  · rw [if_pos h, if_pos h.symm]
    rfl
  · rw [if_neg h, if_neg (fun hc => h hc.symm)]

theorem push_alookup (s : TS) (n m : Nat) :
    alookup (s.push n).num m = if n = m then some s.nxt else alookup s.num m := by
  unfold TS.push
  rw [alookup_cons]

theorem mem_flatten_get {α : Type} {l : List (List α)} {m : α}
    (h : m ∈ l.flatten) : ∃ k C, l.get? k = some C ∧ m ∈ C := by
  induction l with
  | nil => cases h
  | cons C rest ih =>
    rw [List.flatten_cons, List.mem_append] at h
    rcases h with h | h
    · exact ⟨0, C, rfl, h⟩
    · obtain ⟨k, C2, hk, hm⟩ := ih h
      exact ⟨k + 1, C2, hk, hm⟩

theorem get_flatten_mem {α : Type} {l : List (List α)} {k : Nat} {C : List α}
    (h : l.get? k = some C) {m : α} (hm : m ∈ C) : m ∈ l.flatten := by
  induction l generalizing k with
  | nil => cases h
  | cons C0 rest ih =>
    rw [List.flatten_cons, List.mem_append]
    cases k with
    | zero =>
      cases h
      exact Or.inl hm
    | succ k => exact Or.inr (ih h)

theorem TInv.push_inv {g : Graph} {s : TS} {G : List Nat} (hinv : TInv g s G)
    {n : Nat} (hnvis : alookup s.num n = none) (hnode : (alookup g n).isSome) :
    TInv g (s.push n) (s.nxt :: G) := by
  have hnmem : n ∉ s.num.map Prod.fst := (alookup_eq_none_iff _ _).mp hnvis
  constructor
  case numIdx =>
    show (s.nxt :: s.num.map Prod.snd) = (List.range (s.nxt + 1)).reverse
    rw [hinv.numIdx, List.range_succ, List.reverse_append]
    rfl
  case numNd =>
    show (n :: s.num.map Prod.fst).Nodup
    rw [List.nodup_cons]
    exact ⟨hnmem, hinv.numNd⟩
  case numNodes =>
    intro m j hm
    rw [push_alookup] at hm
    by_cases hmn : n = m
    · rw [← hmn]
      exact hnode
    · rw [if_neg hmn] at hm
      exact hinv.numNodes m j hm
  case stkDesc =>
    show List.Chain' _ (s.nxt :: s.stk)
    rw [List.chain'_cons']
    refine ⟨?_, hinv.stkDesc⟩
    intro y hy
    exact hinv.stkLt y (List.mem_of_mem_head? hy)
  case stkLt =>
    intro i hi
    have hi2 : i ∈ s.nxt :: s.stk := hi
    rw [List.mem_cons] at hi2
    show i < s.nxt + 1
    rcases hi2 with hi2 | hi2
    · omega
    · have := hinv.stkLt i hi2
      omega
  case lowLe =>
    intro j hj
    rw [push_lowGet]
    by_cases h : j = s.nxt
    · rw [if_pos h, h]
    · rw [if_neg h]
      have hjlt : j < s.nxt := by
        have : j < s.nxt + 1 := hj
        omega
      exact hinv.lowLe j hjlt
  case part =>
    intro m j hm
    rw [push_alookup] at hm
    by_cases hmn : n = m
    · rw [if_pos hmn] at hm
      cases hm
      constructor
      · intro _ hflat
        obtain ⟨i2, hi2⟩ := hinv.outVis m (by exact hflat)
        rw [← hmn] at hi2
        rw [hnvis] at hi2
        cases hi2
      · intro _
        exact List.mem_cons_self _ _
    · rw [if_neg hmn] at hm
      have hjlt : j < s.nxt := hinv.idx_lt hm
      have hiff : (j ∈ s.nxt :: s.stk) ↔ j ∈ s.stk := by
        rw [List.mem_cons]
        constructor
        · rintro (h | h)
          · omega
          · exact h
        · exact Or.inr
      show j ∈ s.nxt :: s.stk ↔ m ∉ s.out.flatten
      rw [hiff]
      exact hinv.part m j hm
  case outVis =>
    intro m hm
    obtain ⟨i2, hi2⟩ := hinv.outVis m hm
    refine ⟨i2, ?_⟩
    rw [push_alookup]
    by_cases hmn : n = m
    · rw [hmn] at hnvis
      rw [hnvis] at hi2
      cases hi2
    · rw [if_neg hmn]
      exact hi2
  case outNd => exact hinv.outNd
  case lowStk =>
    intro j hj
    rw [push_lowGet]
    have hj2 : j ∈ s.nxt :: s.stk := hj
    rw [List.mem_cons] at hj2
    show (if j = s.nxt then s.nxt else s.lowGet j) ∈ s.nxt :: s.stk
    rcases hj2 with hj2 | hj2
    · rw [if_pos hj2]
      exact List.mem_cons_self _ _
    · have hjlt : j < s.nxt := hinv.stkLt j hj2
      rw [if_neg (by omega)]
      exact List.mem_cons_of_mem _ (hinv.lowStk j hj2)
  case grayStk =>
    intro j hj
    rw [List.mem_cons] at hj
    show j ∈ s.nxt :: s.stk
    rcases hj with hj | hj
    · rw [hj]
      exact List.mem_cons_self _ _
    · exact List.mem_cons_of_mem _ (hinv.grayStk j hj)
  case grayDesc =>
    rw [List.chain'_cons']
    refine ⟨?_, hinv.grayDesc⟩
    intro y hy
    have hyG := List.mem_of_mem_head? hy
    exact hinv.stkLt y (hinv.grayStk y hyG)
  case blackLow =>
    intro j hj hjG
    have hjne : j ≠ s.nxt := fun he => hjG (he ▸ List.mem_cons_self _ _)
    rw [push_lowGet, if_neg hjne]
    have hj2 : j ∈ s.nxt :: s.stk := hj
    rw [List.mem_cons] at hj2
    rcases hj2 with hj2 | hj2
    · exact absurd hj2 hjne
    · exact hinv.blackLow j hj2 (fun hc => hjG (List.mem_cons_of_mem _ hc))
  case llReach =>
    intro m j hm
    rw [push_alookup] at hm
    by_cases hmn : n = m
    · rw [if_pos hmn] at hm
      cases hm
      rw [push_lowGet, if_pos rfl]
      have : (s.push n).nodeOf s.nxt = n := by
        unfold TS.push TS.nodeOf
        rw [List.find?_cons_of_pos _ (by simp)]
        rfl
      rw [this, hmn]
      exact Relation.ReflTransGen.refl
    · rw [if_neg hmn] at hm
      have hjlt : j < s.nxt := hinv.idx_lt hm
      rw [push_lowGet, if_neg (by omega)]
      have hnodeOf : (s.push n).nodeOf (s.lowGet j) = s.nodeOf (s.lowGet j) := by
        refine nodeOf_pre ⟨[(n, s.nxt)], rfl, ?_⟩ ?_
        · intro p hp
          rw [List.mem_singleton] at hp
          rw [hp]
        · exact Nat.lt_of_le_of_lt (hinv.lowLe j hjlt) hjlt
      rw [hnodeOf]
      exact hinv.llReach m j hm
  case edgeInv =>
    intro m j hm hjG cs hcs c hc
    have hjne : j ≠ s.nxt := fun he => hjG (he ▸ List.mem_cons_self _ _)
    rw [push_alookup] at hm
    by_cases hmn : n = m
    · rw [if_pos hmn] at hm
      cases hm
      exact absurd rfl hjne
    · rw [if_neg hmn] at hm
      obtain ⟨jc, hjc, hjcs⟩ := hinv.edgeInv m j hm
        (fun hc2 => hjG (List.mem_cons_of_mem _ hc2)) cs hcs c hc
      have hjclt : jc < s.nxt := hinv.idx_lt hjc
      refine ⟨jc, ?_, ?_⟩
      · rw [push_alookup]
        by_cases hcn : n = c
        · rw [hcn] at hnvis
          rw [hnvis] at hjc
          cases hjc
        · rw [if_neg hcn]
          exact hjc
      · intro hjstk
        rw [push_lowGet, if_neg hjne]
        have hjstk2 : jc ∈ s.nxt :: s.stk := hjstk
        rw [List.mem_cons] at hjstk2
        rcases hjstk2 with h2 | h2
        · omega
        · exact hjcs h2
  case outSC => exact hinv.outSC
  case outEdge => exact hinv.outEdge

/-- Closing a `tarjan_inner` frame whose node is not its component root:
the state is returned unchanged, the frame index turns black and stays
on the stack. -/
theorem tarjanFrame_stay (g : Graph) {s : TS} {G : List Nat} {n : Nat} {cs : List Nat}
    (hinv : TInv g s G) (hnvis : alookup s.num n = none)
    (hcs : alookup g n = some cs) {s3 : TS}
    (hvc : VCPost g (s.push n) G s.nxt cs s3)
    (hnroot : s3.lowGet s.nxt ≠ s.nxt) :
    TPost g s G n s3 := by
  obtain ⟨Δn, hΔn, hΔnf⟩ := hvc.numPre
  obtain ⟨Δs, hΔs, hΔsf⟩ := hvc.stkPre
  obtain ⟨ΔO, hΔO, hΔOf⟩ := hvc.outPre
  have hnum3 : s3.num = Δn ++ (n, s.nxt) :: s.num := hΔn
  have hstk3 : s3.stk = Δs ++ s.nxt :: s.stk := hΔs
  have hΔsf2 : ∀ x ∈ Δs, s.nxt + 1 ≤ x := hΔsf
  have hΔnf2 : ∀ p ∈ Δn, s.nxt + 1 ≤ p.2 := hΔnf
  have hfr1 : alookup (s.push n).num n = some s.nxt := by
    rw [push_alookup, if_pos rfl]
  have hfr3 : alookup s3.num n = some s.nxt :=
    numPre_mono hvc.inv.numNd ⟨Δn, hΔn, hΔnf⟩ hfr1
  have hnumPre : ∃ Δ, s3.num = Δ ++ s.num ∧ ∀ p ∈ Δ, s.nxt ≤ p.2 := by
    refine ⟨Δn ++ [(n, s.nxt)], by rw [hnum3, List.append_assoc]; rfl, ?_⟩
    intro p hp
    rw [List.mem_append, List.mem_singleton] at hp
    rcases hp with hp | hp
    · have := hΔnf2 p hp
      omega
    · rw [hp]
  have hstkPre : ∃ Δ, s3.stk = Δ ++ s.stk ∧ ∀ x ∈ Δ, s.nxt ≤ x := by
    refine ⟨Δs ++ [s.nxt], by rw [hstk3, List.append_assoc]; rfl, ?_⟩
    intro x hx
    rw [List.mem_append, List.mem_singleton] at hx
    rcases hx with hx | hx
    · have := hΔsf2 x hx
      omega
    · rw [hx]
  have histk3 : s.nxt ∈ s3.stk := by
    rw [hstk3, List.mem_append, List.mem_cons]
    exact Or.inr (Or.inl rfl)
  have hlow1 : ∀ j, j < s.nxt → (s.push n).lowGet j = s.lowGet j := by
    intro j hj
    rw [push_lowGet, if_neg (by omega)]
  have hinv3 := hvc.inv
  refine ⟨?_, ?_, hnumPre, hfr3, hstkPre, ?_, ?_, ?_, ?_, ?_, ?_, ?_⟩
  · -- TInv g s3 G
    refine ⟨hinv3.numIdx, hinv3.numNd, hinv3.numNodes, hinv3.stkDesc,
      hinv3.stkLt, hinv3.lowLe, hinv3.part, hinv3.outVis, hinv3.outNd,
      hinv3.lowStk, ?_, ?_, ?_, hinv3.llReach, ?_, hinv3.outSC, hinv3.outEdge⟩
    · intro j hj
      exact hinv3.grayStk j (List.mem_cons_of_mem _ hj)
    · exact (List.chain'_cons'.mp hinv3.grayDesc).2
    · intro j hj hjG
      by_cases hji : j = s.nxt
      · subst hji
        have := hinv3.lowLe s.nxt (hinv3.stkLt s.nxt hj)
        omega
      · exact hinv3.blackLow j hj (by
          rw [List.mem_cons]
          rintro (h | h)
          · exact hji h
          · exact hjG h)
    · intro m jm hm hjG cs2 hcs2 c hc
      by_cases hji : jm = s.nxt
      · subst hji
        have hmn : m = n := hinv3.idx_inj hm hfr3
        subst hmn
        rw [hcs] at hcs2
        cases hcs2
        exact hvc.dispo c hc
      · exact hinv3.edgeInv m jm hm (by
          rw [List.mem_cons]
          rintro (h | h)
          · exact hji h
          · exact hjG h) cs2 hcs2 c hc
  · -- nxtLt
    have := hvc.nxtLe
    show s.nxt < s3.nxt
    have h1 : (s.push n).nxt = s.nxt + 1 := rfl
    omega
  · -- lowOld
    intro j hj
    rw [hvc.lowOldNe j (by show j < s.nxt + 1; omega) (by omega), hlow1 j hj]
  · -- outPre
    refine ⟨ΔO, hΔO, ?_⟩
    intro C hC m hm
    have := hΔOf C hC m hm
    rw [push_alookup] at this
    by_cases hnm : n = m
    · rw [if_pos hnm] at this
      cases this
    · rwa [if_neg hnm] at this
  · -- newReach
    intro m j hm hj
    by_cases hji : j = s.nxt
    · subst hji
      have : m = n := hvc.inv.idx_inj hm hfr3
      rw [this]
      exact Relation.ReflTransGen.refl
    · have hj2 : (s.push n).nxt ≤ j := by
        show s.nxt + 1 ≤ j
        omega
      obtain ⟨c, hcmem, hr⟩ := hvc.newReach m j hm hj2
      refine Relation.ReflTransGen.trans (Relation.ReflTransGen.single ?_) hr
      unfold Edge Graph.childrenD
      rw [hcs]
      exact hcmem
  · -- lowBnd
    intro b hbstk hble
    refine hvc.lowBnd b ?_ ?_
    · intro x hx
      have hx2 : x ∈ s.nxt :: s.stk := hx
      rw [List.mem_cons] at hx2
      rcases hx2 with hx2 | hx2
      · omega
      · exact hbstk x hx2
    · rw [push_lowGet, if_pos rfl]
      exact hble
  · -- dLow
    intro x hx hix
    by_cases hxe : x = s.nxt
    · rw [hxe]
    · exact hvc.dLow x hx (by omega)
  · -- rootPop
    intro h
    exact absurd h hnroot
  · -- notRoot
    intro _
    exact histk3

/-- Closing a `tarjan_inner` frame whose node is its component root: the
stack segment above (and including) the frame index is popped and
emitted as a strongly connected component whose cross edges point at
earlier components. -/
theorem tarjanFrame_pop (g : Graph) {s : TS} {G : List Nat} {n : Nat} {cs : List Nat}
    (hinv : TInv g s G) (hnvis : alookup s.num n = none)
    (hcs : alookup g n = some cs) {s3 : TS}
    (hvc : VCPost g (s.push n) G s.nxt cs s3)
    (hroot : s3.lowGet s.nxt = s.nxt) :
    ∃ seg, popUntil s3.stk s.nxt = (seg, s.stk) ∧
      TPost g s G n ⟨s3.num, s3.nxt, s.stk, s3.low, s3.out ++ [seg.map s3.nodeOf]⟩ := by
  obtain ⟨Δn, hΔn, hΔnf⟩ := hvc.numPre
  obtain ⟨Δs, hΔs, hΔsf⟩ := hvc.stkPre
  obtain ⟨ΔO, hΔO, hΔOf⟩ := hvc.outPre
  have hinv3 := hvc.inv
  have hnum3 : s3.num = Δn ++ (n, s.nxt) :: s.num := hΔn
  have hstk3 : s3.stk = Δs ++ s.nxt :: s.stk := hΔs
  have hΔsf2 : ∀ x ∈ Δs, s.nxt + 1 ≤ x := hΔsf
  have hΔnf2 : ∀ p ∈ Δn, s.nxt + 1 ≤ p.2 := hΔnf
  have hout3 : s3.out = s.out ++ ΔO := hΔO
  have hfr1 : alookup (s.push n).num n = some s.nxt := by
    rw [push_alookup, if_pos rfl]
  have hfr3 : alookup s3.num n = some s.nxt :=
    numPre_mono hinv3.numNd ⟨Δn, hΔn, hΔnf⟩ hfr1
  have hnxt13 : s.nxt + 1 ≤ s3.nxt := hvc.nxtLe
  have histk3 : s.nxt ∈ s3.stk := by
    rw [hstk3, List.mem_append, List.mem_cons]
    exact Or.inr (Or.inl rfl)
  have hpop : popUntil s3.stk s.nxt = (Δs ++ [s.nxt], s.stk) := by
    rw [hstk3]
    exact popUntil_append s.stk (fun hm => by have := hΔsf2 _ hm; omega)
  have hstk3seg : s3.stk = (Δs ++ [s.nxt]) ++ s.stk := by
    rw [hstk3, List.append_assoc]
    rfl
  have hmemseg : ∀ x, x ∈ Δs ++ [s.nxt] ↔ (x ∈ s3.stk ∧ s.nxt ≤ x) := by
    intro x
    constructor
    · intro hx
      rw [List.mem_append, List.mem_singleton] at hx
      constructor
      · rw [hstk3seg, List.mem_append]
        exact Or.inl (by rw [List.mem_append, List.mem_singleton]; exact hx)
      · rcases hx with hx | hx
        · have := hΔsf2 x hx
          omega
        · omega
    · rintro ⟨hx, hxe⟩
      rw [hstk3seg, List.mem_append] at hx
      rcases hx with hx | hx
      · exact hx
      · have := hinv.stkLt x hx
        omega
  have hsegLow : ∀ x ∈ Δs ++ [s.nxt], s.nxt ≤ s3.lowGet x := by
    intro x hx
    rw [List.mem_append, List.mem_singleton] at hx
    rcases hx with hx | hx
    · have hxgt : s.nxt < x := by have := hΔsf2 x hx; omega
      have hxstk : x ∈ s3.stk := ((hmemseg x).mp (by
        rw [List.mem_append]; exact Or.inl hx)).1
      have := hvc.dLow x hxstk hxgt
      rw [hroot] at this
      exact this
    · rw [hx, hroot]
  have hsegNd : (Δs ++ [s.nxt]).Nodup := by
    have := hinv3.stkNd
    rw [hstk3seg] at this
    exact (List.nodup_append.mp this).1
  have hidx : ∀ x ∈ Δs ++ [s.nxt], ∃ m, alookup s3.num m = some x ∧ s3.nodeOf x = m := by
    intro x hx
    have hxstk := ((hmemseg x).mp hx).1
    have hxlt : x < s3.nxt := hinv3.stkLt x hxstk
    obtain ⟨m, hm⟩ := hinv3.idx_surj hxlt
    exact ⟨m, hm, hinv3.nodeOf_eq hm⟩
  have hGlt : ∀ j ∈ G, j < s.nxt := fun j hj => hinv.stkLt j (hinv.grayStk j hj)
  have hsegnotG : ∀ x ∈ Δs, x ∉ s.nxt :: G := by
    intro x hx hmem
    have hxgt := hΔsf2 x hx
    rw [List.mem_cons] at hmem
    rcases hmem with h | h
    · omega
    · have := hGlt x h
      omega
  -- every segment node reaches the root node n
  have hreachroot : ∀ x, x ∈ Δs ++ [s.nxt] → Reach g (s3.nodeOf x) n := by
    intro x
    induction x using Nat.strong_induction_on with
    | _ x ihx =>
      intro hx
      by_cases hxe : x = s.nxt
      · rw [hxe, hinv3.nodeOf_eq hfr3]
        exact Relation.ReflTransGen.refl
      · have hxΔ : x ∈ Δs := by
          rw [List.mem_append, List.mem_singleton] at hx
          rcases hx with h | h
          · exact h
          · exact absurd h hxe
        have hxstk := ((hmemseg x).mp hx).1
        have hblack := hinv3.blackLow x hxstk (hsegnotG x hxΔ)
        have hylow := hsegLow x hx
        have hystk := hinv3.lowStk x hxstk
        have hyseg : s3.lowGet x ∈ Δs ++ [s.nxt] := (hmemseg _).mpr ⟨hystk, hylow⟩
        obtain ⟨m, hm, hnom⟩ := hidx x hx
        have hreach1 : Reach g m (s3.nodeOf (s3.lowGet x)) := hinv3.llReach m x hm
        have hreach2 : Reach g (s3.nodeOf (s3.lowGet x)) n := ihx _ hblack hyseg
        rw [hnom]
        exact Relation.ReflTransGen.trans hreach1 hreach2
  -- the root node n reaches every segment node
  have hrootreach : ∀ x ∈ Δs ++ [s.nxt], Reach g n (s3.nodeOf x) := by
    intro x hx
    by_cases hxe : x = s.nxt
    · rw [hxe, hinv3.nodeOf_eq hfr3]
      exact Relation.ReflTransGen.refl
    · have hxΔ : x ∈ Δs := by
        rw [List.mem_append, List.mem_singleton] at hx
        rcases hx with h | h
        · exact h
        · exact absurd h hxe
      obtain ⟨m, hm, hnom⟩ := hidx x hx
      have hxge : (s.push n).nxt ≤ x := hΔsf x hxΔ
      obtain ⟨c, hcmem, hr⟩ := hvc.newReach m x hm hxge
      rw [hnom]
      refine Relation.ReflTransGen.trans (Relation.ReflTransGen.single ?_) hr
      unfold Edge Graph.childrenD
      rw [hcs]
      exact hcmem
  have hmemC : ∀ m, m ∈ (Δs ++ [s.nxt]).map s3.nodeOf ↔
      ∃ x ∈ Δs ++ [s.nxt], alookup s3.num m = some x := by
    intro m
    rw [List.mem_map]
    constructor
    · rintro ⟨x, hx, hxm⟩
      obtain ⟨m2, hm2, hnom2⟩ := hidx x hx
      refine ⟨x, hx, ?_⟩
      rw [← hxm, hnom2]
      exact hm2
    · rintro ⟨x, hx, hm⟩
      exact ⟨x, hx, hinv3.nodeOf_eq hm⟩
  -- the disposition of every edge out of a segment node
  have hdispo_seg : ∀ m x, alookup s3.num m = some x → x ∈ Δs ++ [s.nxt] →
      ∀ cs2, alookup g m = some cs2 → ∀ c ∈ cs2,
        ∃ jc, alookup s3.num c = some jc ∧ (jc ∈ s3.stk → s.nxt ≤ jc) := by
    intro m x hm hx cs2 hcs2 c hc
    by_cases hxe : x = s.nxt
    · subst hxe
      have hmn : m = n := hinv3.idx_inj hm hfr3
      subst hmn
      rw [hcs] at hcs2
      cases hcs2
      obtain ⟨jc, hjc, hjcs⟩ := hvc.dispo c hc
      refine ⟨jc, hjc, fun hjstk => ?_⟩
      have := hjcs hjstk
      rw [hroot] at this
      exact this
    · have hxΔ : x ∈ Δs := by
        rw [List.mem_append, List.mem_singleton] at hx
        rcases hx with h | h
        · exact h
        · exact absurd h hxe
      obtain ⟨jc, hjc, hjcs⟩ := hinv3.edgeInv m x hm (hsegnotG x hxΔ) cs2 hcs2 c hc
      refine ⟨jc, hjc, fun hjstk => ?_⟩
      exact Nat.le_trans (hsegLow x hx) (hjcs hjstk)
  refine ⟨Δs ++ [s.nxt], hpop, ?_⟩
  have hnumPre : ∃ Δ, s3.num = Δ ++ s.num ∧ ∀ p ∈ Δ, s.nxt ≤ p.2 := by
    refine ⟨Δn ++ [(n, s.nxt)], by rw [hnum3, List.append_assoc]; rfl, ?_⟩
    intro p hp
    rw [List.mem_append, List.mem_singleton] at hp
    rcases hp with hp | hp
    · have := hΔnf2 p hp
      omega
    · rw [hp]
  have hflat4 : (s3.out ++ [(Δs ++ [s.nxt]).map s3.nodeOf]).flatten =
      s3.out.flatten ++ (Δs ++ [s.nxt]).map s3.nodeOf := by
    rw [List.flatten_append]
    simp
  refine ⟨?_, by show s.nxt < s3.nxt; omega, hnumPre, hfr3,
    ⟨[], rfl, by intro x hx; cases hx⟩, ?_, ?_, ?_, ?_, ?_, fun _ => rfl, ?_⟩
  · -- TInv g s4 G
    refine ⟨hinv3.numIdx, hinv3.numNd, hinv3.numNodes, hinv.stkDesc, ?_,
      hinv3.lowLe, ?_, ?_, ?_, ?_, hinv.grayStk, hinv.grayDesc, ?_,
      hinv3.llReach, ?_, ?_, ?_⟩
    · -- stkLt
      intro x hx
      have := hinv.stkLt x hx
      show x < s3.nxt
      omega
    · -- part
      intro m jm hm
      show jm ∈ s.stk ↔ m ∉ (s3.out ++ [(Δs ++ [s.nxt]).map s3.nodeOf]).flatten
      rw [hflat4, List.mem_append]
      constructor
      · intro hjm
        have hjmlt : jm < s.nxt := hinv.stkLt jm hjm
        have hjstk3 : jm ∈ s3.stk := by
          rw [hstk3seg, List.mem_append]
          exact Or.inr hjm
        have hnot3 := (hinv3.part m jm hm).mp hjstk3
        rintro (hc | hc)
        · exact hnot3 hc
        · obtain ⟨x, hx, hmx⟩ := (hmemC m).mp hc
          rw [hm] at hmx
          cases hmx
          have := ((hmemseg jm).mp hx).2
          omega
      · intro hnot
        have hnot3 : m ∉ s3.out.flatten := fun hc => hnot (Or.inl hc)
        have hjstk3 : jm ∈ s3.stk := (hinv3.part m jm hm).mpr hnot3
        rw [hstk3seg, List.mem_append] at hjstk3
        rcases hjstk3 with hjm | hjm
        · exfalso
          exact hnot (Or.inr ((hmemC m).mpr ⟨jm, hjm, hm⟩))
        · exact hjm
    · -- outVis
      intro m hm
      rw [hflat4, List.mem_append] at hm
      rcases hm with hm | hm
      · exact hinv3.outVis m hm
      · obtain ⟨x, _, hmx⟩ := (hmemC m).mp hm
        exact ⟨x, hmx⟩
    · -- outNd
      show (s3.out ++ [(Δs ++ [s.nxt]).map s3.nodeOf]).flatten.Nodup
      rw [hflat4, List.nodup_append]
      refine ⟨hinv3.outNd, ?_, ?_⟩
      · refine List.Nodup.map_on ?_ hsegNd
        intro x hx y hy hxy
        obtain ⟨mx, hmx, hnmx⟩ := hidx x hx
        obtain ⟨my, hmy, hnmy⟩ := hidx y hy
        rw [hnmx, hnmy] at hxy
        rw [hxy] at hmx
        rw [hmx] at hmy
        cases hmy
        rfl
      · intro m hmflat hmC
        obtain ⟨x, hx, hmx⟩ := (hmemC m).mp hmC
        have hxstk := ((hmemseg x).mp hx).1
        exact (hinv3.part m x hmx).mp hxstk hmflat
    · -- lowStk
      intro j hj
      have hjlt : j < s.nxt := hinv.stkLt j hj
      have hjstk3 : j ∈ s3.stk := by
        rw [hstk3seg, List.mem_append]
        exact Or.inr hj
      have hlow3 := hinv3.lowStk j hjstk3
      have hlowle := hinv3.lowLe j (by omega)
      show s3.lowGet j ∈ s.stk
      rw [hstk3seg, List.mem_append] at hlow3
      rcases hlow3 with h | h
      · have := ((hmemseg _).mp h).2
        omega
      · exact h
    · -- blackLow
      intro j hj hjG
      have hjlt : j < s.nxt := hinv.stkLt j hj
      have hjstk3 : j ∈ s3.stk := by
        rw [hstk3seg, List.mem_append]
        exact Or.inr hj
      refine hinv3.blackLow j hjstk3 ?_
      rw [List.mem_cons]
      rintro (h | h)
      · omega
      · exact hjG h
    · -- edgeInv
      intro m jm hm hjG cs2 hcs2 c hc
      by_cases hje : jm = s.nxt
      · subst hje
        have hmn : m = n := hinv3.idx_inj hm hfr3
        subst hmn
        rw [hcs] at hcs2
        cases hcs2
        obtain ⟨jc, hjc, hjcs⟩ := hvc.dispo c hc
        refine ⟨jc, hjc, fun hjstk => ?_⟩
        refine hjcs ?_
        rw [hstk3seg, List.mem_append]
        exact Or.inr hjstk
      · obtain ⟨jc, hjc, hjcs⟩ := hinv3.edgeInv m jm hm (by
          rw [List.mem_cons]
          rintro (h | h)
          · exact hje h
          · exact hjG h) cs2 hcs2 c hc
        refine ⟨jc, hjc, fun hjstk => ?_⟩
        refine hjcs ?_
        rw [hstk3seg, List.mem_append]
        exact Or.inr hjstk
    · -- outSC
      intro C hC u hu v hv
      rw [List.mem_append, List.mem_singleton] at hC
      rcases hC with hC | hC
      · exact hinv3.outSC C hC u hu v hv
      · subst hC
        obtain ⟨xu, hxu, hmu⟩ := (hmemC u).mp hu
        obtain ⟨xv, hxv, hmv⟩ := (hmemC v).mp hv
        have h1 : Reach g u n := by
          have := hreachroot xu hxu
          rwa [hinv3.nodeOf_eq hmu] at this
        have h2 : Reach g n v := by
          have := hrootreach xv hxv
          rwa [hinv3.nodeOf_eq hmv] at this
        exact Relation.ReflTransGen.trans h1 h2
    · -- outEdge
      intro k C hk u hu cs2 hcs2 v hv
      have hlen : (s3.out ++ [(Δs ++ [s.nxt]).map s3.nodeOf]).length = s3.out.length + 1 := by
        simp
      rcases Nat.lt_trichotomy k s3.out.length with hklt | hkeq | hkgt
      · have hk3 : s3.out.get? k = some C := by
          rw [← hk, List.get?_append hklt]
        have := hinv3.outEdge k C hk3 u hu cs2 hcs2 v hv
        rcases this with h | ⟨k2, C2, hk2, hC2, hvC2⟩
        · exact Or.inl h
        · refine Or.inr ⟨k2, C2, hk2, ?_, hvC2⟩
          rw [List.get?_append (by omega)]
          exact hC2
      · -- the new component
        have hkC : C = (Δs ++ [s.nxt]).map s3.nodeOf := by
          rw [hkeq] at hk
          rw [List.get?_concat_length] at hk
          cases hk
          rfl
        subst hkC
        obtain ⟨x, hx, hmu⟩ := (hmemC u).mp hu
        obtain ⟨jc, hjc, hjcs⟩ := hdispo_seg u x hmu hx cs2 hcs2 v hv
        by_cases hjstk : jc ∈ s3.stk
        · left
          rw [hmemC]
          refine ⟨jc, ?_, hjc⟩
          exact (hmemseg jc).mpr ⟨hjstk, hjcs hjstk⟩
        · right
          have hvflat : v ∈ s3.out.flatten := by
            by_contra hvnot
            exact hjstk ((hinv3.part v jc hjc).mpr hvnot)
          obtain ⟨k2, C2, hk2, hvC2⟩ := mem_flatten_get hvflat
          have hk2lt : k2 < s3.out.length := by
            by_contra hge
            rw [List.get?_eq_none.mpr (by omega)] at hk2
            cases hk2
          refine ⟨k2, C2, by omega, ?_, hvC2⟩
          rw [List.get?_append hk2lt]
          exact hk2
      · exfalso
        rw [List.get?_eq_none.mpr (by rw [hlen]; omega)] at hk
        cases hk
  · -- lowOld
    intro j hj
    have h1 := hvc.lowOldNe j (by show j < s.nxt + 1; omega) (by omega)
    have h2 : (s.push n).lowGet j = s.lowGet j := by
      rw [push_lowGet, if_neg (by omega)]
    show s3.lowGet j = s.lowGet j
    rw [h1, h2]
  · -- outPre
    refine ⟨ΔO ++ [(Δs ++ [s.nxt]).map s3.nodeOf], by
      show s3.out ++ _ = _
      rw [hout3, List.append_assoc], ?_⟩
    intro C hC m hm
    rw [List.mem_append, List.mem_singleton] at hC
    rcases hC with hC | hC
    · have := hΔOf C hC m hm
      rw [push_alookup] at this
      by_cases hnm : n = m
      · rw [if_pos hnm] at this
        cases this
      · rwa [if_neg hnm] at this
    · subst hC
      obtain ⟨x, hx, hmx⟩ := (hmemC m).mp hm
      cases hsm : alookup s.num m with
      | none => rfl
      | some j =>
        exfalso
        have hjlt : j < s.nxt := hinv.idx_lt hsm
        have := numPre_mono hinv3.numNd hnumPre hsm
        rw [hmx] at this
        cases this
        have := ((hmemseg x).mp hx).2
        omega
  · -- newReach
    intro m j hm hj
    by_cases hji : j = s.nxt
    · subst hji
      have : m = n := hinv3.idx_inj hm hfr3
      rw [this]
      exact Relation.ReflTransGen.refl
    · have hj2 : (s.push n).nxt ≤ j := by
        show s.nxt + 1 ≤ j
        omega
      obtain ⟨c, hcmem, hr⟩ := hvc.newReach m j hm hj2
      refine Relation.ReflTransGen.trans (Relation.ReflTransGen.single ?_) hr
      unfold Edge Graph.childrenD
      rw [hcs]
      exact hcmem
  · -- lowBnd
    intro b _ hble
    show b ≤ s3.lowGet s.nxt
    rw [hroot]
    exact hble
  · -- dLow
    intro x hx hix
    have := hinv.stkLt x hx
    omega
  · -- notRoot
    intro h
    exact absurd hroot h

/-- Unfolding equation for a successful `tarjan_inner` step. -/
theorem tarjanInner_succ (g : Graph) (fuel n : Nat) (s : TS) {cs : List Nat}
    (hcs : g.children n = some cs) {s3 : TS}
    (hrun : visitChildren (tarjanInner g fuel) s.nxt cs (s.push n) = some s3) :
    tarjanInner g (fuel + 1) n s =
      if s3.lowGet s.nxt = s.nxt then
        some (s.nxt, ⟨s3.num, s3.nxt, (popUntil s3.stk s.nxt).2, s3.low,
          s3.out ++ [(popUntil s3.stk s.nxt).1.map s3.nodeOf]⟩)
      else some (s.nxt, s3) := by
  show (match g.children n with
    | none => none
    | some cs2 =>
      match visitChildren (tarjanInner g fuel) s.nxt cs2 (s.push n) with
      | none => none
      | some s4 =>
        if s4.lowGet s.nxt = s.nxt then
          some (s.nxt, (⟨s4.num, s4.nxt, (popUntil s4.stk s.nxt).2, s4.low,
            s4.out ++ [(popUntil s4.stk s.nxt).1.map s4.nodeOf]⟩ : TS))
        else some (s.nxt, s4)) = _
  rw [hcs]
  show (match visitChildren (tarjanInner g fuel) s.nxt cs (s.push n) with
    | none => none
    | some s4 =>
      if s4.lowGet s.nxt = s.nxt then
        some (s.nxt, (⟨s4.num, s4.nxt, (popUntil s4.stk s.nxt).2, s4.low,
          s4.out ++ [(popUntil s4.stk s.nxt).1.map s4.nodeOf]⟩ : TS))
      else some (s.nxt, s4)) = _
  rw [hrun]

/-- Full specification of `tarjan_inner`: with sufficient fuel it
succeeds, returns the index assigned to the node, and satisfies the
frame postcondition. -/
theorem tarjanInner_spec (g : Graph) (hg : GWF g) :
    ∀ (fuel : Nat) (s : TS) (G : List Nat) (n : Nat),
      TInv g s G → alookup s.num n = none → (alookup g n).isSome →
      g.length - s.nxt < fuel →
      ∃ s2, tarjanInner g fuel n s = some (s.nxt, s2) ∧ TPost g s G n s2 := by
  intro fuel
  induction fuel with
  | zero =>
    intro s G n hinv hnvis hnode hfuel
    exfalso
    have := hinv.nxt_lt_glen hg hnvis hnode
    omega
  | succ fuel ihf =>
    intro s G n hinv hnvis hnode hfuel
    obtain ⟨cs, hcs⟩ := Option.isSome_iff_exists.mp hnode
    have hglen : s.nxt < g.length := hinv.nxt_lt_glen hg hnvis hnode
    have hinv1 : TInv g (s.push n) (s.nxt :: G) := hinv.push_inv hnvis hnode
    have hfuel1 : g.length - (s.push n).nxt < fuel := by
      show g.length - (s.nxt + 1) < fuel
      omega
    have hedge : ∀ c ∈ cs, Edge g n c := by
      intro c hc
      unfold Edge Graph.childrenD
      rw [hcs]
      exact hc
    have hkeys : ∀ c ∈ cs, (alookup g c).isSome := fun c hc => hg.2 n cs hcs c hc
    have hfr1 : alookup (s.push n).num n = some s.nxt := by
      rw [push_alookup, if_pos rfl]
    have histk1 : s.nxt ∈ (s.push n).stk := List.mem_cons_self _ _
    have hilt1 : s.nxt < (s.push n).nxt := Nat.lt_succ_self _
    have hdLow1 : ∀ x ∈ (s.push n).stk, s.nxt < x →
        (s.push n).lowGet s.nxt ≤ (s.push n).lowGet x := by
      intro x hx hgt
      exfalso
      have hx2 : x ∈ s.nxt :: s.stk := hx
      rw [List.mem_cons] at hx2
      rcases hx2 with h | h
      · omega
      · have := hinv.stkLt x h
        omega
    obtain ⟨s3, hrun, hvc⟩ := visitChildren_spec g (tarjanInner g fuel) fuel ihf cs
      (s.push n) G s.nxt n hinv1 histk1 hilt1 hfr1 hedge hkeys hdLow1 hfuel1
    have hcs2 : g.children n = some cs := hcs
    rw [tarjanInner_succ g fuel n s hcs2 hrun]
    by_cases hroot : s3.lowGet s.nxt = s.nxt
    · rw [if_pos hroot]
      obtain ⟨seg, hpop, hpost⟩ := tarjanFrame_pop g hinv hnvis hcs hvc hroot
      rw [hpop]
      exact ⟨_, rfl, hpost⟩
    · rw [if_neg hroot]
      exact ⟨s3, rfl, tarjanFrame_stay g hinv hnvis hcs hvc hroot⟩

theorem tarjanAll_spec (g : Graph) (hg : GWF g) :
    ∀ (ns : List Nat) (s : TS),
      TInv g s [] → s.stk = [] → (∀ n ∈ ns, (alookup g n).isSome) →
      ∃ s2, tarjanAll g ns s = some s2 ∧ TInv g s2 [] ∧ s2.stk = [] ∧
        (∀ m j, alookup s.num m = some j → alookup s2.num m = some j) ∧
        (∀ n ∈ ns, (alookup s2.num n).isSome) := by
  intro ns
  induction ns with
  | nil =>
    intro s hinv hstk _
    exact ⟨s, rfl, hinv, hstk, fun m j h => h, by intro n h; cases h⟩
  | cons n ns ih =>
    intro s hinv hstk hmem
    show ∃ s2, (if (alookup s.num n).isSome then tarjanAll g ns s
      else match tarjanInner g (g.size + 1) n s with
        | none => none
        | some is => tarjanAll g ns is.2) = some s2 ∧ _
    by_cases hv : (alookup s.num n).isSome
    · rw [if_pos hv]
      obtain ⟨s2, hrun, hinv2, hstk2, hmono, hvis⟩ := ih s hinv hstk
        (fun m hm => hmem m (List.mem_cons_of_mem n hm))
      refine ⟨s2, hrun, hinv2, hstk2, hmono, ?_⟩
      intro m hm
      rw [List.mem_cons] at hm
      rcases hm with hm | hm
      · subst hm
        obtain ⟨j, hj⟩ := Option.isSome_iff_exists.mp hv
        rw [hmono m j hj]
        rfl
      · exact hvis m hm
    · rw [if_neg hv]
      rw [Option.not_isSome_iff_eq_none] at hv
      have hfuel : g.length - s.nxt < g.size + 1 := by
        show g.length - s.nxt < g.length + 1
        omega
      obtain ⟨s2, hrun, hpost⟩ := tarjanInner_spec g hg (g.size + 1) s [] n hinv hv
        (hmem n (List.mem_cons_self n ns)) hfuel
      rw [hrun]
      have hstk2 : s2.stk = [] := by
        have hb := hpost.lowBnd s.nxt (by rw [hstk]; intro x hx; cases hx) (Nat.le_refl _)
        have hle := hpost.inv.lowLe s.nxt hpost.nxtLt
        have : s2.lowGet s.nxt = s.nxt := Nat.le_antisymm hle hb
        rw [hpost.rootPop this, hstk]
      obtain ⟨s3, hrun3, hinv3, hstk3, hmono3, hvis3⟩ := ih s2 hpost.inv hstk2
        (fun m hm => hmem m (List.mem_cons_of_mem n hm))
      refine ⟨s3, hrun3, hinv3, hstk3, ?_, ?_⟩
      · intro m j hm
        exact hmono3 m j (numPre_mono hpost.inv.numNd hpost.numPre hm)
      · intro m hm
        rw [List.mem_cons] at hm
        rcases hm with hm | hm
        · subst hm
          rw [hmono3 m s.nxt hpost.visN]
          rfl
        · exact hvis3 m hm

/-- The combined specification of `strongly_connected_components`: on a
well-formed graph it succeeds, and the emitted components are pairwise
disjoint, cover exactly the nodes of the graph, are each strongly
connected, and have all cross edges pointing at earlier components. -/
theorem sccs_spec (g : Graph) (hg : GWF g) :
    ∃ comps, sccs g = some comps ∧
      comps.flatten.Nodup ∧
      (∀ n, n ∈ comps.flatten ↔ n ∈ g.nodes) ∧
      (∀ C ∈ comps, ∀ u ∈ C, ∀ v ∈ C, Reach g u v) ∧
      (∀ k C, comps.get? k = some C → ∀ u ∈ C, ∀ v ∈ g.childrenD u,
        v ∈ C ∨ ∃ k2 C2, k2 < k ∧ comps.get? k2 = some C2 ∧ v ∈ C2) := by
  have hinv0 : TInv g TS.initial [] := by
    refine ⟨rfl, List.nodup_nil, ?_, List.chain'_nil, ?_, ?_, ?_, ?_,
      List.nodup_nil, ?_, ?_, List.chain'_nil, ?_, ?_, ?_, ?_, ?_⟩
    · intro n i h; cases h
    · intro i h; cases h
    · intro i h; exact absurd (show i < 0 from h) (Nat.not_lt_zero i)
    · intro n i h; cases h
    · intro n h; cases h
    · intro i h; cases h
    · intro j h; cases h
    · intro i h; cases h
    · intro n i h; cases h
    · intro n i h; cases h
    · intro C h; cases h
    · intro k C h u hu; cases h
  obtain ⟨s2, hrun, hinv2, hstk2, _, hvis⟩ := tarjanAll_spec g hg g.nodes TS.initial
    hinv0 rfl (fun n hn => (mem_nodes_iff g n).mp hn)
  refine ⟨s2.out, by unfold sccs; rw [hrun]; rfl, hinv2.outNd, ?_, hinv2.outSC, ?_⟩
  · intro n
    constructor
    · intro hn
      obtain ⟨i, hi⟩ := hinv2.outVis n hn
      rw [mem_nodes_iff]
      exact hinv2.numNodes n i hi
    · intro hn
      obtain ⟨i, hi⟩ := Option.isSome_iff_exists.mp (hvis n hn)
      by_contra hflat
      have := (hinv2.part n i hi).mpr hflat
      rw [hstk2] at this
      cases this
  · intro k C hk u hu v hv
    have hcs : ∃ cs, alookup g u = some cs ∧ v ∈ cs := by
      unfold Graph.childrenD at hv
      cases hg2 : alookup g u with
      | none => rw [hg2] at hv; cases hv
      | some cs => rw [hg2] at hv; exact ⟨cs, rfl, hv⟩
    obtain ⟨cs, hcsu, hvcs⟩ := hcs
    exact hinv2.outEdge k C hk u hu cs hcsu v hvcs

theorem flatten_nodup_unique {l : List (List Nat)} (hnd : l.flatten.Nodup) :
    ∀ (k1 k2 : Nat) (C1 C2 : List Nat), l.get? k1 = some C1 → l.get? k2 = some C2 →
      ∀ n, n ∈ C1 → n ∈ C2 → k1 = k2 ∧ C1 = C2 := by
  induction l with
  | nil => intro k1 k2 C1 C2 h1; cases h1
  | cons C rest ih =>
    intro k1 k2 C1 C2 h1 h2 n hn1 hn2
    rw [List.flatten_cons, List.nodup_append] at hnd
    cases k1 with
    | zero =>
      cases h1
      cases k2 with
      | zero =>
        cases h2
        exact ⟨rfl, rfl⟩
      | succ k2 =>
        exfalso
        have h2r : rest.get? k2 = some C2 := h2
        exact hnd.2.2 hn1 (get_flatten_mem h2r hn2)
    | succ k1 =>
      cases k2 with
      | zero =>
        cases h2
        exfalso
        have h1r : rest.get? k1 = some C1 := h1
        exact hnd.2.2 hn2 (get_flatten_mem h1r hn1)
      | succ k2 =>
        have h1r : rest.get? k1 = some C1 := h1
        have h2r : rest.get? k2 = some C2 := h2
        obtain ⟨hk, hC⟩ := ih hnd.2.1 k1 k2 C1 C2 h1r h2r n hn1 hn2
        exact ⟨by omega, hC⟩

/-- C4: on every finite directed graph, `strongly_connected_components`
emits components that partition exactly the set of nodes occurring as an
endpoint of some edge; each component is strongly connected (members are
pairwise reachable), and maximal: any node mutually reachable with a
member belongs to the same component. -/
theorem tarjan_sccs_correct (es : List (Nat × Nat)) :
    ∃ comps, sccs (Graph.fromEdges es) = some comps ∧
      comps.flatten.Nodup ∧
      (∀ n, n ∈ comps.flatten ↔ ∃ p ∈ es, n = p.1 ∨ n = p.2) ∧
      (∀ C ∈ comps, ∀ u ∈ C, ∀ v ∈ C, Reach (Graph.fromEdges es) u v) ∧
      (∀ C ∈ comps, ∀ u ∈ C, ∀ v, Reach (Graph.fromEdges es) u v →
        Reach (Graph.fromEdges es) v u → v ∈ C) := by
  set g := Graph.fromEdges es with hgdef
  have hg : GWF g := fromEdges_GWF es
  obtain ⟨comps, hrun, hnd, hcov, hSC, hXE⟩ := sccs_spec g hg
  have hcov2 : ∀ n, n ∈ comps.flatten ↔ ∃ p ∈ es, n = p.1 ∨ n = p.2 := by
    intro n
    rw [hcov n, mem_nodes_iff, hgdef, fromEdges_isSome_iff]
  -- component index is monotone along edges, hence along reachability
  have hstep : ∀ a b, Edge g a b → ∀ ka Ca, comps.get? ka = some Ca → a ∈ Ca →
      ∃ kb Cb, comps.get? kb = some Cb ∧ b ∈ Cb ∧ kb ≤ ka := by
    intro a b hab ka Ca hka haC
    rcases hXE ka Ca hka a haC b hab with h | ⟨k2, C2, hk2, hC2, hbC2⟩
    · exact ⟨ka, Ca, hka, h, Nat.le_refl _⟩
    · exact ⟨k2, C2, hC2, hbC2, Nat.le_of_lt hk2⟩
  have hwalk : ∀ a b, Reach g a b → ∀ ka Ca, comps.get? ka = some Ca → a ∈ Ca →
      ∃ kb Cb, comps.get? kb = some Cb ∧ b ∈ Cb ∧ kb ≤ ka := by
    intro a b hr
    induction hr using Relation.ReflTransGen.head_induction_on with
    | refl =>
      intro ka Ca hka haC
      exact ⟨ka, Ca, hka, haC, Nat.le_refl _⟩
    | head hac hcb ih =>
      intro ka Ca hka haC
      obtain ⟨kc, Cc, hkc, hcC, hlec⟩ := hstep _ _ hac ka Ca hka haC
      obtain ⟨kb, Cb, hkb, hbC, hleb⟩ := ih kc Cc hkc hcC
      exact ⟨kb, Cb, hkb, hbC, Nat.le_trans hleb hlec⟩
  refine ⟨comps, hrun, hnd, hcov2, hSC, ?_⟩
  intro C hC u hu v huv hvu
  obtain ⟨k, hk⟩ := List.get?_of_mem hC
  obtain ⟨kv, Cv, hkv, hvCv, hkvle⟩ := hwalk u v huv k C hk hu
  obtain ⟨ku, Cu, hku, huCu, hkule⟩ := hwalk v u hvu kv Cv hkv hvCv
  obtain ⟨hkeq, _⟩ := flatten_nodup_unique hnd ku k Cu C hku hk u huCu hu
  have hkveq : kv = k := by omega
  rw [hkveq] at hkv
  rw [hk] at hkv
  cases hkv
  exact hvCv

/-! ### The cycle-preparation rewrite (C3) -/

theorem childrenD_addEdge_self (g : Graph) (s e : Nat) :
    (g.addEdge s e).childrenD s = insDedup (g.childrenD s) e := by
  unfold Graph.childrenD
  rw [alookup_addEdge_src]
  rfl

theorem childrenD_addEdge_other (g : Graph) (s e n : Nat) (hs : n ≠ s) :
    (g.addEdge s e).childrenD n = g.childrenD n := by
  unfold Graph.childrenD
  by_cases he : n = e
  · subst he
    have := alookup_addEdge_tgt_isSome g s n
    unfold Graph.addEdge at this ⊢
    by_cases h : (alookup (setEntry g s (insDedup (g.childrenD s) n)) n).isSome
    · rw [if_pos h]
      rw [alookup_setEntry_ne _ _ _ _ (fun hc => hs hc.symm)]
    · rw [if_neg h]
      rw [Option.not_isSome_iff_eq_none] at h
      rw [alookup_append_right _ h, alookup_cons, if_pos rfl]
      have hnone : alookup g n = none := by
        rw [← alookup_setEntry_ne g s n (insDedup (g.childrenD s) n)
          (fun hc => hs hc.symm)]
        exact h
      rw [hnone]
      rfl
  · rw [alookup_addEdge_other g s e n hs he]

theorem childrenD_addEdges_other (g : Graph) (s : Nat) (ends : List Nat) (n : Nat)
    (hs : n ≠ s) : (g.addEdges s ends).childrenD n = g.childrenD n := by
  induction ends generalizing g with
  | nil => rfl
  | cons e rest ih =>
    show ((g.addEdge s e).addEdges s rest).childrenD n = _
    rw [ih (g.addEdge s e), childrenD_addEdge_other g s e n hs]

theorem mem_childrenD_addEdges_self (g : Graph) (s : Nat) (ends : List Nat) (x : Nat) :
    x ∈ (g.addEdges s ends).childrenD s ↔ x ∈ g.childrenD s ∨ x ∈ ends := by
  induction ends generalizing g with
  | nil => simp [Graph.addEdges]
  | cons e rest ih =>
    show x ∈ ((g.addEdge s e).addEdges s rest).childrenD s ↔ _
    rw [ih, childrenD_addEdge_self, mem_insDedup]
    rw [List.mem_cons]
    constructor
    · rintro ((h | h) | h)
      · exact Or.inl h
      · exact Or.inr (Or.inl h)
      · exact Or.inr (Or.inr h)
    · rintro (h | h | h)
      · exact Or.inl (Or.inl h)
      · exact Or.inl (Or.inr h)
      · exact Or.inr h

theorem childrenD_deleteOutgoing_self (g : Graph) (n : Nat) :
    (g.deleteOutgoing n).childrenD n = [] := by
  unfold Graph.deleteOutgoing Graph.childrenD
  rw [alookup_setEntry_self]
  rfl

theorem childrenD_deleteOutgoing_other (g : Graph) (n m : Nat) (h : m ≠ n) :
    (g.deleteOutgoing n).childrenD m = g.childrenD m := by
  unfold Graph.deleteOutgoing Graph.childrenD
  rw [alookup_setEntry_ne _ _ _ _ (fun hc => h hc.symm)]

theorem mem_dedupL (l : List Nat) (x : Nat) : x ∈ dedupL l ↔ x ∈ l := by
  unfold dedupL
  suffices h : ∀ (acc : List Nat),
      x ∈ l.foldl (fun acc x => if x ∈ acc then acc else acc ++ [x]) acc ↔
        x ∈ acc ∨ x ∈ l by
    rw [h []]
    simp
  induction l with
  | nil => intro acc; simp
  | cons y rest ih =>
    intro acc
    show x ∈ rest.foldl _ (if y ∈ acc then acc else acc ++ [y]) ↔ _
    rw [ih]
    by_cases hy : y ∈ acc
    · rw [if_pos hy]
      constructor
      · rintro (h | h)
        · exact Or.inl h
        · exact Or.inr (List.mem_cons_of_mem y h)
      · rintro (h | h)
        · exact Or.inl h
        · rw [List.mem_cons] at h
          rcases h with h | h
          · exact Or.inl (h ▸ hy)
          · exact Or.inr h
    · rw [if_neg hy]
      rw [List.mem_cons]
      constructor
      · rintro (h | h)
        · rw [List.mem_append, List.mem_singleton] at h
          rcases h with h | h
          · exact Or.inl h
          · exact Or.inr (Or.inl h)
        · exact Or.inr (Or.inr h)
      · rintro (h | h | h)
        · exact Or.inl (by rw [List.mem_append]; exact Or.inl h)
        · exact Or.inl (by rw [List.mem_append, List.mem_singleton]; exact Or.inr h)
        · exact Or.inr h

theorem mem_outerDeps (g : Graph) (comp : List Nat) (x : Nat) :
    x ∈ outerDeps g comp ↔ (∃ m ∈ comp, x ∈ g.childrenD m) ∧ x ∉ comp := by
  unfold outerDeps
  rw [mem_dedupL, List.mem_filter]
  rw [List.mem_flatten]
  constructor
  · rintro ⟨⟨l, hl, hx⟩, hdec⟩
    rw [List.mem_filterMap] at hl
    obtain ⟨m, hm, hchild⟩ := hl
    refine ⟨⟨m, hm, ?_⟩, by simpa using hdec⟩
    show x ∈ (alookup g m).getD []
    rw [show alookup g m = some l from hchild]
    exact hx
  · rintro ⟨⟨m, hm, hx⟩, hnot⟩
    refine ⟨⟨g.childrenD m, ?_, hx⟩, by simpa using hnot⟩
    rw [List.mem_filterMap]
    refine ⟨m, hm, ?_⟩
    have hx2 : x ∈ (alookup g m).getD [] := hx
    cases hc : alookup g m with
    | none =>
      rw [hc] at hx2
      cases hx2
    | some cs =>
      show alookup g m = some ((alookup g m).getD [])
      rw [hc]
      rfl

/-- One step of the per-component rewrite loop touches only the edges of
the node it processes. -/
theorem rewriteStep_other (g : Graph) (m : Nat) (allDeps : List Nat) (n : Nat)
    (h : n ≠ m) :
    (((g.deleteOutgoing m).addEdges m allDeps).addEdge m m).childrenD n =
      g.childrenD n := by
  rw [childrenD_addEdge_other _ _ _ _ h, childrenD_addEdges_other _ _ _ _ h,
    childrenD_deleteOutgoing_other _ _ _ h]

/-- After one step of the rewrite loop, the processed node's edges are
exactly the supplied dependency set plus a self-edge. -/
theorem rewriteStep_self (g : Graph) (m : Nat) (allDeps : List Nat) (x : Nat) :
    x ∈ (((g.deleteOutgoing m).addEdges m allDeps).addEdge m m).childrenD m ↔
      x ∈ allDeps ∨ x = m := by
  rw [childrenD_addEdge_self, mem_insDedup, mem_childrenD_addEdges_self,
    childrenD_deleteOutgoing_self]
  constructor
  · rintro ((h | h) | h)
    · cases h
    · exact Or.inl h
    · exact Or.inr h
  · rintro (h | h)
    · exact Or.inl (Or.inr h)
    · exact Or.inr h

theorem rewriteFold_other (A : List Nat) :
    ∀ (l : List Nat) (g2 : Graph) (n : Nat), n ∉ l →
      (l.foldl (fun g m => ((g.deleteOutgoing m).addEdges m A).addEdge m m) g2).childrenD n =
        g2.childrenD n := by
  intro l
  induction l with
  | nil => intro g2 n _; rfl
  | cons m rest ih =>
    intro g2 n hn
    show (rest.foldl _ (((g2.deleteOutgoing m).addEdges m A).addEdge m m)).childrenD n = _
    rw [ih _ n (fun hc => hn (List.mem_cons_of_mem m hc)),
      rewriteStep_other g2 m A n (fun hc => hn (hc ▸ List.mem_cons_self m rest))]

theorem rewriteFold_self (A : List Nat) :
    ∀ (l : List Nat) (g2 : Graph) (n : Nat), n ∈ l → l.Nodup → ∀ x,
      x ∈ (l.foldl (fun g m => ((g.deleteOutgoing m).addEdges m A).addEdge m m) g2).childrenD n ↔
        (x ∈ A ∨ x = n) := by
  intro l
  induction l with
  | nil => intro g2 n hn; cases hn
  | cons m rest ih =>
    intro g2 n hn hnd x
    rw [List.nodup_cons] at hnd
    show x ∈ (rest.foldl _ (((g2.deleteOutgoing m).addEdges m A).addEdge m m)).childrenD n ↔ _
    rw [List.mem_cons] at hn
    by_cases hnm : n = m
    · subst hnm
      rw [rewriteFold_other A rest _ n hnd.1]
      exact rewriteStep_self g2 n A x
    · rcases hn with hn | hn
      · exact absurd hn hnm
      · exact ih _ n hn hnd.2 x

/-- `rewriteComp` leaves every node outside the component untouched. -/
theorem rewriteComp_other (g : Graph) (comp : List Nat) (n : Nat) (h : n ∉ comp) :
    (rewriteComp g comp).childrenD n = g.childrenD n :=
  rewriteFold_other (outerDeps g comp) comp g n h

/-- Inside the component, `rewriteComp` installs exactly the outer
dependencies plus a self-edge. -/
theorem rewriteComp_self (g : Graph) (comp : List Nat) (n : Nat) (hn : n ∈ comp)
    (hnd : comp.Nodup) (x : Nat) :
    x ∈ (rewriteComp g comp).childrenD n ↔ (x ∈ outerDeps g comp ∨ x = n) :=
  rewriteFold_self (outerDeps g comp) comp g n hn hnd x

theorem buildGraph_GWF (unknown : List (Nat × List Nat)) : GWF (buildGraph unknown) := by
  have h : ∀ (g : Graph), GWF g →
      GWF (unknown.foldl (fun (g : Graph) p => g.addEdges p.1 p.2) g) := by
    induction unknown with
    | nil => intro g hg; exact hg
    | cons p rest ih => intro g hg; exact ih _ (addEdges_GWF g p.1 p.2 hg)
  exact h [] ⟨List.nodup_nil, fun n cs hcs => by cases hcs⟩

theorem nodup_of_mem_flatten_nodup {L : List (List Nat)} (hnd : L.flatten.Nodup) :
    ∀ C ∈ L, C.Nodup := by
  induction L with
  | nil => intro C hC; cases hC
  | cons C0 rest ih =>
    rw [List.flatten_cons, List.nodup_append] at hnd
    intro C hC
    rw [List.mem_cons] at hC
    rcases hC with hC | hC
    · exact hC ▸ hnd.1
    · exact ih hnd.2.1 C hC

/-- The component fold of `prepare_partials` leaves a node belonging to
no component untouched. -/
theorem foldComps_other (L : List (List Nat)) :
    ∀ (g : Graph) (n : Nat), (∀ C ∈ L, n ∉ C) →
      (L.foldl rewriteComp g).childrenD n = g.childrenD n := by
  induction L with
  | nil => intro g n _; rfl
  | cons C0 rest ih =>
    intro g n hn
    show (rest.foldl rewriteComp (rewriteComp g C0)).childrenD n = _
    rw [ih _ n (fun C hC => hn C (List.mem_cons_of_mem C0 hC)),
      rewriteComp_other g C0 n (hn C0 (List.mem_cons_self C0 rest))]

/-- The component fold of `prepare_partials` on pairwise-disjoint
components: a member of component `C` ends with edge set exactly
`outer(C) ∪ {self}`, with `outer(C)` read off the starting graph. -/
theorem foldComps_self (L : List (List Nat)) :
    ∀ (g : Graph), L.flatten.Nodup →
      ∀ C ∈ L, ∀ n ∈ C, ∀ x,
        x ∈ (L.foldl rewriteComp g).childrenD n ↔ (x ∈ outerDeps g C ∨ x = n) := by
  induction L with
  | nil => intro g _ C hC; cases hC
  | cons C0 rest ih =>
    intro g hnd C hC n hn x
    have hndc := hnd
    rw [List.flatten_cons, List.nodup_append] at hndc
    show x ∈ (rest.foldl rewriteComp (rewriteComp g C0)).childrenD n ↔ _
    rw [List.mem_cons] at hC
    rcases hC with hC | hC
    · subst hC
      have hout : ∀ C2 ∈ rest, n ∉ C2 := by
        intro C2 hC2 hnC2
        exact hndc.2.2 hn (get_flatten_mem
          (List.get?_of_mem hC2).choose_spec hnC2)
      rw [foldComps_other rest _ n hout]
      exact rewriteComp_self g C n hn hndc.1 x
    · rw [ih _ hndc.2.1 C hC n hn x]
      have hpres : ∀ m ∈ C, (rewriteComp g C0).childrenD m = g.childrenD m := by
        intro m hm
        refine rewriteComp_other g C0 m (fun hmC0 => ?_)
        exact hndc.2.2 hmC0 (get_flatten_mem
          (List.get?_of_mem hC).choose_spec hm)
      constructor
      · rintro (h | h)
        · refine Or.inl ?_
          rw [mem_outerDeps] at h ⊢
          obtain ⟨⟨m, hm, hx⟩, hnot⟩ := h
          exact ⟨⟨m, hm, by rwa [← hpres m hm]⟩, hnot⟩
        · exact Or.inr h
      · rintro (h | h)
        · refine Or.inl ?_
          rw [mem_outerDeps] at h ⊢
          obtain ⟨⟨m, hm, hx⟩, hnot⟩ := h
          exact ⟨⟨m, hm, by rwa [hpres m hm]⟩, hnot⟩
        · exact Or.inr h

/-- C3: cycle preparation rewrites the dependency graph built from the
table's `unknown` map so that for every emitted strongly connected
component `C` (of any size), every node `n ∈ C` ends with outgoing edge
set exactly `outer(C) ∪ {n}` where `outer(C)` is the union of the
pre-rewrite children of `C`'s nodes lying outside `C`; and a single
component's rewrite leaves every node outside that component with its
edges unchanged. -/
theorem cycle_preparation_rewrite (unknown : List (Nat × List Nat)) :
    ∃ comps, sccs (buildGraph unknown) = some comps ∧
      (∀ C ∈ comps, ∀ n ∈ C, ∀ x,
          x ∈ (comps.foldl rewriteComp (buildGraph unknown)).childrenD n ↔
            (x ∈ outerDeps (buildGraph unknown) C ∨ x = n)) ∧
      (∀ C ∈ comps, ∀ x,
          x ∈ outerDeps (buildGraph unknown) C ↔
            (∃ m ∈ C, x ∈ (buildGraph unknown).childrenD m) ∧ x ∉ C) ∧
      (∀ (g : Graph) (C : List Nat) (n : Nat), n ∉ C →
          (rewriteComp g C).childrenD n = g.childrenD n) := by
  obtain ⟨comps, hrun, hnd, _, _, _⟩ := sccs_spec (buildGraph unknown)
    (buildGraph_GWF unknown)
  refine ⟨comps, hrun, ?_, ?_, ?_⟩
  · intro C hC n hn x
    exact foldComps_self comps (buildGraph unknown) hnd C hC n hn x
  · intro C _ x
    exact mem_outerDeps (buildGraph unknown) C x
  · intro g C n hn
    exact rewriteComp_other g C n hn

/-! ### Key-set and well-formedness preservation of the rewrite -/

theorem setEntry_isSome_iff {V : Type} (l : List (Nat × V)) (k : Nat) (v : V)
    (k2 : Nat) :
    (alookup (setEntry l k v) k2).isSome ↔ (alookup l k2).isSome ∨ k2 = k := by
  by_cases h : k2 = k
  · subst h
    rw [alookup_setEntry_self]
    simp
  · rw [alookup_setEntry_ne _ _ _ _ (fun hc => h hc.symm)]
    simp [h]

theorem deleteOutgoing_GWF (g : Graph) (n : Nat) (hg : GWF g) :
    GWF (g.deleteOutgoing n) := by
  obtain ⟨hnd, hcl⟩ := hg
  refine ⟨setEntry_keys_nodup g n [] hnd, ?_⟩
  intro m cs hcs c hc
  unfold Graph.deleteOutgoing at hcs ⊢
  rw [setEntry_isSome_iff]
  by_cases hm : n = m
  · subst hm
    rw [alookup_setEntry_self] at hcs
    cases hcs
    cases hc
  · rw [alookup_setEntry_ne _ _ _ _ hm] at hcs
    exact Or.inl (hcl m cs hcs c hc)

theorem rewriteStep_GWF (g : Graph) (m : Nat) (A : List Nat) (hg : GWF g) :
    GWF (((g.deleteOutgoing m).addEdges m A).addEdge m m) :=
  addEdge_GWF _ m m (addEdges_GWF _ m A (deleteOutgoing_GWF g m hg))

theorem rewriteStep_isSome_iff (g : Graph) (m : Nat) (A : List Nat) (k : Nat) :
    (alookup (((g.deleteOutgoing m).addEdges m A).addEdge m m) k).isSome ↔
      (alookup g k).isSome ∨ k = m ∨ k ∈ A := by
  rw [addEdge_isSome_iff, addEdges_isSome_iff]
  unfold Graph.deleteOutgoing
  rw [setEntry_isSome_iff]
  constructor
  · rintro (((h | h) | ⟨_, h⟩ | h) | h | h)
    · exact Or.inl h
    · exact Or.inr (Or.inl h)
    · exact Or.inr (Or.inl h)
    · exact Or.inr (Or.inr h)
    · exact Or.inr (Or.inl h)
    · exact Or.inr (Or.inl h)
  · rintro (h | h | h)
    · exact Or.inl (Or.inl (Or.inl h))
    · exact Or.inr (Or.inl h)
    · exact Or.inl (Or.inr (Or.inr h))

theorem rewriteFold_GWF (A : List Nat) :
    ∀ (l : List Nat) (g : Graph), GWF g →
      GWF (l.foldl (fun g m => ((g.deleteOutgoing m).addEdges m A).addEdge m m) g) := by
  intro l
  induction l with
  | nil => intro g hg; exact hg
  | cons m rest ih =>
    intro g hg
    exact ih _ (rewriteStep_GWF g m A hg)

theorem rewriteComp_GWF (g : Graph) (comp : List Nat) (hg : GWF g) :
    GWF (rewriteComp g comp) :=
  rewriteFold_GWF (outerDeps g comp) comp g hg

theorem rewriteFold_isSome (A : List Nat) :
    ∀ (l : List Nat) (g : Graph), (∀ a ∈ A, (alookup g a).isSome) →
      (∀ n ∈ l, (alookup g n).isSome) → ∀ k,
      (alookup (l.foldl
        (fun (g : Graph) m => ((g.deleteOutgoing m).addEdges m A).addEdge m m) g) k).isSome ↔
        (alookup g k).isSome := by
  intro l
  induction l with
  | nil => intro g _ _ k; exact Iff.rfl
  | cons m rest ih =>
    intro g hA hl k
    have hstep : ∀ k2,
        (alookup (((g.deleteOutgoing m).addEdges m A).addEdge m m) k2).isSome ↔
          (alookup g k2).isSome := by
      intro k2
      rw [rewriteStep_isSome_iff]
      constructor
      · rintro (h | h | h)
        · exact h
        · exact h ▸ hl m (List.mem_cons_self m rest)
        · exact hA k2 h
      · exact Or.inl
    show (alookup (rest.foldl _
      (Graph.addEdge (Graph.addEdges (Graph.deleteOutgoing g m) m A) m m)) k).isSome ↔ _
    rw [ih _ (fun a ha => (hstep a).mpr (hA a ha))
      (fun n hn => (hstep n).mpr (hl n (List.mem_cons_of_mem m hn))) k]
    exact hstep k

theorem outerDeps_isSome (g : Graph) (comp : List Nat) (hg : GWF g) :
    ∀ a ∈ outerDeps g comp, (alookup g a).isSome := by
  intro a ha
  rw [mem_outerDeps] at ha
  obtain ⟨⟨m, _, hm⟩, _⟩ := ha
  unfold Graph.childrenD at hm
  cases hc : alookup g m with
  | none => rw [hc] at hm; cases hm
  | some cs =>
    rw [hc] at hm
    exact hg.2 m cs hc a hm

theorem rewriteComp_isSome (g : Graph) (comp : List Nat) (hg : GWF g)
    (hmem : ∀ n ∈ comp, (alookup g n).isSome) (k : Nat) :
    (alookup (rewriteComp g comp) k).isSome ↔ (alookup g k).isSome :=
  rewriteFold_isSome (outerDeps g comp) comp g (outerDeps_isSome g comp hg) hmem k

theorem foldComps_GWF_isSome (comps : List (List Nat)) :
    ∀ (g : Graph), GWF g → (∀ C ∈ comps, ∀ n ∈ C, (alookup g n).isSome) →
      GWF (comps.foldl rewriteComp g) ∧
        ∀ k, (alookup (comps.foldl rewriteComp g) k).isSome ↔ (alookup g k).isSome := by
  induction comps with
  | nil => intro g hg _; exact ⟨hg, fun k => Iff.rfl⟩
  | cons C rest ih =>
    intro g hg hmem
    have hg2 : GWF (rewriteComp g C) := rewriteComp_GWF g C hg
    have hiff : ∀ k, (alookup (rewriteComp g C) k).isSome ↔ (alookup g k).isSome :=
      rewriteComp_isSome g C hg (hmem C (List.mem_cons_self C rest))
    obtain ⟨hgf, hifff⟩ := ih (rewriteComp g C) hg2
      (fun C2 hC2 n hn => (hiff n).mpr (hmem C2 (List.mem_cons_of_mem C hC2) n hn))
    refine ⟨hgf, fun k => ?_⟩
    show (alookup (rest.foldl rewriteComp (rewriteComp g C)) k).isSome ↔ _
    rw [hifff k, hiff k]

/-! ### All child lists of the graphs in play are duplicate-free -/

theorem insDedup_nodup {l : List Nat} (e : Nat) (h : l.Nodup) :
    (insDedup l e).Nodup := by
  unfold insDedup
  by_cases he : e ∈ l
  · rwa [if_pos he]
  · rw [if_neg he]
    rw [List.nodup_append]
    refine ⟨h, List.nodup_singleton e, ?_⟩
    intro a ha hb
    rw [List.mem_singleton] at hb
    exact he (hb ▸ ha)

theorem mem_setEntry {V : Type} {l : List (Nat × V)} {k : Nat} {v : V} :
    ∀ p ∈ setEntry l k v, p ∈ l ∨ p = (k, v) := by
  induction l with
  | nil =>
    intro p hp
    rw [show setEntry [] k v = [(k, v)] from rfl, List.mem_singleton] at hp
    exact Or.inr hp
  | cons q rest ih =>
    intro p hp
    unfold setEntry at hp
    by_cases h : q.1 = k
    · rw [if_pos h, List.mem_cons] at hp
      rcases hp with hp | hp
      · exact Or.inr hp
      · exact Or.inl (List.mem_cons_of_mem q hp)
    · rw [if_neg h, List.mem_cons] at hp
      rcases hp with hp | hp
      · exact Or.inl (hp ▸ List.mem_cons_self q rest)
      · rcases ih p hp with h2 | h2
        · exact Or.inl (List.mem_cons_of_mem q h2)
        · exact Or.inr h2

theorem childrenD_nodup {g : Graph} (hg : ∀ p ∈ g, p.2.Nodup) (n : Nat) :
    (g.childrenD n).Nodup := by
  unfold Graph.childrenD
  cases h : alookup g n with
  | none => exact List.nodup_nil
  | some cs => exact hg (n, cs) (alookup_mem h)

theorem addEdge_entries_nodup {g : Graph} (s e : Nat) (hg : ∀ p ∈ g, p.2.Nodup) :
    ∀ p ∈ g.addEdge s e, p.2.Nodup := by
  intro p hp
  unfold Graph.addEdge at hp
  by_cases h : (alookup (setEntry g s (insDedup (g.childrenD s) e)) e).isSome
  · rw [if_pos h] at hp
    rcases mem_setEntry p hp with hp2 | hp2
    · exact hg p hp2
    · rw [hp2]
      exact insDedup_nodup e (childrenD_nodup hg s)
  · rw [if_neg h, List.mem_append] at hp
    rcases hp with hp | hp
    · rcases mem_setEntry p hp with hp2 | hp2
      · exact hg p hp2
      · rw [hp2]
        exact insDedup_nodup e (childrenD_nodup hg s)
    · rw [List.mem_singleton] at hp
      rw [hp]
      exact List.nodup_nil

theorem addEdges_entries_nodup {g : Graph} (s : Nat) (ends : List Nat)
    (hg : ∀ p ∈ g, p.2.Nodup) : ∀ p ∈ g.addEdges s ends, p.2.Nodup := by
  induction ends generalizing g with
  | nil => exact hg
  | cons e rest ih =>
    intro p hp
    exact ih (addEdge_entries_nodup s e hg) p hp

theorem deleteOutgoing_entries_nodup {g : Graph} (n : Nat)
    (hg : ∀ p ∈ g, p.2.Nodup) : ∀ p ∈ g.deleteOutgoing n, p.2.Nodup := by
  intro p hp
  rcases mem_setEntry p hp with hp2 | hp2
  · exact hg p hp2
  · rw [hp2]
    exact List.nodup_nil

theorem rewriteFold_entries_nodup (A : List Nat) :
    ∀ (l : List Nat) (g : Graph), (∀ p ∈ g, p.2.Nodup) →
      ∀ p ∈ l.foldl
        (fun (g : Graph) m => ((g.deleteOutgoing m).addEdges m A).addEdge m m) g,
        p.2.Nodup := by
  intro l
  induction l with
  | nil => intro g hg; exact hg
  | cons m rest ih =>
    intro g hg
    exact ih _ (addEdge_entries_nodup m m
      (addEdges_entries_nodup m A (deleteOutgoing_entries_nodup m hg)))

theorem foldComps_entries_nodup (comps : List (List Nat)) :
    ∀ (g : Graph), (∀ p ∈ g, p.2.Nodup) →
      ∀ p ∈ comps.foldl rewriteComp g, p.2.Nodup := by
  induction comps with
  | nil => intro g hg; exact hg
  | cons C rest ih =>
    intro g hg
    exact ih _ (rewriteFold_entries_nodup (outerDeps g C) C g hg)

theorem buildGraph_entries_nodup (unknown : List (Nat × List Nat)) :
    ∀ p ∈ buildGraph unknown, p.2.Nodup := by
  have h : ∀ (g : Graph), (∀ p ∈ g, p.2.Nodup) →
      ∀ p ∈ unknown.foldl (fun (g : Graph) q => g.addEdges q.1 q.2) g, p.2.Nodup := by
    induction unknown with
    | nil => intro g hg; exact hg
    | cons q rest ih =>
      intro g hg
      exact ih _ (addEdges_entries_nodup q.1 q.2 hg)
  exact h [] (fun p hp => by cases hp)

theorem buildGraph_isSome_iff (unknown : List (Nat × List Nat)) (n : Nat) :
    (alookup (buildGraph unknown) n).isSome ↔
      ∃ p ∈ unknown, p.2 ≠ [] ∧ (n = p.1 ∨ n ∈ p.2) := by
  have h : ∀ (g : Graph),
      (alookup (unknown.foldl (fun (g : Graph) p => g.addEdges p.1 p.2) g) n).isSome ↔
        (alookup g n).isSome ∨ ∃ p ∈ unknown, p.2 ≠ [] ∧ (n = p.1 ∨ n ∈ p.2) := by
    induction unknown with
    | nil => intro g; simp
    | cons q rest ih =>
      intro g
      show (alookup (rest.foldl _ (g.addEdges q.1 q.2)) n).isSome ↔ _
      rw [ih, addEdges_isSome_iff]
      simp only [List.mem_cons]
      constructor
      · rintro ((h | ⟨hne, hn⟩ | h) | ⟨p, hp, hpne, hn⟩)
        · exact Or.inl h
        · exact Or.inr ⟨q, Or.inl rfl, hne, Or.inl hn⟩
        · exact Or.inr ⟨q, Or.inl rfl, List.ne_nil_of_mem h, Or.inr h⟩
        · exact Or.inr ⟨p, Or.inr hp, hpne, hn⟩
      · rintro (h | ⟨p, hp | hp, hpne, hn⟩)
        · exact Or.inl (Or.inl h)
        · subst hp
          rcases hn with hn | hn
          · exact Or.inl (Or.inr (Or.inl ⟨hpne, hn⟩))
          · exact Or.inl (Or.inr (Or.inr hn))
        · exact Or.inr ⟨p, hp, hpne, hn⟩
  rw [buildGraph, h []]
  simp [alookup]

/-! ### The emission index of a node's component -/

/-- The position of the first emitted component containing `n`. -/
def rankIn (comps : List (List Nat)) (n : Nat) : Nat :=
  match comps with
  | [] => 0
  | C :: rest => if n ∈ C then 0 else rankIn rest n + 1

theorem rankIn_eq {L : List (List Nat)} (hnd : L.flatten.Nodup) :
    ∀ (k : Nat) (C : List Nat), L.get? k = some C → ∀ n ∈ C, rankIn L n = k := by
  induction L with
  | nil => intro k C h; cases h
  | cons C0 rest ih =>
    rw [List.flatten_cons, List.nodup_append] at hnd
    intro k C h n hn
    cases k with
    | zero =>
      have h0 : some C0 = some C := h
      injection h0 with hC
      subst hC
      show (if n ∈ C0 then 0 else rankIn rest n + 1) = 0
      rw [if_pos hn]
    | succ k =>
      have hr : rest.get? k = some C := h
      have hnC0 : n ∉ C0 := fun hc => hnd.2.2 hc (get_flatten_mem hr hn)
      show (if n ∈ C0 then 0 else rankIn rest n + 1) = k + 1
      rw [if_neg hnC0, ih hnd.2.1 k C hr n hn]

theorem exists_min_on {α : Type} (f : α → Nat) (P : α → Prop) :
    ∀ (l : List α), (∃ a ∈ l, P a) →
      ∃ a ∈ l, P a ∧ ∀ b ∈ l, P b → f a ≤ f b := by
  intro l
  induction l with
  | nil => rintro ⟨a, ha, _⟩; cases ha
  | cons x t ih =>
    rintro ⟨a, ha, hPa⟩
    by_cases hex : ∃ b ∈ t, P b
    · obtain ⟨m, hm, hPm, hmin⟩ := ih hex
      by_cases hPx : P x
      · by_cases hle : f x ≤ f m
        · refine ⟨x, List.mem_cons_self x t, hPx, ?_⟩
          intro b hb hPb
          rw [List.mem_cons] at hb
          rcases hb with hb | hb
          · subst hb; exact Nat.le_refl _
          · exact Nat.le_trans hle (hmin b hb hPb)
        · refine ⟨m, List.mem_cons_of_mem x hm, hPm, ?_⟩
          intro b hb hPb
          rw [List.mem_cons] at hb
          rcases hb with hb | hb
          · subst hb; omega
          · exact hmin b hb hPb
      · refine ⟨m, List.mem_cons_of_mem x hm, hPm, ?_⟩
        intro b hb hPb
        rw [List.mem_cons] at hb
        rcases hb with hb | hb
        · subst hb; exact absurd hPb hPx
        · exact hmin b hb hPb
    · rw [List.mem_cons] at ha
      rcases ha with ha | ha
      · subst ha
        refine ⟨a, List.mem_cons_self a t, hPa, ?_⟩
        intro b hb hPb
        rw [List.mem_cons] at hb
        rcases hb with hb | hb
        · subst hb; exact Nat.le_refl _
        · exact absurd ⟨b, hb, hPb⟩ hex
      · exact absurd ⟨a, ha, hPa⟩ hex

/-! ### The loop measure of `Table::resolve` -/

/-- The measure the resolution loop strictly decreases on every productive
pass: the number of pending entries plus the total count of their pending
dependencies.  `loopFuel` is this measure plus one. -/
def pMeasure {T : Type} (ps : List (Nat × Pending T)) : Nat :=
  ps.length + (ps.map (fun p => p.2.deps.length)).sum

theorem loopFuel_eq {T : Type} (ps : List (Nat × Pending T)) :
    loopFuel ps = pMeasure ps + 1 := rfl

theorem pMeasure_nil {T : Type} : pMeasure ([] : List (Nat × Pending T)) = 0 := rfl

theorem pMeasure_cons {T : Type} (v : Nat) (q : Pending T)
    (l : List (Nat × Pending T)) :
    pMeasure ((v, q) :: l) = q.deps.length + 1 + pMeasure l := by
  simp [pMeasure]
  omega

theorem pMeasure_append {T : Type} (a b : List (Nat × Pending T)) :
    pMeasure (a ++ b) = pMeasure a + pMeasure b := by
  simp [pMeasure]
  omega

/-! ### `merge_opt`, the dependency scan and `try_resolve` -/

theorem mergeOpt_ok {T E : Type} (V : SValue T E)
    (HM : ∀ a b, ∃ r, V.merge a b = Except.ok r) :
    ∀ o1 o2, ∃ r, mergeOpt V o1 o2 = Except.ok r := by
  intro o1 o2
  match o1, o2 with
  | none, none => exact ⟨none, rfl⟩
  | some l, none => exact ⟨some l, rfl⟩
  | none, some r => exact ⟨some r, rfl⟩
  | some l, some r =>
    obtain ⟨x, hx⟩ := HM l r
    refine ⟨some x, ?_⟩
    show (V.merge l r).map some = Except.ok (some x)
    rw [hx]
    rfl

theorem mergeOpt_some_isSome {T E : Type} (V : SValue T E) {acc : Option T}
    {kv : T} {x : Option T} (h : mergeOpt V acc (some kv) = Except.ok x) :
    x.isSome := by
  match acc with
  | none =>
    have h2 : Except.ok (ε := E) (some kv) = Except.ok x := h
    injection h2 with h3
    rw [← h3]
    rfl
  | some l =>
    have h2 : (V.merge l kv).map some = Except.ok x := h
    cases hm : V.merge l kv with
    | error e => rw [hm] at h2; cases h2
    | ok r =>
      rw [hm] at h2
      injection h2 with h3
      rw [← h3]
      rfl

theorem scanDeps_len {T E : Type} (V : SValue T E) (known : List (Nat × T)) :
    ∀ (ds : List Nat) (acc : Option T) (pend : List Nat) (res : Option T)
      (pend2 : List Nat),
      scanDeps V known ds acc pend = Except.ok (res, pend2) →
      pend2.length ≤ pend.length + ds.length ∧
        (acc = none → res.isSome → pend2.length < pend.length + ds.length) := by
  intro ds
  induction ds with
  | nil =>
    intro acc pend res pend2 h
    have h2 : Except.ok (ε := E) (acc, pend) = Except.ok (res, pend2) := h
    injection h2 with h3
    injection h3 with h4 h5
    subst h4
    subst h5
    refine ⟨by simp, ?_⟩
    intro hacc hres
    subst hacc
    cases hres
  | cons d ds ih =>
    intro acc pend res pend2 h
    cases hk : alookup known d with
    | some kv =>
      simp only [scanDeps, hk] at h
      cases hm : mergeOpt V acc (some kv) with
      | error e => rw [hm] at h; cases h
      | ok acc2 =>
        rw [hm] at h
        obtain ⟨hle, _⟩ := ih acc2 pend res pend2 h
        have hlt : pend2.length < pend.length + (d :: ds).length := by
          simp only [List.length_cons]
          omega
        exact ⟨Nat.le_of_lt hlt, fun _ _ => hlt⟩
    | none =>
      simp only [scanDeps, hk] at h
      obtain ⟨hle, hstrict⟩ := ih acc (pend ++ [d]) res pend2 h
      rw [List.length_append] at hle hstrict
      simp only [List.length_cons, List.length_nil] at hle hstrict ⊢
      exact ⟨by omega, fun hacc hres => by have := hstrict hacc hres; omega⟩

theorem scanDeps_ok {T E : Type} (V : SValue T E) (known : List (Nat × T))
    (HM : ∀ a b, ∃ r, V.merge a b = Except.ok r) :
    ∀ (ds : List Nat) (acc : Option T) (pend : List Nat),
      ∃ res extra, scanDeps V known ds acc pend = Except.ok (res, pend ++ extra) ∧
        ∀ d ∈ extra, d ∈ ds ∧ alookup known d = none := by
  intro ds
  induction ds with
  | nil =>
    intro acc pend
    exact ⟨acc, [], by simp [scanDeps], fun d hd => by cases hd⟩
  | cons d ds ih =>
    intro acc pend
    cases hk : alookup known d with
    | some kv =>
      obtain ⟨acc2, hm⟩ := mergeOpt_ok V HM acc (some kv)
      obtain ⟨res, extra, hrun, hprop⟩ := ih acc2 pend
      refine ⟨res, extra, ?_, ?_⟩
      · simp only [scanDeps, hk, hm]
        exact hrun
      · intro x hx
        obtain ⟨h1, h2⟩ := hprop x hx
        exact ⟨List.mem_cons_of_mem d h1, h2⟩
    | none =>
      obtain ⟨res, extra, hrun, hprop⟩ := ih acc (pend ++ [d])
      refine ⟨res, d :: extra, ?_, ?_⟩
      · simp only [scanDeps, hk]
        rw [hrun, List.append_assoc]
        rfl
      · intro x hx
        rw [List.mem_cons] at hx
        rcases hx with hx | hx
        · subst hx
          exact ⟨List.mem_cons_self x ds, hk⟩
        · obtain ⟨h1, h2⟩ := hprop x hx
          exact ⟨List.mem_cons_of_mem d h1, h2⟩

theorem tryResolve_incomplete_len {T E : Type} (V : SValue T E) (p : Pending T)
    (known : List (Nat × T)) (p2 : Pending T) (prog : Bool)
    (h : tryResolve V p known = Except.ok (TRR.incomplete p2 prog)) :
    p2.deps.length ≤ p.deps.length ∧
      (prog = true → p2.deps.length < p.deps.length) := by
  cases hscan : scanDeps V known p.deps none [] with
  | error e =>
    simp only [tryResolve, hscan] at h
    cases h
  | ok pr =>
    obtain ⟨newResult, newDeps⟩ := pr
    have hlen := scanDeps_len V known p.deps none [] newResult newDeps hscan
    cases hm : mergeOpt V p.result newResult with
    | error e =>
      simp only [tryResolve, hscan, hm] at h
      cases h
    | ok result =>
      simp only [tryResolve, hscan, hm] at h
      by_cases hne : newDeps.isEmpty = true
      · rw [if_pos hne] at h
        cases hrec : p.recursive with
        | true =>
          rw [hrec] at h
          simp only [if_pos] at h
          cases hrc : V.resolveCycle result with
          | error e => rw [hrc] at h; cases h
          | ok r => rw [hrc] at h; cases h
        | false =>
          rw [hrec] at h
          simp only [Bool.false_eq_true, if_false] at h
          cases result with
          | none => cases h
          | some r => cases h
      · rw [if_neg hne] at h
        injection h with h2
        cases h2
        simp only [List.length_nil, Nat.zero_add] at hlen
        refine ⟨hlen.1, ?_⟩
        intro hprog
        exact hlen.2 (by trivial) hprog

theorem tryResolve_rec_ok {T E : Type} (V : SValue T E)
    (HM : ∀ a b, ∃ r, V.merge a b = Except.ok r)
    (HC : ∀ o, ∃ r, V.resolveCycle o = Except.ok r)
    (p : Pending T) (known : List (Nat × T)) (hrec : p.recursive = true) :
    (∃ x, tryResolve V p known = Except.ok (TRR.complete x)) ∨
      (∃ p2 prog, tryResolve V p known = Except.ok (TRR.incomplete p2 prog) ∧
        p2.recursive = true ∧ ∀ d ∈ p2.deps, d ∈ p.deps) := by
  obtain ⟨res, extra, hscan0, hextra⟩ := scanDeps_ok V known HM p.deps none []
  have hscan : scanDeps V known p.deps none [] = Except.ok (res, extra) := by
    rw [hscan0]
    rfl
  obtain ⟨result, hm⟩ := mergeOpt_ok V HM p.result res
  cases extra with
  | nil =>
    obtain ⟨r, hrc⟩ := HC result
    refine Or.inl ⟨r, ?_⟩
    simp only [tryResolve, hscan, hm, List.isEmpty_nil, if_true, hrec, hrc]
  | cons e es =>
    refine Or.inr ⟨⟨p.recursive, result, e :: es⟩, res.isSome, ?_, hrec, ?_⟩
    · simp only [tryResolve, hscan, hm, List.isEmpty_cons, Bool.false_eq_true, if_false]
    · intro d hd
      exact (hextra d hd).1

theorem tryResolve_completes {T E : Type} (V : SValue T E)
    (HM : ∀ a b, ∃ r, V.merge a b = Except.ok r)
    (HC : ∀ o, ∃ r, V.resolveCycle o = Except.ok r)
    (p : Pending T) (known : List (Nat × T)) (hrec : p.recursive = true)
    (hdeps : ∀ d ∈ p.deps, (alookup known d).isSome) :
    ∃ x, tryResolve V p known = Except.ok (TRR.complete x) := by
  obtain ⟨res, extra, hscan0, hextra⟩ := scanDeps_ok V known HM p.deps none []
  have hnil : extra = [] := by
    cases hx : extra with
    | nil => rfl
    | cons e es =>
      obtain ⟨h1, h2⟩ := hextra e (by rw [hx]; exact List.mem_cons_self e es)
      have := hdeps e h1
      rw [h2] at this
      cases this
  subst hnil
  have hscan : scanDeps V known p.deps none [] = Except.ok (res, []) := by
    rw [hscan0]
    rfl
  obtain ⟨result, hm⟩ := mergeOpt_ok V HM p.result res
  obtain ⟨r, hrc⟩ := HC result
  refine ⟨r, ?_⟩
  simp only [tryResolve, hscan, hm, List.isEmpty_nil, if_true, hrec, hrc]

/-! ### Every pass shrinks the loop measure; the loop terminates (C10) -/

theorem passPending_measure {T E : Type} (V : SValue T E) :
    ∀ (rest : List (Nat × Pending T)) (complete : List (Nat × T))
      (next : List (Nat × Pending T)) (progress : Bool)
      (complete2 : List (Nat × T)) (next2 : List (Nat × Pending T))
      (progress2 : Bool),
      passPending V rest complete next progress =
        Except.ok (complete2, next2, progress2) →
      pMeasure next2 ≤ pMeasure next + pMeasure rest ∧
        (progress = false → progress2 = true →
          pMeasure next2 < pMeasure next + pMeasure rest) := by
  intro rest
  induction rest with
  | nil =>
    intro complete next progress c2 n2 p2 h
    have h2 : Except.ok (ε := SErr E) (complete, next, progress) =
        Except.ok (c2, n2, p2) := h
    injection h2 with h3
    injection h3 with h4 h5
    injection h5 with h6 h7
    subst h6
    subst h7
    refine ⟨by omega, ?_⟩
    intro hp hp2
    rw [hp] at hp2
    cases hp2
  | cons hd t ih =>
    obtain ⟨v, pd⟩ := hd
    intro complete next progress c2 n2 p2 h
    rw [pMeasure_cons]
    by_cases hskip : (alookup complete v).isSome = true
    · rw [show passPending V ((v, pd) :: t) complete next progress =
          (if (alookup complete v).isSome then passPending V t complete next progress
           else match tryResolve V pd complete with
            | Except.error e => Except.error e
            | Except.ok (TRR.complete r) =>
              passPending V t (complete ++ [(v, r)]) next true
            | Except.ok (TRR.incomplete q progressed) =>
              passPending V t complete (next ++ [(v, q)]) (progress || progressed))
          from rfl, if_pos hskip] at h
      obtain ⟨hle, _⟩ := ih complete next progress c2 n2 p2 h
      constructor
      · omega
      · intro _ _
        omega
    · rw [show passPending V ((v, pd) :: t) complete next progress =
          (if (alookup complete v).isSome then passPending V t complete next progress
           else match tryResolve V pd complete with
            | Except.error e => Except.error e
            | Except.ok (TRR.complete r) =>
              passPending V t (complete ++ [(v, r)]) next true
            | Except.ok (TRR.incomplete q progressed) =>
              passPending V t complete (next ++ [(v, q)]) (progress || progressed))
          from rfl, if_neg hskip] at h
      cases htr : tryResolve V pd complete with
      | error e =>
        rw [htr] at h
        cases h
      | ok r =>
        rw [htr] at h
        cases r with
        | complete x =>
          obtain ⟨hle, _⟩ := ih (complete ++ [(v, x)]) next true c2 n2 p2 h
          constructor
          · omega
          · intro _ _
            omega
        | incomplete pp prog =>
          obtain ⟨hle, hstrict⟩ := ih complete (next ++ [(v, pp)])
            (progress || prog) c2 n2 p2 h
          rw [pMeasure_append, pMeasure_cons, pMeasure_nil] at hle hstrict
          obtain ⟨hl1, hl2⟩ := tryResolve_incomplete_len V pd complete pp prog htr
          constructor
          · omega
          · intro hp hp2
            cases hprog : prog with
            | true =>
              have := hl2 hprog
              omega
            | false =>
              rw [hp, hprog] at hstrict
              have := hstrict rfl hp2
              omega

theorem resolveLoop_isSome {T E : Type} (V : SValue T E) :
    ∀ (fuel : Nat) (ps : List (Nat × Pending T)) (complete : List (Nat × T)),
      pMeasure ps < fuel → (resolveLoop V fuel ps complete).isSome := by
  intro fuel
  induction fuel with
  | zero =>
    intro ps complete h
    exact absurd h (Nat.not_lt_zero _)
  | succ fuel ih =>
    intro ps complete h
    cases ps with
    | nil => rfl
    | cons q qs =>
      have hstep : resolveLoop V (fuel + 1) (q :: qs) complete =
          (match passPending V (q :: qs) complete [] false with
           | Except.error e => some (Except.error e)
           | Except.ok (complete2, nx, progress) =>
             if progress then resolveLoop V fuel nx complete2
             else some (Except.error SErr.noProgress)) := rfl
      rw [hstep]
      cases hpass : passPending V (q :: qs) complete [] false with
      | error e => rfl
      | ok tri =>
        obtain ⟨cc2, nx, pr⟩ := tri
        cases hpr : pr with
        | true =>
          show (resolveLoop V fuel nx cc2).isSome
          have hm := passPending_measure V (q :: qs) complete [] false cc2 nx pr hpass
          rw [pMeasure_nil] at hm
          have hlt : pMeasure nx < fuel := by
            have := hm.2 rfl hpr
            omega
          exact ih nx cc2 hlt
        | false => rfl

/-- C10: `Table::resolve` terminates on every input table: the embedded
loop, run with fuel one more than the a-priori measure (number of
partials plus total pending-dependency count), always reaches a result
rather than exhausting its fuel, because each pass that continues the
loop strictly shrinks the measure. -/
theorem resolve_terminates {T E : Type} (V : SValue T E) (t : STable T) :
    ∃ r, STable.resolve V t = some r := by
  obtain ⟨comps, hsccs, _, _, _, _⟩ :=
    sccs_spec (buildGraph t.unknown) (buildGraph_GWF t.unknown)
  have hprep : ∃ ps, prepareP T t.unknown = some ps := by
    simp only [prepareP, hsccs]
    exact ⟨_, rfl⟩
  obtain ⟨ps, hps⟩ := hprep
  have hrun : STable.resolve V t = resolveLoop V (loopFuel ps) ps t.known := by
    simp only [STable.resolve, hps]
  rw [hrun]
  exact Option.isSome_iff_exists.mp (resolveLoop_isSome V (loopFuel ps) ps t.known
    (by rw [loopFuel_eq]; omega))

/-! ### Every prepared partial is recursive -/

theorem prepareP_all_recursive (T : Type) (unknown : List (Nat × List Nat)) :
    ∀ ps, prepareP T unknown = some ps → ∀ p ∈ ps, p.2.recursive = true := by
  intro ps hps p hp
  obtain ⟨comps, hsccs, hnd, hcov, _, _⟩ :=
    sccs_spec (buildGraph unknown) (buildGraph_GWF unknown)
  have hbig : prepareP T unknown =
      some ((comps.foldl rewriteComp (buildGraph unknown)).map
        fun q => (q.1, (⟨decide (q.1 ∈ q.2), none, q.2.erase q.1⟩ : Pending T))) := by
    simp only [prepareP, hsccs]
  rw [hps] at hbig
  have hps2 := Option.some.inj hbig
  subst hps2
  rw [List.mem_map] at hp
  obtain ⟨q, hq, hqp⟩ := hp
  obtain ⟨n, cs⟩ := q
  rw [← hqp]
  show decide (n ∈ cs) = true
  rw [decide_eq_true_eq]
  obtain ⟨hGWF2, hkeys⟩ := foldComps_GWF_isSome comps (buildGraph unknown)
    (buildGraph_GWF unknown)
    (fun C hC m hm => by
      rw [← mem_nodes_iff, ← hcov m]
      exact List.mem_flatten.mpr ⟨C, hC, hm⟩)
  have halq : alookup (comps.foldl rewriteComp (buildGraph unknown)) n = some cs :=
    alookup_of_mem_nodup hq hGWF2.1
  have hkey : (alookup (buildGraph unknown) n).isSome := by
    rw [← hkeys n, alookup_isSome_iff]
    exact List.mem_map_of_mem Prod.fst hq
  have hnode : n ∈ comps.flatten := by
    rw [hcov n, mem_nodes_iff]
    exact hkey
  obtain ⟨C, hC, hnC⟩ := List.mem_flatten.mp hnode
  have hmem2 : n ∈ (comps.foldl rewriteComp (buildGraph unknown)).childrenD n :=
    (foldComps_self comps (buildGraph unknown) hnd C hC n hnC n).mpr (Or.inr rfl)
  unfold Graph.childrenD at hmem2
  rw [halq] at hmem2
  exact hmem2

/-- C1 (amended): cycle preparation gives every node of the dependency
graph a self-edge, so every partial produced by `prepare_partials` is
recursive — for variables in cyclic and acyclic components alike — and a
recursive partial can only be finalized through `resolve_cycle`: when
`try_resolve` completes it, the returned value is `resolve_cycle`
applied to the merge of the stored partial result with the merge-fold of
the resolved values of the (rewritten) dependencies. -/
theorem resolve_finalizes_through_resolve_cycle {T E : Type} (V : SValue T E)
    (unknown : List (Nat × List Nat)) :
    (∀ ps, prepareP T unknown = some ps → ∀ p ∈ ps, p.2.recursive = true) ∧
      (∀ (p : Pending T) (known : List (Nat × T)) (r : T),
        p.recursive = true →
        tryResolve V p known = Except.ok (TRR.complete r) →
        ∃ acc res, scanDeps V known p.deps none [] = Except.ok (acc, []) ∧
          mergeOpt V p.result acc = Except.ok res ∧
          V.resolveCycle res = Except.ok r) := by
  refine ⟨prepareP_all_recursive T unknown, ?_⟩
  intro p known r hrec h
  cases hscan : scanDeps V known p.deps none [] with
  | error e =>
    simp only [tryResolve, hscan] at h
    cases h
  | ok pr =>
    obtain ⟨newResult, newDeps⟩ := pr
    cases hm : mergeOpt V p.result newResult with
    | error e =>
      simp only [tryResolve, hscan, hm] at h
      cases h
    | ok result =>
      simp only [tryResolve, hscan, hm] at h
      cases newDeps with
      | cons d ds =>
        rw [if_neg (by simp)] at h
        simp at h
      | nil =>
        rw [if_pos (show (List.isEmpty ([] : List Nat)) = true from rfl), hrec,
          if_pos (show true = true from rfl)] at h
        cases hrc : V.resolveCycle result with
        | error e =>
          rw [hrc] at h
          cases h
        | ok r2 =>
          rw [hrc] at h
          injection h with h2
          injection h2 with h3
          subst h3
          exact ⟨newResult, result, rfl, hm, hrc⟩

/-! ### The full behaviour of one pass of the resolution loop -/

theorem alookup_append_isSome_left {V : Type} {a : List (Nat × V)}
    (b : List (Nat × V)) {k : Nat} (h : (alookup a k).isSome) :
    (alookup (a ++ b) k).isSome := by
  obtain ⟨v, hv⟩ := Option.isSome_iff_exists.mp h
  rw [alookup_append_left b hv]
  rfl

theorem alookup_append_none {V : Type} {a b : List (Nat × V)} {k : Nat}
    (ha : alookup a k = none) (hb : alookup b k = none) :
    alookup (a ++ b) k = none := by
  rw [alookup_append_right b ha]
  exact hb

theorem append_singleton_assoc {α : Type} (a : List α) (x : α) (b : List α) :
    (a ++ [x]) ++ b = a ++ (x :: b) := by
  rw [List.append_assoc]
  rfl

theorem passPending_spec {T E : Type} (V : SValue T E)
    (HM : ∀ a b, ∃ r, V.merge a b = Except.ok r)
    (HC : ∀ o, ∃ r, V.resolveCycle o = Except.ok r) :
    ∀ (rest : List (Nat × Pending T)) (complete : List (Nat × T))
      (next : List (Nat × Pending T)) (progress : Bool),
      (∀ p ∈ rest, p.2.recursive = true) →
      (rest.map Prod.fst).Nodup →
      ∃ extraC newnext progress2,
        passPending V rest complete next progress =
          Except.ok (complete ++ extraC, next ++ newnext, progress2) ∧
        (∀ q ∈ extraC, (alookup rest q.1).isSome) ∧
        (∀ k, (alookup rest k).isSome →
          (alookup (complete ++ extraC) k).isSome ∨ (alookup newnext k).isSome) ∧
        (∀ e ∈ newnext, ∃ pd, (e.1, pd) ∈ rest ∧ e.2.recursive = true ∧
          (∀ d ∈ e.2.deps, d ∈ pd.deps) ∧ alookup (complete ++ extraC) e.1 = none) ∧
        (newnext.map Prod.fst).Sublist (rest.map Prod.fst) ∧
        (progress = true → progress2 = true) ∧
        ((∃ q ∈ rest, alookup complete q.1 = none ∧
            ∀ d ∈ q.2.deps, (alookup complete d).isSome) → progress2 = true) := by
  intro rest
  induction rest with
  | nil =>
    intro complete next progress _ _
    refine ⟨[], [], progress, ?_, ?_, ?_, ?_, ?_, fun h => h, ?_⟩
    · show Except.ok (complete, next, progress) =
        Except.ok (complete ++ [], next ++ [], progress)
      rw [List.append_nil, List.append_nil]
    · intro q hq; cases hq
    · intro k hk
      rw [show alookup ([] : List (Nat × Pending T)) k = none from rfl] at hk
      cases hk
    · intro e he; cases he
    · exact List.nil_sublist _
    · rintro ⟨q, hq, _⟩; cases hq
  | cons hd t ih =>
    obtain ⟨v, pd⟩ := hd
    intro complete next progress hrec hnd
    rw [List.map_cons, List.nodup_cons] at hnd
    obtain ⟨hvt, hndt⟩ := hnd
    have hrecT : ∀ p ∈ t, p.2.recursive = true :=
      fun p hp => hrec p (List.mem_cons_of_mem _ hp)
    have hrecV : pd.recursive = true := hrec (v, pd) (List.mem_cons_self _ _)
    by_cases hskip : (alookup complete v).isSome = true
    · obtain ⟨extraC, newnext, progress2, hrun, hexC, hkey, hnn, hsub, hmono, hforce⟩ :=
        ih complete next progress hrecT hndt
      refine ⟨extraC, newnext, progress2, ?_, ?_, ?_, ?_, ?_, hmono, ?_⟩
      · rw [show passPending V ((v, pd) :: t) complete next progress =
            (if (alookup complete v).isSome then passPending V t complete next progress
             else match tryResolve V pd complete with
              | Except.error e => Except.error e
              | Except.ok (TRR.complete r) =>
                passPending V t (complete ++ [(v, r)]) next true
              | Except.ok (TRR.incomplete p2 progressed) =>
                passPending V t complete (next ++ [(v, p2)]) (progress || progressed))
            from rfl, if_pos hskip]
        exact hrun
      · intro q hq
        rw [alookup_cons]
        by_cases hq1 : v = q.1
        · rw [if_pos hq1]; rfl
        · rw [if_neg hq1]; exact hexC q hq
      · intro k hk
        rw [alookup_cons] at hk
        by_cases hk1 : v = k
        · subst hk1
          exact Or.inl (alookup_append_isSome_left extraC hskip)
        · rw [if_neg hk1] at hk
          exact hkey k hk
      · intro e he
        obtain ⟨pdd, hpdd, h1, h2, h3⟩ := hnn e he
        exact ⟨pdd, List.mem_cons_of_mem _ hpdd, h1, h2, h3⟩
      · rw [List.map_cons]
        exact hsub.cons _
      · rintro ⟨q, hq, hqnone, hqdeps⟩
        rw [List.mem_cons] at hq
        rcases hq with hq | hq
        · subst hq
          rw [hqnone] at hskip
          cases hskip
        · exact hforce ⟨q, hq, hqnone, hqdeps⟩
    · have hnone : alookup complete v = none := by
        rwa [← Option.not_isSome_iff_eq_none]
      rcases tryResolve_rec_ok V HM HC pd complete hrecV with
        ⟨x, htr⟩ | ⟨pp, prog, htr, hppRec, hppDeps⟩
      · obtain ⟨extraC, newnext, progress2, hrun, hexC, hkey, hnn, hsub, hmono, _⟩ :=
          ih (complete ++ [(v, x)]) next true hrecT hndt
        refine ⟨(v, x) :: extraC, newnext, progress2, ?_, ?_, ?_, ?_, ?_,
          fun _ => hmono rfl, fun _ => hmono rfl⟩
        · rw [show passPending V ((v, pd) :: t) complete next progress =
              (if (alookup complete v).isSome then passPending V t complete next progress
               else match tryResolve V pd complete with
                | Except.error e => Except.error e
                | Except.ok (TRR.complete r) =>
                  passPending V t (complete ++ [(v, r)]) next true
                | Except.ok (TRR.incomplete p2 progressed) =>
                  passPending V t complete (next ++ [(v, p2)]) (progress || progressed))
              from rfl, if_neg hskip, htr]
          show passPending V t (complete ++ [(v, x)]) next true =
            Except.ok (complete ++ ((v, x) :: extraC), next ++ newnext, progress2)
          rw [hrun, append_singleton_assoc]
        · intro q hq
          rw [List.mem_cons] at hq
          rcases hq with hq | hq
          · rw [hq, alookup_cons, if_pos rfl]
            rfl
          · rw [alookup_cons]
            by_cases hq1 : v = q.1
            · rw [if_pos hq1]; rfl
            · rw [if_neg hq1]
              exact hexC q hq
        · intro k hk
          rw [alookup_cons] at hk
          by_cases hk1 : v = k
          · subst hk1
            refine Or.inl ?_
            rw [alookup_append_right _ hnone, alookup_cons, if_pos rfl]
            rfl
          · rw [if_neg hk1] at hk
            rcases hkey k hk with h2 | h2
            · rw [append_singleton_assoc] at h2
              exact Or.inl h2
            · exact Or.inr h2
        · intro e he
          obtain ⟨pdd, hpdd, h1, h2, h3⟩ := hnn e he
          rw [append_singleton_assoc] at h3
          exact ⟨pdd, List.mem_cons_of_mem _ hpdd, h1, h2, h3⟩
        · rw [List.map_cons]
          exact hsub.cons _
      · obtain ⟨extraC, newnext, progress2, hrun, hexC, hkey, hnn, hsub, hmono, hforce⟩ :=
          ih complete (next ++ [(v, pp)]) (progress || prog) hrecT hndt
        have hexCnone : alookup extraC v = none := by
          cases hce : alookup extraC v with
          | none => rfl
          | some w =>
            have h2 := hexC (v, w) (alookup_mem hce)
            rw [alookup_isSome_iff] at h2
            exact absurd h2 hvt
        refine ⟨extraC, (v, pp) :: newnext, progress2, ?_, ?_, ?_, ?_, ?_, ?_, ?_⟩
        · rw [show passPending V ((v, pd) :: t) complete next progress =
              (if (alookup complete v).isSome then passPending V t complete next progress
               else match tryResolve V pd complete with
                | Except.error e => Except.error e
                | Except.ok (TRR.complete r) =>
                  passPending V t (complete ++ [(v, r)]) next true
                | Except.ok (TRR.incomplete p2 progressed) =>
                  passPending V t complete (next ++ [(v, p2)]) (progress || progressed))
              from rfl, if_neg hskip, htr]
          show passPending V t complete (next ++ [(v, pp)]) (progress || prog) =
            Except.ok (complete ++ extraC, next ++ ((v, pp) :: newnext), progress2)
          rw [hrun, append_singleton_assoc]
        · intro q hq
          rw [alookup_cons]
          by_cases hq1 : v = q.1
          · rw [if_pos hq1]; rfl
          · rw [if_neg hq1]; exact hexC q hq
        · intro k hk
          rw [alookup_cons] at hk
          by_cases hk1 : v = k
          · subst hk1
            refine Or.inr ?_
            rw [alookup_cons, if_pos rfl]
            rfl
          · rw [if_neg hk1] at hk
            rcases hkey k hk with h2 | h2
            · exact Or.inl h2
            · refine Or.inr ?_
              rw [alookup_cons, if_neg hk1]
              exact h2
        · intro e he
          rw [List.mem_cons] at he
          rcases he with he | he
          · subst he
            exact ⟨pd, List.mem_cons_self _ _, hppRec, hppDeps,
              alookup_append_none hnone hexCnone⟩
          · obtain ⟨pdd, hpdd, h1, h2, h3⟩ := hnn e he
            exact ⟨pdd, List.mem_cons_of_mem _ hpdd, h1, h2, h3⟩
        · rw [List.map_cons, List.map_cons]
          exact List.Sublist.cons₂ _ hsub
        · intro hp
          refine hmono ?_
          rw [hp]
          rfl
        · rintro ⟨q, hq, hqnone, hqdeps⟩
          rw [List.mem_cons] at hq
          rcases hq with hq | hq
          · subst hq
            obtain ⟨x, hx⟩ := tryResolve_completes V HM HC pd complete hrecV hqdeps
            rw [htr] at hx
            injection hx with h2
            cases h2
          · exact hforce ⟨q, hq, hqnone, hqdeps⟩

/-! ### The loop never reports NoProgress on a well-formed table (C2) -/

theorem map_fst_keyed {α β : Type} (l : List (Nat × α)) (f : Nat × α → β) :
    ((l.map fun p => (p.1, f p)).map Prod.fst) = l.map Prod.fst := by
  induction l with
  | nil => rfl
  | cons p rest ih => rw [List.map_cons, List.map_cons, List.map_cons, ih]

theorem alookup_keyed_isSome {α β : Type} (l : List (Nat × α)) (f : Nat × α → β)
    (k : Nat) :
    (alookup (l.map fun p => (p.1, f p)) k).isSome ↔ (alookup l k).isSome := by
  rw [alookup_isSome_iff, alookup_isSome_iff, map_fst_keyed]

theorem resolveLoop_ok {T E : Type} (V : SValue T E)
    (HM : ∀ a b, ∃ r, V.merge a b = Except.ok r)
    (HC : ∀ o, ∃ r, V.resolveCycle o = Except.ok r) (rank : Nat → Nat) :
    ∀ (fuel : Nat) (ps : List (Nat × Pending T)) (complete : List (Nat × T)),
      pMeasure ps < fuel →
      (ps.map Prod.fst).Nodup →
      (∀ p ∈ ps, p.2.recursive = true) →
      (∀ p ∈ ps, ∀ d ∈ p.2.deps, rank d < rank p.1) →
      (∀ p ∈ ps, ∀ d ∈ p.2.deps,
        (alookup complete d).isSome ∨ (alookup ps d).isSome) →
      (ps = [] ∨ ∃ p ∈ ps, alookup complete p.1 = none) →
      ∃ m, resolveLoop V fuel ps complete = some (Except.ok m) := by
  intro fuel
  induction fuel with
  | zero =>
    intro ps complete hfuel _ _ _ _ _
    exact absurd hfuel (Nat.not_lt_zero _)
  | succ fuel ih =>
    intro ps complete hfuel hnd hrec hrank hcover hlive
    cases ps with
    | nil => exact ⟨complete, rfl⟩
    | cons q0 qs =>
      obtain ⟨extraC, newnext, progress2, hrun, hexC, hkey, hnn, hsub, _, hforce⟩ :=
        passPending_spec V HM HC (q0 :: qs) complete [] false hrec hnd
      rw [List.nil_append] at hrun
      have hex : ∃ p ∈ q0 :: qs, alookup complete p.1 = none := by
        rcases hlive with h | h
        · cases h
        · exact h
      obtain ⟨pmin, hpmem, hpnone, hpminOn⟩ :=
        exists_min_on (fun p => rank p.1) (fun p => alookup complete p.1 = none)
          (q0 :: qs) hex
      have hdepsC : ∀ d ∈ pmin.2.deps, (alookup complete d).isSome := by
        intro d hd
        rcases hcover pmin hpmem d hd with h | h
        · exact h
        · by_cases hdc : (alookup complete d).isSome = true
          · exact hdc
          · obtain ⟨pdq, hpdq⟩ := Option.isSome_iff_exists.mp h
            have hmemd : (d, pdq) ∈ q0 :: qs := alookup_mem hpdq
            have hmin := hpminOn (d, pdq) hmemd
              (by rwa [← Option.not_isSome_iff_eq_none])
            have hlt := hrank pmin hpmem d hd
            simp only at hmin
            omega
      have hprog : progress2 = true := hforce ⟨pmin, hpmem, hpnone, hdepsC⟩
      subst hprog
      have hstep : resolveLoop V (fuel + 1) (q0 :: qs) complete =
          (match passPending V (q0 :: qs) complete [] false with
           | Except.error e => some (Except.error e)
           | Except.ok (complete2, nx, progress) =>
             if progress then resolveLoop V fuel nx complete2
             else some (Except.error SErr.noProgress)) := rfl
      rw [hstep, hrun]
      show ∃ m, resolveLoop V fuel newnext (complete ++ extraC) = some (Except.ok m)
      have hm := passPending_measure V (q0 :: qs) complete [] false
        (complete ++ extraC) newnext true hrun
      have hlt : pMeasure newnext < pMeasure (q0 :: qs) := by
        have h2 := hm.2 rfl rfl
        rw [pMeasure_nil] at h2
        omega
      refine ih newnext (complete ++ extraC) (by omega) ?_ ?_ ?_ ?_ ?_
      · exact hnd.sublist hsub
      · intro p hp
        obtain ⟨pdd, _, h1, _, _⟩ := hnn p hp
        exact h1
      · intro p hp d hd
        obtain ⟨pdd, hmem, _, hdeps, _⟩ := hnn p hp
        exact hrank (p.1, pdd) hmem d (hdeps d hd)
      · intro p hp d hd
        obtain ⟨pdd, hmem, _, hdeps, _⟩ := hnn p hp
        rcases hcover (p.1, pdd) hmem d (hdeps d hd) with h | h
        · exact Or.inl (alookup_append_isSome_left extraC h)
        · rcases hkey d h with h2 | h2
          · exact Or.inl h2
          · exact Or.inr h2
      · rcases hnx : newnext with _ | ⟨e, es⟩
        · exact Or.inl rfl
        · refine Or.inr ⟨e, List.mem_cons_self e es, ?_⟩
          obtain ⟨_, _, _, _, h4⟩ := hnn e (by rw [hnx]; exact List.mem_cons_self e es)
          exact h4

theorem prepareP_invariants (T : Type) (unknown : List (Nat × List Nat))
    (ps : List (Nat × Pending T)) (hps : prepareP T unknown = some ps) :
    (ps.map Prod.fst).Nodup ∧
      (∀ p ∈ ps, p.2.recursive = true) ∧
      (∃ rank : Nat → Nat, ∀ p ∈ ps, ∀ d ∈ p.2.deps, rank d < rank p.1) ∧
      (∀ p ∈ ps, ∀ d ∈ p.2.deps, (alookup ps d).isSome) ∧
      (ps = [] ∨ ∃ p ∈ ps, (alookup unknown p.1).isSome) := by
  obtain ⟨comps, hsccs, hnd, hcov, _, hXE⟩ :=
    sccs_spec (buildGraph unknown) (buildGraph_GWF unknown)
  have hbig : prepareP T unknown =
      some ((comps.foldl rewriteComp (buildGraph unknown)).map
        fun q => (q.1, (⟨decide (q.1 ∈ q.2), none, q.2.erase q.1⟩ : Pending T))) := by
    simp only [prepareP, hsccs]
  rw [hps] at hbig
  have hps2 := Option.some.inj hbig
  obtain ⟨hGWF2, hkeys⟩ := foldComps_GWF_isSome comps (buildGraph unknown)
    (buildGraph_GWF unknown)
    (fun C hC m hm => by
      rw [← mem_nodes_iff, ← hcov m]
      exact List.mem_flatten.mpr ⟨C, hC, hm⟩)
  have hent := foldComps_entries_nodup comps (buildGraph unknown)
    (buildGraph_entries_nodup unknown)
  have hdeps_outer : ∀ n cs, (n, cs) ∈ comps.foldl rewriteComp (buildGraph unknown) →
      ∀ d ∈ cs.erase n, ∃ C k, comps.get? k = some C ∧ n ∈ C ∧
        d ∈ outerDeps (buildGraph unknown) C := by
    intro n cs hq d hd
    have hcs : cs.Nodup := hent (n, cs) hq
    have hde : d ≠ n ∧ d ∈ cs := (List.Nodup.mem_erase_iff hcs).mp hd
    have halq : alookup (comps.foldl rewriteComp (buildGraph unknown)) n = some cs :=
      alookup_of_mem_nodup hq hGWF2.1
    have hkey : (alookup (buildGraph unknown) n).isSome := by
      rw [← hkeys n, alookup_isSome_iff]
      exact List.mem_map_of_mem Prod.fst hq
    have hnode : n ∈ comps.flatten := by
      rw [hcov n, mem_nodes_iff]
      exact hkey
    obtain ⟨C, hC, hnC⟩ := List.mem_flatten.mp hnode
    obtain ⟨k, hk⟩ := List.get?_of_mem hC
    have hchar := foldComps_self comps (buildGraph unknown) hnd C hC n hnC d
    have hdch : d ∈ (comps.foldl rewriteComp (buildGraph unknown)).childrenD n := by
      unfold Graph.childrenD
      rw [halq]
      exact hde.2
    rcases hchar.mp hdch with h | h
    · exact ⟨C, k, hk, hnC, h⟩
    · exact absurd h hde.1
  refine ⟨?_, prepareP_all_recursive T unknown ps hps, ⟨rankIn comps, ?_⟩, ?_, ?_⟩
  · rw [hps2, map_fst_keyed]
    exact hGWF2.1
  · intro p hp d hd
    rw [hps2, List.mem_map] at hp
    obtain ⟨q, hq, hqp⟩ := hp
    obtain ⟨n, cs⟩ := q
    rw [← hqp] at hd ⊢
    obtain ⟨C, k, hk, hnC, hdout⟩ := hdeps_outer n cs hq d hd
    rw [mem_outerDeps] at hdout
    obtain ⟨⟨m, hmC, hdch⟩, hdnot⟩ := hdout
    rcases hXE k C hk m hmC d hdch with h | ⟨k2, C2, hk2lt, hk2, hdC2⟩
    · exact absurd h hdnot
    · show rankIn comps d < rankIn comps n
      rw [rankIn_eq hnd k C hk n hnC, rankIn_eq hnd k2 C2 hk2 d hdC2]
      exact hk2lt
  · intro p hp d hd
    rw [hps2, List.mem_map] at hp
    obtain ⟨q, hq, hqp⟩ := hp
    obtain ⟨n, cs⟩ := q
    rw [← hqp] at hd
    obtain ⟨C, k, hk, hnC, hdout⟩ := hdeps_outer n cs hq d hd
    rw [mem_outerDeps] at hdout
    obtain ⟨⟨m, hmC, hdch⟩, _⟩ := hdout
    have hdg : (alookup (buildGraph unknown) d).isSome := by
      unfold Graph.childrenD at hdch
      cases hc : alookup (buildGraph unknown) m with
      | none => rw [hc] at hdch; cases hdch
      | some l =>
        rw [hc] at hdch
        exact (buildGraph_GWF unknown).2 m l hc d hdch
    rw [hps2, alookup_keyed_isSome, hkeys d]
    exact hdg
  · by_cases hp0 : ps = []
    · exact Or.inl hp0
    · obtain ⟨e, he⟩ := List.exists_mem_of_ne_nil ps hp0
      have he2 := he
      rw [hps2, List.mem_map] at he2
      obtain ⟨q, hq, _⟩ := he2
      have hqg : (alookup (buildGraph unknown) q.1).isSome := by
        rw [← hkeys q.1, alookup_isSome_iff]
        exact List.mem_map_of_mem Prod.fst hq
      rw [buildGraph_isSome_iff] at hqg
      obtain ⟨u, hu, hune, _⟩ := hqg
      have hwg : (alookup (buildGraph unknown) u.1).isSome := by
        rw [buildGraph_isSome_iff]
        exact ⟨u, hu, hune, Or.inl rfl⟩
      have hwps : (alookup ps u.1).isSome := by
        rw [hps2, alookup_keyed_isSome, hkeys u.1]
        exact hwg
      obtain ⟨pend, hpend⟩ := Option.isSome_iff_exists.mp hwps
      refine Or.inr ⟨(u.1, pend), alookup_mem hpend, ?_⟩
      rw [alookup_isSome_iff]
      exact List.mem_map_of_mem Prod.fst hu

/-- C2: on a table whose fact and dependency key sets are disjoint — the
invariant `Table::fact` and `Table::dependency` maintain — if every
client `merge` and `resolve_cycle` call returns `Ok`, then
`Table::resolve` returns `Ok`: the `NoProgress` error is unreachable,
because cycle preparation makes every partial recursive and the
cross-component dependencies point only at earlier-emitted components,
so every pass finalizes at least one partial. -/
theorem resolve_ok_of_client_ok {T E : Type} (V : SValue T E) (t : STable T)
    (HM : ∀ a b, ∃ r, V.merge a b = Except.ok r)
    (HC : ∀ o, ∃ r, V.resolveCycle o = Except.ok r)
    (Hdisj : ∀ v, (alookup t.known v).isSome → alookup t.unknown v = none) :
    ∃ m, STable.resolve V t = some (Except.ok m) := by
  obtain ⟨comps, hsccs, _, _, _, _⟩ :=
    sccs_spec (buildGraph t.unknown) (buildGraph_GWF t.unknown)
  have hprep : ∃ ps, prepareP T t.unknown = some ps := by
    simp only [prepareP, hsccs]
    exact ⟨_, rfl⟩
  obtain ⟨ps, hps⟩ := hprep
  obtain ⟨hnd, hrec, ⟨rank, hrank⟩, hcover, hlive⟩ :=
    prepareP_invariants T t.unknown ps hps
  have hrun : STable.resolve V t = resolveLoop V (loopFuel ps) ps t.known := by
    simp only [STable.resolve, hps]
  rw [hrun]
  refine resolveLoop_ok V HM HC rank (loopFuel ps) ps t.known
    (by rw [loopFuel_eq]; omega) hnd hrec hrank
    (fun p hp d hd => Or.inr (hcover p hp d hd)) ?_
  rcases hlive with h | ⟨p, hp, hpu⟩
  · exact Or.inl h
  · refine Or.inr ⟨p, hp, ?_⟩
    by_cases hk : (alookup t.known p.1).isSome = true
    · have h2 := Hdisj p.1 hk
      rw [h2] at hpu
      cases hpu
    · rwa [← Option.not_isSome_iff_eq_none]

def w2V : SValue Nat Unit :=
  ⟨fun a b => Except.ok (a + b), fun o => Except.ok (o.getD 7)⟩

def w2T : STable Nat := ⟨2, [(1, 5)], [(0, [1])]⟩

theorem resolve_ok_of_client_ok_witness :
    ∃ m, STable.resolve w2V w2T = some (Except.ok m) :=
  resolve_ok_of_client_ok w2V w2T (fun a b => ⟨a + b, rfl⟩)
    (fun o => ⟨o.getD 7, rfl⟩)
    (by
      intro v hv
      have h1 : v = 1 := by
        rw [alookup_isSome_iff] at hv
        rw [show (w2T.known.map Prod.fst) = [1] from rfl, List.mem_singleton] at hv
        exact hv
      subst h1
      rfl)

/-! ### Resolution always ends in `resolve_cycle` (C1) -/

/-- C1 counterexample: `prepare_partials` gives every node a self-edge,
so `resolve` finalizes every non-fact variable through `resolve_cycle`,
including variables in no cyclic SCC.  With the client
`merge = (+)`, `resolve_cycle o = o.getD 0 + 100` and the table
`fact 1 5; dependency 0 1`, variable `0` lies in the singleton component
`{0}` with no self-edge in the original dependency graph, the merge-fold
of the resolved values of its original dependencies is `5`, yet `resolve`
assigns `resolve_cycle(5) = 105`. -/
def cxV : SValue Nat Unit :=
  ⟨fun a b => Except.ok (a + b), fun o => Except.ok (o.getD 0 + 100)⟩

def cxT : STable Nat := ⟨2, [(1, 5)], [(0, [1])]⟩

def cxM : List (Nat × Nat) := [(1, 5), (0, 105)]

/-- C1 counterexample record: `resolve` succeeds, variable 0 is in no
cyclic SCC, the merge-fold of its original dependencies is 5, yet its
assigned value is 105. -/
theorem resolve_acyclic_var_uses_resolve_cycle_counterexample :
    STable.resolve cxV cxT = some (Except.ok cxM) ∧
      scanDeps cxV cxM [1] none [] = Except.ok (some 5, []) ∧
      sccs (buildGraph cxT.unknown) = some [[1], [0]] ∧
      (0 ∉ (buildGraph cxT.unknown).childrenD 0) ∧
      alookup cxM 0 = some 105 ∧ ¬alookup cxM 0 = some 5 := by
  refine ⟨by decide, by decide, by decide, by decide, by decide, by decide⟩

end Pelican
